import Mathlib

/-!
# ZkPod2-lib: the a2 inner-product argument and the large-scale VRS layer

Shallow embedding of `src/public/hyrax/a2.h` and of `LargeProver` and
`LargeVerifier` of `src/public/vrs/vrs_large.h`.

* `Fr` is a field `F`, `G1` is an additive commutative group `G` that is an
  `F`-module (a prime-order curve group is a one-dimensional vector space over
  its scalar field).  The C++ `P * s` (point times scalar) is `s • P`.
* `std::vector<T>` is `List T`; `int64_t` sizes and indices are natural
  numbers (every run considered stays far below `2^63`).
* `assert(e)` depends on the build: with assertions compiled in it stops the
  program when `e` is false, under `NDEBUG` it does nothing.  Every function
  that contains an `assert` takes the build flag `dbg` and returns
  `Except Fault _`.
* Values drawn from `FrRand` are explicit arguments.
* The shard units `Prover` / `Verifier`, `SplitFr`, the hash and the constants
  `kGSize`, `kMaxUnitPerZkp` are external to these two files and are
  parameters.
-/

set_option autoImplicit false
set_option linter.unusedSectionVars false

/-- Ways in which a run stops without returning a value. -/
inductive Fault where
  /-- An `assert` whose condition is false, in a build with assertions. -/
  | assertFailed
  /-- An element access outside a vector, or a call through a null pointer. -/
  | invalidAccess
  deriving DecidableEq, Repr

/-- The C `assert(cond)`: stops a build with assertions (`dbg = true`) when
the condition is false, and is compiled out otherwise. -/
def cassert (dbg : Bool) (cond : Bool) : Except Fault Unit :=
  if dbg && !cond then Except.error Fault.assertFailed else Except.ok ()

/-- A 256-bit digest `h256_t`, as its sequence of bytes. -/
abbrev h256_t := List Nat

/-- Modelled from the spec: the Pedersen public parameters `PdsPub` (the
header `pds_pub.h` is not part of the sources at hand).  `kGSize` bounds the
number of vector generators, `g i` is the i-th vector generator, `u` the base
that carries a single committed scalar and `h` the blinding base, so that
`Commit(v, r) = v*G + r*H`. -/
structure PdsPub (G : Type) where
  kGSize : Nat
  g : Nat → G
  u : G
  h : G

/-- The hashing primitives used for the Fiat-Shamir challenge, all external to
`a2.h`: `keccak256` is the digest of the whole byte string fed to a
`CryptoPP::Keccak_256` object, `encodeG1` is the byte string that
`HashUpdate(hash, G1)` feeds, and `H256ToFr` maps a digest into the field. -/
structure HashEnv (F G : Type) where
  keccak256 : List Nat → h256_t
  encodeG1 : G → List Nat
  H256ToFr : h256_t → F

/-- Modelled from the spec: `InnerProduct(x, a)` of `fst.h`, the sum of the
coordinate products `<x,a>`. -/
def InnerProduct {F : Type} [Field F] (x a : List F) : F :=
  (List.zipWith (fun p q => p * q) x a).sum

/-- Modelled from the spec: the vector expression `x * c + d` of
`ComputeProof` (`z = c*x + d`), coordinate by coordinate. -/
def VecScaleAdd {F : Type} [Field F] (x : List F) (c : F) (d : List F) : List F :=
  List.zipWith (fun p q => p * c + q) x d

/-- The multi-exponentiation `sum_i z_i * g_i` over the generators
`g 0, g 1, ...`. -/
def MultiExp {F G : Type} [Field F] [AddCommGroup G] [Module F G] (g : Nat → G) : List F → G
  | [] => 0
  | z :: zs => z • g 0 + MultiExp (fun i => g (i + 1)) zs

/-- `FrRand(buf, n)`: fills `n` slots from the random source `src`. -/
def FrRandVec {F : Type} (src : Nat → F) (n : Nat) : List F :=
  (List.range n).map src

namespace hyrax.a2

/-- Modelled from the spec: `details::ComputeCommitment(vector, r)` of
`hyrax/details.h`, the Pedersen vector commitment `sum_i x_i*g_i + r*h`. -/
def ComputeCommitment {F G : Type} [Field F] [AddCommGroup G] [Module F G]
    (pds : PdsPub G) (x : List F) (r : F) : G :=
  MultiExp pds.g x + r • pds.h

/-- Modelled from the spec: `details::ComputeCommitment(scalar, r)` of
`hyrax/details.h`, the Pedersen commitment `y*u + r*h` to one scalar. -/
def ComputeCommitment1 {F G : Type} [Field F] [AddCommGroup G] [Module F G]
    (pds : PdsPub G) (y : F) (r : F) : G :=
  y • pds.u + r • pds.h

structure ProverInput (F : Type) where
  x : List F
  a : List F
  y : F

def ProverInput.n {F : Type} (input : ProverInput F) : Nat := input.x.length

/-- The constructor `ProverInput(x, a)`. -/
def ProverInput.make {F : Type} [Field F] (dbg : Bool) (x a : List F) :
    Except Fault (ProverInput F) :=
  match cassert dbg (x.length == a.length && !a.isEmpty) with
  | Except.error e => Except.error e
  | Except.ok _ => Except.ok { x := x, a := a, y := InnerProduct x a }

/-- The constructor `ProverInput(x, a, y)`. -/
def ProverInput.makeWithY {F : Type} [Field F] [DecidableEq F] (dbg : Bool) (x a : List F)
    (y : F) : Except Fault (ProverInput F) :=
  match cassert dbg (decide (y = InnerProduct x a)) with
  | Except.error e => Except.error e
  | Except.ok _ => Except.ok { x := x, a := a, y := y }

structure CommitmentPub (G : Type) where
  xi : G
  tau : G

structure CommitmentSec (F : Type) where
  r_xi : F
  r_tau : F

structure CommitmentExtPub (G : Type) where
  delta : G
  beta : G

structure CommitmentExtSec (F : Type) where
  d : List F
  r_beta : F
  r_delta : F

structure Proof (F : Type) where
  z : List F
  z_delta : F
  z_beta : F

def Proof.n {F : Type} (proof : Proof F) : Nat := proof.z.length

structure RomProof (F G : Type) where
  com_ext_pub : CommitmentExtPub G
  proof : Proof F

def RomProof.n {F G : Type} (rom_proof : RomProof F G) : Nat := rom_proof.proof.n

structure VerifierInput (F G : Type) where
  a : List F
  com_pub : CommitmentPub G

/-- The values `ComputeCom` draws from `FrRand`. -/
structure ComRand (F : Type) where
  r_xi : F
  r_tau : F

/-- The values `ComputeCommitmentExt` draws from `FrRand`: the source of the
vector `d`, then `r_beta`, then `r_delta`. -/
structure ExtRand (F : Type) where
  d : Nat → F
  r_beta : F
  r_delta : F

section
variable {F G : Type} [Field F] [AddCommGroup G] [Module F G]

def VerifyInternal [DecidableEq G] (pds : PdsPub G) (dbg : Bool) (input : VerifierInput F G)
    (challenge : F) (com_ext_pub : CommitmentExtPub G) (proof : Proof F) :
    Except Fault Bool :=
  let com_pub := input.com_pub
  let ret1 : Bool :=
    let xi := com_pub.xi
    let delta := com_ext_pub.delta
    let left := challenge • xi + delta
    let right := ComputeCommitment pds proof.z proof.z_delta
    decide (left = right)
  let ret2 : Bool :=
    let tau := com_pub.tau
    let beta := com_ext_pub.beta
    let left := challenge • tau + beta
    let ip_za := InnerProduct proof.z input.a
    let right := ComputeCommitment1 pds ip_za proof.z_beta
    decide (left = right)
  match cassert dbg (ret1 && ret2) with
  | Except.error e => Except.error e
  | Except.ok _ => Except.ok (ret1 && ret2)

def ComputeCom (pds : PdsPub G) (rnd : ComRand F) (input : ProverInput F) :
    CommitmentPub G × CommitmentSec F :=
  let com_sec : CommitmentSec F := { r_xi := rnd.r_xi, r_tau := rnd.r_tau }
  ({ xi := ComputeCommitment pds input.x com_sec.r_xi,
     tau := ComputeCommitment1 pds input.y com_sec.r_tau }, com_sec)

def ComputeCommitmentExt (pds : PdsPub G) (rnd : ExtRand F) (input : ProverInput F) :
    CommitmentExtPub G × CommitmentExtSec F :=
  let n := input.n
  let com_ext_sec : CommitmentExtSec F :=
    { d := FrRandVec rnd.d n, r_beta := rnd.r_beta, r_delta := rnd.r_delta }
  ({ delta := ComputeCommitment pds com_ext_sec.d com_ext_sec.r_delta,
     beta := ComputeCommitment1 pds (InnerProduct input.a com_ext_sec.d) com_ext_sec.r_beta },
   com_ext_sec)

def UpdateSeed (env : HashEnv F G) (seed : h256_t) (com_pub : CommitmentPub G)
    (com_ext_pub : CommitmentExtPub G) : h256_t :=
  env.keccak256
    (seed ++ env.encodeG1 com_pub.xi ++ env.encodeG1 com_pub.tau
      ++ env.encodeG1 com_ext_pub.beta ++ env.encodeG1 com_ext_pub.delta)

def ComputeProof (input : ProverInput F) (com_sec : CommitmentSec F)
    (com_ext_sec : CommitmentExtSec F) (challenge : F) : Proof F :=
  { z := VecScaleAdd input.x challenge com_ext_sec.d,
    z_delta := challenge * com_sec.r_xi + com_ext_sec.r_delta,
    z_beta := challenge * com_sec.r_tau + com_ext_sec.r_beta }

def RomProve (pds : PdsPub G) (env : HashEnv F G) (dbg : Bool) (rnd : ExtRand F)
    (common_seed : h256_t) (input : ProverInput F) (com_pub : CommitmentPub G)
    (com_sec : CommitmentSec F) : Except Fault (RomProof F G) :=
  match cassert dbg (decide (pds.kGSize ≥ input.n)) with
  | Except.error e => Except.error e
  | Except.ok _ =>
    let ext := ComputeCommitmentExt pds rnd input
    let seed := UpdateSeed env common_seed com_pub ext.1
    let challenge := env.H256ToFr seed
    Except.ok { com_ext_pub := ext.1, proof := ComputeProof input com_sec ext.2 challenge }

def RomVerify [DecidableEq G] (pds : PdsPub G) (env : HashEnv F G) (dbg : Bool)
    (rom_proof : RomProof F G) (common_seed : h256_t) (input : VerifierInput F G) :
    Except Fault Bool :=
  match cassert dbg (decide (pds.kGSize ≥ rom_proof.n)) with
  | Except.error e => Except.error e
  | Except.ok _ =>
    if input.a.length ≠ rom_proof.proof.z.length ∨ input.a.isEmpty = true then
      Except.ok false
    else
      let seed := UpdateSeed env common_seed input.com_pub rom_proof.com_ext_pub
      let challenge := env.H256ToFr seed
      VerifyInternal pds dbg input challenge rom_proof.com_ext_pub rom_proof.proof

/-- The challenge as the spec words it, `H(seed || xi || tau || beta || delta)`
mapped into the field; compared below with what `RomProve` and `RomVerify`
compute. -/
def specChallenge (env : HashEnv F G) (seed : h256_t) (xi tau beta delta : G) : F :=
  env.H256ToFr
    (env.keccak256
      (seed ++ env.encodeG1 xi ++ env.encodeG1 tau ++ env.encodeG1 beta ++ env.encodeG1 delta))

/-- The body of `TestRom(n)` once `x`, `a`, the seed and all later `FrRand`
values are drawn. -/
def TestRom [DecidableEq G] (pds : PdsPub G) (env : HashEnv F G) (dbg : Bool)
    (x a : List F) (seed : h256_t) (rc : ComRand F) (re : ExtRand F) : Except Fault Bool :=
  match ProverInput.make dbg x a with
  | Except.error e => Except.error e
  | Except.ok prover_input =>
    let com := ComputeCom pds rc prover_input
    match RomProve pds env dbg re seed prover_input com.1 com.2 with
    | Except.error e => Except.error e
    | Except.ok rom_proof =>
      RomVerify pds env dbg rom_proof seed { a := a, com_pub := com.1 }

end

end hyrax.a2

/-! ## The large-scale verifier (`vrs_large.h`) -/

namespace vrs

/-- Modelled from the spec: `PublicInput` of the shard unit headers, the
element `count` with the accessor `get_p(index)`. -/
structure PublicInput (G : Type) where
  count : Nat
  get_p : Nat → G

/-- Modelled from the spec: `ProveOutput` / `VerifyOutput`, the three group
elements `h`, `g`, `key_com` that `MergeOutputs` reads and writes. -/
structure Output (G : Type) where
  h : G
  g : G
  key_com : G

abbrev VerifyOutput (G : Type) := Output G

/-- A default-constructed output (a default `G1` is the group zero). -/
def Output.init {G : Type} [AddCommGroup G] : Output G := { h := 0, g := 0, key_com := 0 }

/-- Modelled from the spec: the shard-level `Proof`.  This layer reads only
its `com_vw`; everything else is the payload `rest`. -/
structure Proof (G R : Type) where
  com_vw : G
  rest : R

/-- Modelled from the spec: the shard unit `Verifier`, constructed from the
`PublicInput` of its shard. -/
structure Verifier (G : Type) where
  public_input : PublicInput G

/-- Modelled from the spec: the contract of the external
`Verifier::Verify(rom_seed, get_w, proof, output)`, as a function of the
verifier's public input and the three arguments, returning the boolean and the
output it writes. -/
abbrev ShardVerify (F G R : Type) :=
  PublicInput G → h256_t → (Nat → F) → Proof G R → Bool × VerifyOutput G

namespace details

/-- The template `MergeOutputs(output, outputs)`; reading `outputs[0]` of an
empty vector is an invalid access. -/
def MergeOutputs {G : Type} [AddCommGroup G] (output : Output G) (outputs : List (Output G)) :
    Except Fault (Output G) :=
  match outputs[0]? with
  | none => Except.error Fault.invalidAccess
  | some first =>
    Except.ok
      { output with
        h := first.h
        g := outputs.foldl (fun a b => a + b.g) 0
        key_com := outputs.foldl (fun a b => a + b.key_com) 0 }

end details

/-- A counted loop `for (i = 0; i < n; ++i) body`, threading the state and
stopping at the first fault. -/
def forLoop {σ : Type} (body : σ → Nat → Except Fault σ) : Nat → σ → Except Fault σ
  | 0, st => Except.ok st
  | n + 1, st =>
    match forLoop body n st with
    | Except.error e => Except.error e
    | Except.ok s => body s n

structure LargeVerifier (G : Type) where
  public_input_ : PublicInput G
  /-- The `unique_ptr<Verifier>` slots; `none` is a null pointer. -/
  verifiers_ : List (Option (Verifier G))
  items_ : List (Nat × Nat)
  com_vw_ : G

/-- The first loop of the constructor: `items_` for a given `count`. -/
def LargeVerifier.makeItems (kMaxUnitPerZkp count : Nat) : List (Nat × Nat) :=
  (List.range ((count + kMaxUnitPerZkp - 1) / kMaxUnitPerZkp)).map fun i =>
    let first := i * kMaxUnitPerZkp
    let second := first + kMaxUnitPerZkp
    (first, if second > count then count else second)

/-- The constructor `LargeVerifier(public_input)`. -/
def LargeVerifier.new {G : Type} [AddCommGroup G] (kMaxUnitPerZkp : Nat)
    (public_input : PublicInput G) : LargeVerifier G :=
  let items_ := LargeVerifier.makeItems kMaxUnitPerZkp public_input.count
  let pair_size := fun (p : Nat × Nat) => p.2 - p.1
  { public_input_ := public_input
    items_ := items_
    verifiers_ := items_.map fun item =>
      some { public_input :=
              { count := pair_size item, get_p := fun j => public_input.get_p (item.1 + j) } }
    com_vw_ := 0 }

def LargeVerifier.com_vw {G : Type} (self : LargeVerifier G) : G := self.com_vw_

/-- The locals of `Verify` that the shard loop updates, with the ghost list
`calls` of the shard verifiers invoked so far. -/
structure VerifyLoop (G : Type) where
  verifiers_ : List (Option (Verifier G))
  rets : List Int
  outputs : List (VerifyOutput G)
  calls : List Nat

/-- The call `verifiers_[i]->Verify(rom_seed, this_get_w, proofs[i], outputs[i])`
of iteration `i`; `none` when an index is out of range or the pointer is
null. -/
def shardCall {F G R : Type} (sv : ShardVerify F G R) (items_ : List (Nat × Nat))
    (verifiers_ : List (Option (Verifier G))) (rom_seed : h256_t) (get_w : Nat → F)
    (proofs : List (Proof G R)) (i : Nat) : Option (Bool × VerifyOutput G) :=
  match items_[i]?, verifiers_[i]?, proofs[i]? with
  | some item, some (some v), some proof =>
    let this_get_w := fun j => get_w (j + item.1)
    some (sv v.public_input rom_seed this_get_w proof)
  | _, _, _ => none

/-- One iteration of the shard loop of `Verify`. -/
def LargeVerifier.loopBody {F G R : Type} (sv : ShardVerify F G R) (items_ : List (Nat × Nat))
    (rom_seed : h256_t) (get_w : Nat → F) (proofs : List (Proof G R))
    (st : VerifyLoop G) (i : Nat) : Except Fault (VerifyLoop G) :=
  match shardCall sv items_ st.verifiers_ rom_seed get_w proofs i with
  | none => Except.error Fault.invalidAccess
  | some r =>
    Except.ok
      { verifiers_ := st.verifiers_.set i none
        rets := st.rets.set i (if r.1 then 1 else 0)
        outputs := st.outputs.set i r.2
        calls := st.calls ++ [i] }

/-- What a call of `Verify` leaves behind: the returned boolean, the object,
the by-reference `output`, and the ghost list of shard verifiers invoked. -/
structure VerifyResult (G : Type) where
  ret : Bool
  self : LargeVerifier G
  output : VerifyOutput G
  calls : List Nat

/-- `LargeVerifier::Verify(rom_seed, get_w, proofs, output)`.  The shard loop
runs in index order; under `MULTICORE` its iterations run concurrently, each
on its own slots `rets[i]`, `outputs[i]`, `verifiers_[i]`. -/
def LargeVerifier.Verify {F G R : Type} [AddCommGroup G] (sv : ShardVerify F G R)
    (self : LargeVerifier G) (rom_seed : h256_t) (get_w : Nat → F)
    (proofs : List (Proof G R)) (output : VerifyOutput G) : Except Fault (VerifyResult G) :=
  if proofs.length ≠ self.verifiers_.length then
    Except.ok { ret := false, self := self, output := output, calls := [] }
  else
    let size := self.verifiers_.length
    let init : VerifyLoop G :=
      { verifiers_ := self.verifiers_
        rets := List.replicate size 0
        outputs := List.replicate size Output.init
        calls := [] }
    match forLoop (LargeVerifier.loopBody sv self.items_ rom_seed get_w proofs) size init with
    | Except.error e => Except.error e
    | Except.ok st =>
      let self1 := { self with verifiers_ := st.verifiers_ }
      if st.rets.any (fun r => r == 0) then
        Except.ok { ret := false, self := self1, output := output, calls := st.calls }
      else
        match details.MergeOutputs output st.outputs with
        | Except.error e => Except.error e
        | Except.ok merged =>
          Except.ok
            { ret := true
              self := { self1 with com_vw_ := proofs.foldl (fun a b => a + b.com_vw) 0 }
              output := merged
              calls := st.calls }

end vrs

/-! ## The large-scale prover (`vrs_large.h`) -/

namespace groth09.details

/-- Modelled from the spec: `groth09::details::ComputeCommitment(x, r)` for one
scalar, the Pedersen commitment `x*u + r*h` (`Commit(v, r) = v*G + r*H`). -/
def ComputeCommitment {F G : Type} [Field F] [AddCommGroup G] [Module F G]
    (pds : PdsPub G) (x : F) (r : F) : G :=
  x • pds.u + r • pds.h

end groth09.details

namespace vrs

/-- Modelled from the spec: `SecretInput`, the secret `key` and the blinding
scalars `vw_com_r`, `key_com_r`. -/
structure SecretInput (F : Type) where
  key : F
  vw_com_r : F
  key_com_r : F

abbrev ProveOutput (G : Type) := Output G

/-- Modelled from the spec: `SplitLargeTask(count)`, the consecutive ranges of
length `kMaxUnitPerZkp` that partition `[0, count)`, the last one truncated to
the remainder; `count = 0` yields no range. -/
def SplitLargeTask (kMaxUnitPerZkp count : Nat) : List (Nat × Nat) :=
  (List.range ((count + kMaxUnitPerZkp - 1) / kMaxUnitPerZkp)).map fun i =>
    (i * kMaxUnitPerZkp, min ((i + 1) * kMaxUnitPerZkp) count)

/-- The external `SplitFr(secret, k)`: a function of the values it draws from
`FrRand`, the secret and the number of shares. -/
abbrev SplitFrFn (F : Type) := (Nat → F) → F → Nat → List F

/-- Modelled from the spec: the shard unit `Prover`, constructed from the
`PublicInput` of its shard, its `SecretInput` and its cache slices. -/
structure Prover (F G : Type) where
  public_input : PublicInput G
  secret_input : SecretInput F
  cached_var_com : List G
  cached_var_com_r : List F

/-- Modelled from the spec: the contract of the external shard `Prover`:
`Evaluate` gives the vector `v()` after `Evaluate()`, `Prove` gives the proof
and output written by `Prove(rom_seed, get_w, proof, output)` together with
`vw()`. -/
structure ShardProver (F G R : Type) where
  Evaluate : Prover F G → List F
  Prove : Prover F G → h256_t → (Nat → F) → Proof G R × ProveOutput G × F

/-- Runs `f` on every element in order and stops at the first fault. -/
def traverse {α β : Type} (f : α → Except Fault β) : List α → Except Fault (List β)
  | [] => Except.ok []
  | a :: rest =>
    match f a with
    | Except.error e => Except.error e
    | Except.ok b =>
      match traverse f rest with
      | Except.error e => Except.error e
      | Except.ok bs => Except.ok (b :: bs)

/-- `std::vector::resize(n)`: keeps the first `n` elements and pads with
default-constructed ones. -/
def resize {α : Type} (l : List α) (n : Nat) (d : α) : List α :=
  l.take n ++ List.replicate (n - l.length) d

/-- `std::copy(src.begin(), src.end(), dst.begin() + off)`; writing past the
end of `dst` is an invalid access. -/
def copyAt {α : Type} (dst : List α) (off : Nat) (src : List α) : Except Fault (List α) :=
  if off + src.length ≤ dst.length then
    Except.ok (dst.take off ++ src ++ dst.drop (off + src.length))
  else Except.error Fault.invalidAccess

structure LargeProver (F G : Type) where
  public_input_ : PublicInput G
  secret_input_ : SecretInput F
  /-- The `unique_ptr<Prover>` slots; `none` is a null pointer. -/
  provers_ : List (Option (Prover F G))
  items_ : List (Nat × Nat)
  vw_ : F
  v_ : List F

def LargeProver.primary_input_size_ : Nat := 1

/-- The private `BuildSecretInputs(cached_var_coms_r)`; `rv` and `rk` are the
`FrRand` values of the two `SplitFr` calls. -/
def LargeProver.BuildSecretInputs {F : Type} [Field F] (dbg : Bool) (SplitFr : SplitFrFn F)
    (rv rk : Nat → F) (secret_input_ : SecretInput F) (items_ : List (Nat × Nat))
    (cached_var_coms_r : List (List F)) : Except Fault (List (SecretInput F)) :=
  let size := items_.length
  let vw_com_rs := SplitFr rv secret_input_.vw_com_r size
  match traverse (fun i =>
      match vw_com_rs[i]? with
      | some r =>
        Except.ok ({ key := secret_input_.key, vw_com_r := r, key_com_r := 0 } : SecretInput F)
      | none => Except.error Fault.invalidAccess) (List.range size) with
  | Except.error e => Except.error e
  | Except.ok ret =>
    if cached_var_coms_r.isEmpty then
      let key_com_rs := SplitFr rk secret_input_.key_com_r size
      traverse (fun i =>
        match ret[i]?, key_com_rs[i]? with
        | some s, some r => Except.ok { s with key_com_r := r }
        | _, _ => Except.error Fault.invalidAccess) (List.range size)
    else
      match cassert dbg (cached_var_coms_r.length == size) with
      | Except.error e => Except.error e
      | Except.ok _ =>
        traverse (fun i =>
          match ret[i]?, cached_var_coms_r[i]? with
          | some s, some row =>
            match row[LargeProver.primary_input_size_]? with
            | some r => Except.ok { s with key_com_r := r }
            | none => Except.error Fault.invalidAccess
          | _, _ => Except.error Fault.invalidAccess) (List.range size)

/-- The constructor
`LargeProver(public_input, secret_input, cached_var_coms, cached_var_coms_r)`. -/
def LargeProver.new {F G : Type} [Field F] (dbg : Bool) (kMaxUnitPerZkp : Nat)
    (SplitFr : SplitFrFn F) (rv rk : Nat → F) (public_input : PublicInput G)
    (secret_input : SecretInput F) (cached_var_coms : List (List G))
    (cached_var_coms_r : List (List F)) : Except Fault (LargeProver F G) :=
  let items_ := SplitLargeTask kMaxUnitPerZkp public_input.count
  match cassert dbg (cached_var_coms.length == cached_var_coms_r.length) with
  | Except.error e => Except.error e
  | Except.ok _ =>
    match LargeProver.BuildSecretInputs dbg SplitFr rv rk secret_input items_
        cached_var_coms_r with
    | Except.error e => Except.error e
    | Except.ok secret_inputs =>
      match (if cached_var_coms.length ≠ items_.length then
          cassert dbg cached_var_coms.isEmpty else Except.ok ()) with
      | Except.error e => Except.error e
      | Except.ok _ =>
        let coms : List (List G) :=
          if cached_var_coms.length ≠ items_.length then resize [] items_.length []
          else cached_var_coms
        let coms_r : List (List F) :=
          if cached_var_coms.length ≠ items_.length then
            resize cached_var_coms_r items_.length []
          else cached_var_coms_r
        match traverse (fun i =>
            match items_[i]?, secret_inputs[i]?, coms[i]?, coms_r[i]? with
            | some item, some si, some cached_var_com, some cached_var_com_r =>
              Except.ok (some
                ({ public_input :=
                    { count := item.2 - item.1
                      get_p := fun j => public_input.get_p (item.1 + j) }
                   secret_input := si
                   cached_var_com := cached_var_com
                   cached_var_com_r := cached_var_com_r } : Prover F G))
            | _, _, _, _ => Except.error Fault.invalidAccess) (List.range items_.length) with
        | Except.error e => Except.error e
        | Except.ok provers =>
          Except.ok
            { public_input_ := public_input
              secret_input_ := secret_input
              provers_ := provers
              items_ := items_
              vw_ := 0
              v_ := [] }

/-- `LargeProver::Evaluate()`: every shard's `v()` is copied to offset
`i * kMaxUnitPerZkp` of `v_`. -/
def LargeProver.Evaluate {F G R : Type} [Field F] (sp : ShardProver F G R)
    (kMaxUnitPerZkp : Nat) (self : LargeProver F G) : Except Fault (LargeProver F G) :=
  let v0 := resize self.v_ self.public_input_.count 0
  match forLoop (fun (v_ : List F) i =>
      match self.provers_[i]? with
      | some (some prover) => copyAt v_ (i * kMaxUnitPerZkp) (sp.Evaluate prover)
      | _ => Except.error Fault.invalidAccess) self.provers_.length v0 with
  | Except.error e => Except.error e
  | Except.ok v => Except.ok { self with v_ := v }

/-- The locals of `LargeProver::Prove` that the shard loop updates. -/
structure ProveLoop (F G R : Type) where
  provers_ : List (Option (Prover F G))
  proofs : List (Proof G R)
  outputs : List (ProveOutput G)
  vws : List F

/-- The call `provers_[i]->Prove(rom_seed, this_get_w, proofs[i], outputs[i])`
of iteration `i`, followed by `provers_[i]->vw()`; `none` when an index is
out of range or the pointer is null. -/
def proveCall {F G R : Type} (sp : ShardProver F G R) (items_ : List (Nat × Nat))
    (provers_ : List (Option (Prover F G))) (rom_seed : h256_t) (get_w : Nat → F)
    (i : Nat) : Option (Proof G R × ProveOutput G × F) :=
  match items_[i]?, provers_[i]? with
  | some item, some (some prover) =>
    let this_get_w := fun j => get_w (j + item.1)
    some (sp.Prove prover rom_seed this_get_w)
  | _, _ => none

/-- One iteration of the shard loop of `Prove`. -/
def LargeProver.loopBody {F G R : Type} (sp : ShardProver F G R) (items_ : List (Nat × Nat))
    (rom_seed : h256_t) (get_w : Nat → F) (st : ProveLoop F G R) (i : Nat) :
    Except Fault (ProveLoop F G R) :=
  match proveCall sp items_ st.provers_ rom_seed get_w i with
  | none => Except.error Fault.invalidAccess
  | some r =>
    Except.ok
      { provers_ := st.provers_.set i none
        proofs := st.proofs.set i r.1
        outputs := st.outputs.set i r.2.1
        vws := st.vws.set i r.2.2 }

/-- What a call of `Prove` leaves behind: the object and the by-reference
`proofs` and `output`. -/
structure ProveResult (F G R : Type) where
  self : LargeProver F G
  proofs : List (Proof G R)
  output : ProveOutput G

/-- `LargeProver::Prove(rom_seed, get_w, proofs, output)` in a build with
`_DEBUG` and assertions (`dbg = true`) or without (`dbg = false`); `dproof` is
a default-constructed `Proof`, used by `proofs.resize(size)`. -/
def LargeProver.Prove {F G R : Type} [Field F] [AddCommGroup G] [Module F G] [DecidableEq G]
    (pds : PdsPub G) (sp : ShardProver F G R) (dbg : Bool) (self : LargeProver F G)
    (rom_seed : h256_t) (get_w : Nat → F) (dproof : Proof G R) (proofs : List (Proof G R))
    (output : ProveOutput G) : Except Fault (ProveResult F G R) :=
  let size := self.provers_.length
  let init : ProveLoop F G R :=
    { provers_ := self.provers_
      proofs := resize proofs size dproof
      outputs := List.replicate size Output.init
      vws := List.replicate size 0 }
  match forLoop (LargeProver.loopBody sp self.items_ rom_seed get_w) size init with
  | Except.error e => Except.error e
  | Except.ok st =>
    match details.MergeOutputs output st.outputs with
    | Except.error e => Except.error e
    | Except.ok merged =>
      let vw_ := st.vws.foldl (fun a b => a + b) 0
      let com_vw1 := groth09.details.ComputeCommitment pds vw_ self.secret_input_.vw_com_r
      let com_vw2 := st.proofs.foldl (fun a b => a + b.com_vw) 0
      match cassert dbg (decide (com_vw1 = com_vw2)) with
      | Except.error e => Except.error e
      | Except.ok _ =>
        let com_key := self.secret_input_.key_com_r • merged.h + self.secret_input_.key • merged.g
        match cassert dbg (decide (com_key = merged.key_com)) with
        | Except.error e => Except.error e
        | Except.ok _ =>
          Except.ok
            { self := { self with provers_ := st.provers_, vw_ := vw_ }
              proofs := st.proofs
              output := merged }

def LargeProver.vw {F G : Type} (self : LargeProver F G) : F := self.vw_

def LargeProver.v {F G : Type} (self : LargeProver F G) : List F := self.v_

end vrs

/-! ## A small concrete instance

The field with 101 elements, acting on itself, with a toy transcript hash.
It only serves to evaluate the definitions on explicit inputs. -/

instance fact_prime_101 : Fact (Nat.Prime 101) := ⟨by norm_num⟩

def toyPds : PdsPub (ZMod 101) :=
  { kGSize := 4, g := fun i => (i : ZMod 101) + 2, u := 3, h := 5 }

def toyEnv : HashEnv (ZMod 101) (ZMod 101) :=
  { keccak256 := fun bs => [bs.sum % 256],
    encodeG1 := fun p => [p.val],
    H256ToFr := fun d => (d.sum : ZMod 101) }

def toyInput : hyrax.a2.ProverInput (ZMod 101) := { x := [3, 5], a := [2, 7], y := 41 }

def toyComRand : hyrax.a2.ComRand (ZMod 101) := { r_xi := 11, r_tau := 12 }

def toyExtRand : hyrax.a2.ExtRand (ZMod 101) :=
  { d := fun i => (i : ZMod 101) + 20, r_beta := 13, r_delta := 14 }

def toySeed : h256_t := [1, 2, 6]

/-- The commitments `(xi, tau)` of `x = [3,5]`, `y = 41` under `r_xi = 11`,
`r_tau = 12`. -/
def toyComPub : hyrax.a2.CommitmentPub (ZMod 101) := { xi := 76, tau := 82 }

/-- The honest proof for `x = [3,5]`, `a = [2,7]`, seed `[1,2,6]`,
`d = [20,21]`, `r_beta = 13`, `r_delta = 14` (challenge `3`). -/
def toyRomProof : hyrax.a2.RomProof (ZMod 101) (ZMod 101) :=
  { com_ext_pub := { delta := 72, beta := 20 },
    proof := { z := [29, 36], z_delta := 47, z_beta := 49 } }

def toyVerifierInput : hyrax.a2.VerifierInput (ZMod 101) (ZMod 101) :=
  { a := [2, 7], com_pub := toyComPub }

/-- The toy proof with `z_beta` changed from 49 to 50. -/
def toyRomProofBadBeta : hyrax.a2.RomProof (ZMod 101) (ZMod 101) :=
  { com_ext_pub := toyRomProof.com_ext_pub,
    proof := { z := [29, 36], z_delta := 47, z_beta := 50 } }

/-- A proof of length 5, longer than `toyPds.kGSize = 4`. -/
def toyRomProofLong : hyrax.a2.RomProof (ZMod 101) (ZMod 101) :=
  { com_ext_pub := toyRomProof.com_ext_pub,
    proof := { z := [0, 0, 0, 0, 0], z_delta := 0, z_beta := 0 } }

/-- The toy proof with `z[0]` changed from 29 to 30. -/
def toyRomProofBadZ : hyrax.a2.RomProof (ZMod 101) (ZMod 101) :=
  { com_ext_pub := toyRomProof.com_ext_pub,
    proof := { z := toyRomProof.proof.z.set 0 (29 + 1), z_delta := toyRomProof.proof.z_delta,
               z_beta := toyRomProof.proof.z_beta } }

/-- A verifier input with an empty `a`. -/
def toyVerifierInputEmpty : hyrax.a2.VerifierInput (ZMod 101) (ZMod 101) :=
  { a := [], com_pub := toyComPub }

/-- A verifier input whose `a` has length 5, longer than `toyPds.kGSize = 4`. -/
def toyVerifierInputLong : hyrax.a2.VerifierInput (ZMod 101) (ZMod 101) :=
  { a := [1, 1, 1, 1, 1], com_pub := toyComPub }

/-- The prover input `x = [0,0]`, `a = [2,7]`, `y = 0`. -/
def toyInputZero : hyrax.a2.ProverInput (ZMod 101) := { x := [0, 0], a := [2, 7], y := 0 }

/-- The draw `r_xi = 0`, `r_tau = 0` of `ComputeCom`. -/
def toyComRandZero : hyrax.a2.ComRand (ZMod 101) := { r_xi := 0, r_tau := 0 }

/-- The commitments of `toyInputZero` under `toyComRandZero`: both are the
group zero. -/
def toyComPubZero : hyrax.a2.CommitmentPub (ZMod 101) := { xi := 0, tau := 0 }

/-- The honest proof for `toyInputZero`: the response is the randomizer. -/
def toyRomProofZero : hyrax.a2.RomProof (ZMod 101) (ZMod 101) :=
  { com_ext_pub := { delta := 72, beta := 20 },
    proof := { z := [20, 21], z_delta := 14, z_beta := 13 } }

def toyVerifierInputZero : hyrax.a2.VerifierInput (ZMod 101) (ZMod 101) :=
  { a := [2, 7], com_pub := toyComPubZero }

/-- A second seed, different from `toySeed`. -/
def toySeed2 : h256_t := [1, 2, 7]

/-- A toy shard verifier over the field with 101 elements: it accepts when the
payload says so and reports `g = get_p(0) + get_w(0)`, `key_com = com_vw`. -/
def toyShardVerify : vrs.ShardVerify (ZMod 101) (ZMod 101) Bool :=
  fun pub _ get_w proof =>
    (proof.rest, { h := 5, g := pub.get_p 0 + get_w 0, key_com := proof.com_vw })

def toyPublicInput : vrs.PublicInput (ZMod 101) := { count := 3, get_p := fun i => (i : ZMod 101) + 1 }

def toyGetW : Nat → ZMod 101 := fun i => 10 * (i : ZMod 101)

def toyProofs : List (vrs.Proof (ZMod 101) Bool) :=
  [{ com_vw := 7, rest := true }, { com_vw := 8, rest := true }]

def toyOutput : vrs.VerifyOutput (ZMod 101) := { h := 90, g := 91, key_com := 92 }

/-- A toy `SplitFr`: `k - 1` drawn shares and a last share that makes the sum
exact. -/
def toySplitFr : vrs.SplitFrFn (ZMod 101) :=
  fun src s k =>
    if k = 0 then [] else FrRandVec src (k - 1) ++ [s - (FrRandVec src (k - 1)).sum]

def toySecretInput : vrs.SecretInput (ZMod 101) := { key := 4, vw_com_r := 30, key_com_r := 40 }

def toyRandV : Nat → ZMod 101 := fun i => (i : ZMod 101) + 1

def toyRandK : Nat → ZMod 101 := fun i => (i : ZMod 101) + 2

/-- A toy shard prover: `v[j] = key * get_p(j)`, `vw = sum_j v[j] * get_w(j)`,
`com_vw = Commit(vw, vw_com_r)`, `g = get_p(0)` and
`key_com = h * key_com_r + g * key`. -/
def toyShardProver : vrs.ShardProver (ZMod 101) (ZMod 101) Bool :=
  { Evaluate := fun p =>
      (List.range p.public_input.count).map (fun j => p.secret_input.key * p.public_input.get_p j)
    Prove := fun p _ get_w =>
      let vw := ((List.range p.public_input.count).map
        (fun j => p.secret_input.key * p.public_input.get_p j * get_w j)).sum
      ({ com_vw := groth09.details.ComputeCommitment toyPds vw p.secret_input.vw_com_r,
         rest := true },
       { h := toyPds.h, g := p.public_input.get_p 0,
         key_com := p.secret_input.key_com_r • toyPds.h
           + p.secret_input.key • p.public_input.get_p 0 },
       vw) }

/-- A cache for two shards whose slot-1 values `6 + 34` sum to the
`key_com_r = 40` of `toySecretInput`. -/
def toyCacheComs : List (List (ZMod 101)) := [[1, 2], [3, 4]]

def toyCacheComsR : List (List (ZMod 101)) := [[5, 6], [7, 34]]

/-- A cache for two shards whose slot-1 values `6 + 8` do not sum to
`key_com_r = 40`. -/
def toyCacheComsRBad : List (List (ZMod 101)) := [[5, 6], [7, 8]]

/-- A cache with three entries, for a task that has two shards. -/
def toyCacheComs3 : List (List (ZMod 101)) := [[1, 2], [3, 4], [5, 6]]

def toyCacheComsR3 : List (List (ZMod 101)) := [[5, 6], [7, 8], [9, 10]]

def toyDefaultProof : vrs.Proof (ZMod 101) Bool := { com_vw := 0, rest := false }

/-- The extractor of the special-soundness argument: the vector
`(z - z2) / s`, coordinate by coordinate (with `s = c - c2`). -/
def extractWitness {F : Type} [Field F] (z z2 : List F) (s : F) : List F :=
  List.zipWith (fun p q => (p - q) / s) z z2

/-- The honest response for `toyInput` under the challenge 5 and the same
randomizer as `toyRomProof`. -/
def toyProof5 : hyrax.a2.Proof (ZMod 101) := { z := [35, 46], z_delta := 69, z_beta := 73 }

/-- Two shard outputs of one task: they carry the same `h`. -/
def toyOutputsA : List (vrs.Output (ZMod 101)) :=
  [{ h := 1, g := 2, key_com := 3 }, { h := 1, g := 5, key_com := 6 }]

/-- The same two shard outputs in the other order. -/
def toyOutputsB : List (vrs.Output (ZMod 101)) :=
  [{ h := 1, g := 5, key_com := 6 }, { h := 1, g := 2, key_com := 3 }]

/-- A public input with no element. -/
def toyPublicInputZero : vrs.PublicInput (ZMod 101) :=
  { count := 0, get_p := fun i => (i : ZMod 101) + 1 }

/-! ## Algebra of the commitments -/

section
variable {F G : Type} [Field F] [AddCommGroup G] [Module F G]

theorem MultiExp_scaleAdd (c : F) : ∀ (x d : List F) (g : Nat → G), x.length = d.length →
    MultiExp g (VecScaleAdd x c d) = c • MultiExp g x + MultiExp g d := by
  intro x
  induction x with
  | nil =>
    intro d g h
    cases d with
    | nil => simp [VecScaleAdd, MultiExp]
    | cons b ds => simp at h
  | cons p xs ih =>
    intro d g h
    cases d with
    | nil => simp at h
    | cons q ds =>
      have hl : xs.length = ds.length := by simpa using h
      have := ih ds (fun i => g (i + 1)) hl
      simp only [VecScaleAdd, List.zipWith_cons_cons, MultiExp] at this ⊢
      rw [this, add_smul, mul_smul, smul_add, smul_comm c p]
      abel

theorem InnerProduct_scaleAdd (c : F) : ∀ (x d a : List F), x.length = d.length →
    InnerProduct (VecScaleAdd x c d) a = c * InnerProduct x a + InnerProduct a d := by
  intro x
  induction x with
  | nil =>
    intro d a h
    cases d with
    | nil => simp [VecScaleAdd, InnerProduct]
    | cons b ds => simp at h
  | cons p xs ih =>
    intro d a h
    cases d with
    | nil => simp at h
    | cons q ds =>
      have hl : xs.length = ds.length := by simpa using h
      cases a with
      | nil => simp [VecScaleAdd, InnerProduct]
      | cons r as =>
        have := ih ds as hl
        simp only [VecScaleAdd, InnerProduct, List.zipWith_cons_cons, List.sum_cons] at this ⊢
        rw [this]
        ring

end

/-! ## The a2 protocol -/

namespace hyrax.a2

section
variable {F G : Type} [Field F] [AddCommGroup G] [Module F G] [DecidableEq G]

theorem FrRandVec_length (src : Nat → F) (n : Nat) : (FrRandVec src n).length = n := by
  simp [FrRandVec]

/-- The two verification equations as propositions. -/
theorem VerifyInternal_eq (pds : PdsPub G) (dbg : Bool) (input : VerifierInput F G)
    (c : F) (cep : CommitmentExtPub G) (proof : Proof F) :
    VerifyInternal pds dbg input c cep proof =
      if c • input.com_pub.xi + cep.delta = ComputeCommitment pds proof.z proof.z_delta ∧
          c • input.com_pub.tau + cep.beta =
            ComputeCommitment1 pds (InnerProduct proof.z input.a) proof.z_beta
      then Except.ok true
      else if dbg then Except.error Fault.assertFailed else Except.ok false := by
  unfold VerifyInternal cassert
  by_cases h1 : c • input.com_pub.xi + cep.delta = ComputeCommitment pds proof.z proof.z_delta <;>
  by_cases h2 : c • input.com_pub.tau + cep.beta =
      ComputeCommitment1 pds (InnerProduct proof.z input.a) proof.z_beta <;>
  cases dbg <;> simp [h1, h2]

/-- The honest response satisfies both verification equations. -/
theorem honest_equations (pds : PdsPub G) (x a : List F) (rc : ComRand F) (re : ExtRand F)
    (c : F) :
    let input : ProverInput F := { x := x, a := a, y := InnerProduct x a }
    let com := ComputeCom pds rc input
    let ext := ComputeCommitmentExt pds re input
    let proof := ComputeProof input com.2 ext.2 c
    c • com.1.xi + ext.1.delta = ComputeCommitment pds proof.z proof.z_delta ∧
    c • com.1.tau + ext.1.beta =
      ComputeCommitment1 pds (InnerProduct proof.z a) proof.z_beta := by
  intro input com ext proof
  have hd : x.length = (FrRandVec re.d x.length).length := (FrRandVec_length _ _).symm
  constructor
  · simp only [com, ext, proof, input, ComputeCom, ComputeCommitmentExt, ComputeProof,
      ComputeCommitment, ProverInput.n]
    rw [MultiExp_scaleAdd c x _ pds.g hd]
    simp only [smul_add, add_smul, mul_smul]
    abel
  · simp only [com, ext, proof, input, ComputeCom, ComputeCommitmentExt, ComputeProof,
      ComputeCommitment1, ProverInput.n]
    rw [InnerProduct_scaleAdd c x _ a hd]
    simp only [smul_add, add_smul, mul_smul]
    abel

/-- `RomVerify` unfolded: the assertion, the size check, then the two
equations under the challenge hashed from `(seed, xi, tau, beta, delta)`. -/
theorem RomVerify_eq (pds : PdsPub G) (env : HashEnv F G) (dbg : Bool)
    (rom_proof : RomProof F G) (seed : h256_t) (input : VerifierInput F G) :
    RomVerify pds env dbg rom_proof seed input =
      if dbg = true ∧ pds.kGSize < rom_proof.proof.z.length then
        Except.error Fault.assertFailed
      else if input.a.length ≠ rom_proof.proof.z.length ∨ input.a.isEmpty = true then
        Except.ok false
      else VerifyInternal pds dbg input
        (env.H256ToFr (UpdateSeed env seed input.com_pub rom_proof.com_ext_pub))
        rom_proof.com_ext_pub rom_proof.proof := by
  unfold RomVerify cassert
  simp only [RomProof.n, Proof.n]
  by_cases hk : pds.kGSize < rom_proof.proof.z.length
  · cases dbg
    · simp
    · simp [hk]
  · have hk2 : pds.kGSize ≥ rom_proof.proof.z.length := Nat.le_of_not_lt hk
    simp [hk, hk2]

theorem RomProve_ok (pds : PdsPub G) (env : HashEnv F G) (dbg : Bool) (re : ExtRand F)
    (seed : h256_t) (input : ProverInput F) (com_pub : CommitmentPub G)
    (com_sec : CommitmentSec F) (hn : input.n ≤ pds.kGSize) :
    RomProve pds env dbg re seed input com_pub com_sec =
      Except.ok
        { com_ext_pub := (ComputeCommitmentExt pds re input).1,
          proof := ComputeProof input com_sec (ComputeCommitmentExt pds re input).2
            (env.H256ToFr (UpdateSeed env seed com_pub (ComputeCommitmentExt pds re input).1)) } := by
  unfold RomProve cassert
  simp [hn]

theorem ComputeProof_z_length (pds : PdsPub G) (re : ExtRand F) (input : ProverInput F)
    (com_sec : CommitmentSec F) (c : F) :
    (ComputeProof input com_sec (ComputeCommitmentExt pds re input).2 c).z.length
      = input.x.length := by
  simp [ComputeProof, ComputeCommitmentExt, VecScaleAdd, FrRandVec_length, ProverInput.n]

/-- C1. Completeness of a2: for vectors `x`, `a` of equal non-zero length
`n <= kGSize`, with `y = <x,a>`, for every seed and every value drawn from
`FrRand` (in `ComputeCom` and in `ComputeCommitmentExt`), `RomProve` returns
a proof, and `RomVerify` on that proof, the same seed and
`VerifierInput(a, com_pub)` returns `true`, in either build; the composition
`TestRom` returns `true` as well. -/
theorem a2_completeness (pds : PdsPub G) (env : HashEnv F G) (dbg : Bool) (x a : List F)
    (seed : h256_t) (rc : ComRand F) (re : ExtRand F)
    (hlen : x.length = a.length) (hne : a ≠ []) (hn : x.length ≤ pds.kGSize) :
    (∃ rom_proof,
      RomProve pds env dbg re seed { x := x, a := a, y := InnerProduct x a }
        (ComputeCom pds rc { x := x, a := a, y := InnerProduct x a }).1
        (ComputeCom pds rc { x := x, a := a, y := InnerProduct x a }).2 = Except.ok rom_proof ∧
      RomVerify pds env dbg rom_proof seed
        { a := a, com_pub := (ComputeCom pds rc { x := x, a := a, y := InnerProduct x a }).1 }
        = Except.ok true) ∧
    TestRom pds env dbg x a seed rc re = Except.ok true := by
  have hprove := RomProve_ok pds env dbg re seed { x := x, a := a, y := InnerProduct x a }
    (ComputeCom pds rc { x := x, a := a, y := InnerProduct x a }).1
    (ComputeCom pds rc { x := x, a := a, y := InnerProduct x a }).2 hn
  have hverify : RomVerify pds env dbg
      { com_ext_pub := (ComputeCommitmentExt pds re { x := x, a := a, y := InnerProduct x a }).1,
        proof := ComputeProof { x := x, a := a, y := InnerProduct x a }
          (ComputeCom pds rc { x := x, a := a, y := InnerProduct x a }).2
          (ComputeCommitmentExt pds re { x := x, a := a, y := InnerProduct x a }).2
          (env.H256ToFr (UpdateSeed env seed
            (ComputeCom pds rc { x := x, a := a, y := InnerProduct x a }).1
            (ComputeCommitmentExt pds re { x := x, a := a, y := InnerProduct x a }).1)) }
      seed
      { a := a, com_pub := (ComputeCom pds rc { x := x, a := a, y := InnerProduct x a }).1 }
      = Except.ok true := by
    rw [RomVerify_eq]
    simp only [ComputeProof_z_length]
    rw [if_neg (by intro h; exact absurd h.2 (Nat.not_lt.mpr hn)),
      if_neg (by intro h; rcases h with h | h; exact h hlen.symm; exact hne (List.isEmpty_iff.mp h)),
      VerifyInternal_eq]
    exact if_pos (honest_equations pds x a rc re _)
  refine ⟨⟨_, hprove, hverify⟩, ?_⟩
  have hane : a.isEmpty = false := by
    cases a with
    | nil => exact absurd rfl hne
    | cons _ _ => rfl
  simp only [TestRom, ProverInput.make, cassert, hlen, beq_self_eq_true, hane, Bool.not_false,
    Bool.and_self, Bool.not_true, Bool.and_false, Bool.false_eq_true, if_false, hprove]
  exact hverify

end

end hyrax.a2

/-- Witness for C1: the run `x = [3,5]`, `a = [2,7]` over the field with 101
elements, with assertions compiled in. -/
theorem a2_completeness_witness :
    ([3, 5] : List (ZMod 101)).length = ([2, 7] : List (ZMod 101)).length ∧
    ([3, 5] : List (ZMod 101)).length ≤ toyPds.kGSize ∧
    hyrax.a2.TestRom toyPds toyEnv true [3, 5] [2, 7] toySeed toyComRand toyExtRand
      = Except.ok true :=
  ⟨rfl, by decide,
    (hyrax.a2.a2_completeness toyPds toyEnv true [3, 5] [2, 7] toySeed toyComRand toyExtRand
      rfl (List.cons_ne_nil _ _) (by decide)).2⟩

/-- The toy proof is the one `RomProve` computes, for the inner product 41. -/
theorem toyRomProof_honest :
    InnerProduct toyInput.x toyInput.a = 41 ∧
    (hyrax.a2.ComputeCom toyPds toyComRand toyInput).1 = toyComPub ∧
    hyrax.a2.RomProve toyPds toyEnv true toyExtRand toySeed toyInput toyComPub
      (hyrax.a2.ComputeCom toyPds toyComRand toyInput).2 = Except.ok toyRomProof :=
  ⟨by decide, rfl, rfl⟩

namespace hyrax.a2

section
variable {F G : Type} [Field F] [AddCommGroup G] [Module F G] [DecidableEq G]

/-- C2 (amended). For a non-empty `a` with `a.size() == z.size()` and
`n <= kGSize`, `RomVerify` returns `true` exactly when both equations
`xi*c + delta == Commit(z, z_delta)` and `tau*c + beta == Commit(<z,a>, z_beta)`
hold for the challenge `c` hashed from `(seed, xi, tau, beta, delta)`.  When
one of them fails, a build without assertions returns `false`, and a build with
assertions stops at `assert(ret1 && ret2)`. -/
theorem RomVerify_iff_equations (pds : PdsPub G) (env : HashEnv F G) (dbg : Bool)
    (rom_proof : RomProof F G) (seed : h256_t) (input : VerifierInput F G)
    (hne : input.a ≠ []) (hlen : input.a.length = rom_proof.proof.z.length)
    (hn : rom_proof.n ≤ pds.kGSize) :
    (RomVerify pds env dbg rom_proof seed input = Except.ok true ↔
      (env.H256ToFr (UpdateSeed env seed input.com_pub rom_proof.com_ext_pub) • input.com_pub.xi
          + rom_proof.com_ext_pub.delta
        = ComputeCommitment pds rom_proof.proof.z rom_proof.proof.z_delta ∧
       env.H256ToFr (UpdateSeed env seed input.com_pub rom_proof.com_ext_pub) • input.com_pub.tau
          + rom_proof.com_ext_pub.beta
        = ComputeCommitment1 pds (InnerProduct rom_proof.proof.z input.a)
            rom_proof.proof.z_beta)) ∧
    (¬ (env.H256ToFr (UpdateSeed env seed input.com_pub rom_proof.com_ext_pub) • input.com_pub.xi
          + rom_proof.com_ext_pub.delta
        = ComputeCommitment pds rom_proof.proof.z rom_proof.proof.z_delta ∧
       env.H256ToFr (UpdateSeed env seed input.com_pub rom_proof.com_ext_pub) • input.com_pub.tau
          + rom_proof.com_ext_pub.beta
        = ComputeCommitment1 pds (InnerProduct rom_proof.proof.z input.a)
            rom_proof.proof.z_beta) →
      RomVerify pds env dbg rom_proof seed input =
        if dbg then Except.error Fault.assertFailed else Except.ok false) := by
  have hn2 : ¬ (dbg = true ∧ pds.kGSize < rom_proof.proof.z.length) := by
    intro h
    exact absurd h.2 (Nat.not_lt.mpr hn)
  have hsz : ¬ (input.a.length ≠ rom_proof.proof.z.length ∨ input.a.isEmpty = true) := by
    intro h
    rcases h with h | h
    · exact h hlen
    · exact hne (List.isEmpty_iff.mp h)
  rw [RomVerify_eq, if_neg hn2, if_neg hsz, VerifyInternal_eq]
  constructor
  · constructor
    · intro h
      by_contra hc
      rw [if_neg hc] at h
      cases dbg <;> simp at h
    · intro h
      rw [if_pos h]
  · intro hc
    rw [if_neg hc]

/-- C3 (amended). When `a` is empty or `a.size() != proof.z.size()`, and the
proof is not longer than `kGSize` or assertions are compiled out, `RomVerify`
returns `false`; the outcome is the same for every other hash, seed,
generator set of the same `kGSize`, proof and input with the same two
sizes. -/
theorem RomVerify_size_mismatch (pds : PdsPub G) (env : HashEnv F G) (dbg : Bool)
    (rom_proof : RomProof F G) (seed : h256_t) (input : VerifierInput F G)
    (hbad : input.a = [] ∨ input.a.length ≠ rom_proof.proof.z.length)
    (hk : dbg = false ∨ rom_proof.proof.z.length ≤ pds.kGSize) :
    RomVerify pds env dbg rom_proof seed input = Except.ok false ∧
    ∀ (pds2 : PdsPub G) (env2 : HashEnv F G) (rom_proof2 : RomProof F G) (seed2 : h256_t)
      (input2 : VerifierInput F G), pds2.kGSize = pds.kGSize →
      input2.a.length = input.a.length →
      rom_proof2.proof.z.length = rom_proof.proof.z.length →
      RomVerify pds2 env2 dbg rom_proof2 seed2 input2
        = RomVerify pds env dbg rom_proof seed input := by
  have main : ∀ (pds2 : PdsPub G) (env2 : HashEnv F G) (rom_proof2 : RomProof F G)
      (seed2 : h256_t) (input2 : VerifierInput F G), pds2.kGSize = pds.kGSize →
      input2.a.length = input.a.length →
      rom_proof2.proof.z.length = rom_proof.proof.z.length →
      RomVerify pds2 env2 dbg rom_proof2 seed2 input2 = Except.ok false := by
    intro pds2 env2 rp2 seed2 input2 h1 h2 h3
    have hn2 : ¬ (dbg = true ∧ pds2.kGSize < rp2.proof.z.length) := by
      intro h
      rcases hk with hk | hk
      · rw [hk] at h
        exact absurd h.1 (by simp)
      · rw [h1, h3] at h
        exact absurd h.2 (Nat.not_lt.mpr hk)
    have hsz : input2.a.length ≠ rp2.proof.z.length ∨ input2.a.isEmpty = true := by
      rcases hbad with h | h
      · right
        have : input2.a.length = 0 := by rw [h2, h]; rfl
        exact List.isEmpty_iff.mpr (List.length_eq_zero.mp this)
      · left
        rw [h2, h3]
        exact h
    rw [RomVerify_eq, if_neg hn2, if_pos hsz]
  refine ⟨main pds env rom_proof seed input rfl rfl rfl, ?_⟩
  intro pds2 env2 rp2 seed2 input2 h1 h2 h3
  rw [main pds2 env2 rp2 seed2 input2 h1 h2 h3, main pds env rom_proof seed input rfl rfl rfl]

end

end hyrax.a2

/-- Counterexample for C2 as stated: in a build with assertions, the toy
proof with `z_beta` changed from 49 to 50 satisfies the first equation only
(challenge 3), all size conditions hold, and `RomVerify` does not return
`false`: it stops at `assert(ret1 && ret2)`. -/
theorem RomVerify_one_equation_debug :
    toyVerifierInput.a ≠ [] ∧
    toyVerifierInput.a.length = toyRomProofBadBeta.proof.z.length ∧
    toyRomProofBadBeta.n ≤ toyPds.kGSize ∧
    toyEnv.H256ToFr (hyrax.a2.UpdateSeed toyEnv toySeed toyVerifierInput.com_pub
      toyRomProofBadBeta.com_ext_pub) = 3 ∧
    (3 : ZMod 101) • toyVerifierInput.com_pub.xi + toyRomProofBadBeta.com_ext_pub.delta
      = hyrax.a2.ComputeCommitment toyPds toyRomProofBadBeta.proof.z
          toyRomProofBadBeta.proof.z_delta ∧
    (3 : ZMod 101) • toyVerifierInput.com_pub.tau + toyRomProofBadBeta.com_ext_pub.beta
      ≠ hyrax.a2.ComputeCommitment1 toyPds
          (InnerProduct toyRomProofBadBeta.proof.z toyVerifierInput.a)
          toyRomProofBadBeta.proof.z_beta ∧
    hyrax.a2.RomVerify toyPds toyEnv true toyRomProofBadBeta toySeed toyVerifierInput
      = Except.error Fault.assertFailed ∧
    hyrax.a2.RomVerify toyPds toyEnv true toyRomProofBadBeta toySeed toyVerifierInput
      ≠ Except.ok false := by
  refine ⟨by decide, rfl, by decide, by decide, by decide, by decide, rfl, ?_⟩
  intro h
  have h2 : hyrax.a2.RomVerify toyPds toyEnv true toyRomProofBadBeta toySeed toyVerifierInput
      = Except.error Fault.assertFailed := rfl
  rw [h2] at h
  exact Except.noConfusion h

/-- Witness for C2 (amended): the toy proof, accepted in a build with
assertions. -/
theorem RomVerify_iff_equations_witness :
    hyrax.a2.RomVerify toyPds toyEnv true toyRomProof toySeed toyVerifierInput
      = Except.ok true ↔
    (toyEnv.H256ToFr (hyrax.a2.UpdateSeed toyEnv toySeed toyVerifierInput.com_pub
        toyRomProof.com_ext_pub) • toyVerifierInput.com_pub.xi + toyRomProof.com_ext_pub.delta
      = hyrax.a2.ComputeCommitment toyPds toyRomProof.proof.z toyRomProof.proof.z_delta ∧
     toyEnv.H256ToFr (hyrax.a2.UpdateSeed toyEnv toySeed toyVerifierInput.com_pub
        toyRomProof.com_ext_pub) • toyVerifierInput.com_pub.tau + toyRomProof.com_ext_pub.beta
      = hyrax.a2.ComputeCommitment1 toyPds (InnerProduct toyRomProof.proof.z toyVerifierInput.a)
          toyRomProof.proof.z_beta) :=
  (hyrax.a2.RomVerify_iff_equations toyPds toyEnv true toyRomProof toySeed
    toyVerifierInput (List.cons_ne_nil _ _) rfl (by decide)).1

/-- Counterexample for C3 as stated: with assertions compiled in and a proof
of length 5 over `kGSize = 4`, an empty `a` does not make `RomVerify` return
`false`; the run stops at `assert(PdsPub::kGSize >= rom_proof.n())`. -/
theorem RomVerify_empty_a_oversize_debug :
    toyVerifierInputEmpty.a = [] ∧
    hyrax.a2.RomVerify toyPds toyEnv true toyRomProofLong toySeed toyVerifierInputEmpty
      = Except.error Fault.assertFailed ∧
    hyrax.a2.RomVerify toyPds toyEnv true toyRomProofLong toySeed toyVerifierInputEmpty
      ≠ Except.ok false := by
  have h2 : hyrax.a2.RomVerify toyPds toyEnv true toyRomProofLong toySeed toyVerifierInputEmpty
      = Except.error Fault.assertFailed := rfl
  refine ⟨rfl, h2, ?_⟩
  intro h
  rw [h2] at h
  exact Except.noConfusion h

/-- Witness for C3 (amended): an empty `a` against the toy proof. -/
theorem RomVerify_size_mismatch_witness :
    toyVerifierInputEmpty.a = [] ∧
    hyrax.a2.RomVerify toyPds toyEnv true toyRomProof toySeed toyVerifierInputEmpty
      = Except.ok false :=
  ⟨rfl, (hyrax.a2.RomVerify_size_mismatch toyPds toyEnv true toyRomProof toySeed
    toyVerifierInputEmpty (Or.inl rfl) (Or.inr (by decide))).1⟩

section
variable {F G : Type} [Field F] [AddCommGroup G] [Module F G]

theorem MultiExp_set : ∀ (z : List F) (g : Nat → G) (k : Nat) (v : F) (hk : k < z.length),
    MultiExp g (z.set k v) = MultiExp g z + (v - z.get ⟨k, hk⟩) • g k := by
  intro z
  induction z with
  | nil =>
    intro g k v hk
    exact absurd hk (Nat.not_lt_zero _)
  | cons p zs ih =>
    intro g k v hk
    cases k with
    | zero =>
      simp only [List.set_cons_zero, MultiExp, List.get_eq_getElem, List.getElem_cons_zero,
        sub_smul]
      abel
    | succ m =>
      have hm : m < zs.length := Nat.lt_of_succ_lt_succ hk
      have := ih (fun i => g (i + 1)) m v hm
      simp only [List.set_cons_succ, MultiExp, List.get_eq_getElem, List.getElem_cons_succ]
        at this ⊢
      rw [this]
      abel

end

namespace hyrax.a2

section
variable {F G : Type} [Field F] [AddCommGroup G] [Module F G] [DecidableEq G]

/-- A proof that fails the first equation is not accepted. -/
theorem RomVerify_reject_of_eq1 (pds : PdsPub G) (env : HashEnv F G) (dbg : Bool)
    (rp rq : RomProof F G) (seed : h256_t) (input : VerifierInput F G)
    (hacc : RomVerify pds env dbg rp seed input = Except.ok true)
    (hlen : rq.proof.z.length = rp.proof.z.length)
    (hbad : ¬ (env.H256ToFr (UpdateSeed env seed input.com_pub rq.com_ext_pub) • input.com_pub.xi
          + rq.com_ext_pub.delta = ComputeCommitment pds rq.proof.z rq.proof.z_delta ∧
        env.H256ToFr (UpdateSeed env seed input.com_pub rq.com_ext_pub) • input.com_pub.tau
          + rq.com_ext_pub.beta
          = ComputeCommitment1 pds (InnerProduct rq.proof.z input.a) rq.proof.z_beta)) :
    RomVerify pds env dbg rq seed input =
      if dbg then Except.error Fault.assertFailed else Except.ok false := by
  rw [RomVerify_eq] at hacc ⊢
  by_cases h1 : dbg = true ∧ pds.kGSize < rp.proof.z.length
  · rw [if_pos h1] at hacc
    exact Except.noConfusion hacc
  · rw [if_neg h1] at hacc
    by_cases h2 : input.a.length ≠ rp.proof.z.length ∨ input.a.isEmpty = true
    · rw [if_pos h2] at hacc
      simp at hacc
    · rw [hlen, if_neg h1, if_neg h2, VerifyInternal_eq, if_neg hbad]

/-- The two equations read off an accepted proof. -/
theorem equations_of_accept (pds : PdsPub G) (env : HashEnv F G) (dbg : Bool)
    (rp : RomProof F G) (seed : h256_t) (input : VerifierInput F G)
    (hacc : RomVerify pds env dbg rp seed input = Except.ok true) :
    env.H256ToFr (UpdateSeed env seed input.com_pub rp.com_ext_pub) • input.com_pub.xi
        + rp.com_ext_pub.delta = ComputeCommitment pds rp.proof.z rp.proof.z_delta ∧
    env.H256ToFr (UpdateSeed env seed input.com_pub rp.com_ext_pub) • input.com_pub.tau
        + rp.com_ext_pub.beta
        = ComputeCommitment1 pds (InnerProduct rp.proof.z input.a) rp.proof.z_beta := by
  rw [RomVerify_eq] at hacc
  by_cases h1 : dbg = true ∧ pds.kGSize < rp.proof.z.length
  · rw [if_pos h1] at hacc
    exact Except.noConfusion hacc
  · rw [if_neg h1] at hacc
    by_cases h2 : input.a.length ≠ rp.proof.z.length ∨ input.a.isEmpty = true
    · rw [if_pos h2] at hacc
      simp at hacc
    · rw [if_neg h2, VerifyInternal_eq] at hacc
      by_contra hc
      rw [if_neg hc] at hacc
      cases dbg <;> simp at hacc

/-- C4 (amended). Tamper sensitivity of the response: when `RomVerify`
accepts a proof for `(seed, a, com_pub)` and the generators in use are not
the identity, the proof with one coordinate of `z` replaced by a different
field element, the proof with a different `z_delta`, and the proof with a
different `z_beta` are never accepted under the same seed and input: a build
without assertions returns `false`, a build with assertions stops at
`assert(ret1 && ret2)` and returns nothing. -/
theorem RomVerify_tamper (pds : PdsPub G) (env : HashEnv F G) (dbg : Bool)
    (rp : RomProof F G) (seed : h256_t) (input : VerifierInput F G)
    (hacc : RomVerify pds env dbg rp seed input = Except.ok true)
    (hg : ∀ i, i < rp.proof.z.length → pds.g i ≠ 0) (hh : pds.h ≠ 0) :
    (∀ (k : Nat) (v : F) (hk : k < rp.proof.z.length), v ≠ rp.proof.z.get ⟨k, hk⟩ →
      RomVerify pds env dbg
        { com_ext_pub := rp.com_ext_pub,
          proof := { z := rp.proof.z.set k v, z_delta := rp.proof.z_delta,
                     z_beta := rp.proof.z_beta } } seed input
        = (if dbg then Except.error Fault.assertFailed else Except.ok false) ∧
      RomVerify pds env dbg
        { com_ext_pub := rp.com_ext_pub,
          proof := { z := rp.proof.z.set k v, z_delta := rp.proof.z_delta,
                     z_beta := rp.proof.z_beta } } seed input ≠ Except.ok true) ∧
    (∀ w : F, w ≠ rp.proof.z_delta →
      RomVerify pds env dbg
        { com_ext_pub := rp.com_ext_pub,
          proof := { z := rp.proof.z, z_delta := w, z_beta := rp.proof.z_beta } } seed input
        = (if dbg then Except.error Fault.assertFailed else Except.ok false) ∧
      RomVerify pds env dbg
        { com_ext_pub := rp.com_ext_pub,
          proof := { z := rp.proof.z, z_delta := w, z_beta := rp.proof.z_beta } } seed input
        ≠ Except.ok true) ∧
    (∀ w : F, w ≠ rp.proof.z_beta →
      RomVerify pds env dbg
        { com_ext_pub := rp.com_ext_pub,
          proof := { z := rp.proof.z, z_delta := rp.proof.z_delta, z_beta := w } } seed input
        = (if dbg then Except.error Fault.assertFailed else Except.ok false) ∧
      RomVerify pds env dbg
        { com_ext_pub := rp.com_ext_pub,
          proof := { z := rp.proof.z, z_delta := rp.proof.z_delta, z_beta := w } } seed input
        ≠ Except.ok true) := by
  have heq := equations_of_accept pds env dbg rp seed input hacc
  have hno : ∀ r : Except Fault Bool,
      r = (if dbg then Except.error Fault.assertFailed else Except.ok false) →
      r = (if dbg then Except.error Fault.assertFailed else Except.ok false) ∧
        r ≠ Except.ok true := by
    intro r hr
    refine ⟨hr, ?_⟩
    rw [hr]
    cases dbg <;> simp
  refine ⟨?_, ?_, ?_⟩
  · intro k v hk hv
    apply hno
    refine RomVerify_reject_of_eq1 pds env dbg rp _ seed input hacc (by simp) ?_
    intro hc
    have h1 := hc.1
    simp only [ComputeCommitment] at h1
    rw [MultiExp_set rp.proof.z pds.g k v hk, heq.1] at h1
    simp only [ComputeCommitment] at h1
    have h0 : (v - rp.proof.z.get ⟨k, hk⟩) • pds.g k = 0 := by
      have h3 := congrArg (fun t => t - (MultiExp pds.g rp.proof.z + rp.proof.z_delta • pds.h)) h1
      simp only [sub_self] at h3
      rw [h3]
      abel
    rcases smul_eq_zero.mp h0 with h | h
    · exact hv (sub_eq_zero.mp h)
    · exact hg k hk h
  · intro w hw
    apply hno
    refine RomVerify_reject_of_eq1 pds env dbg rp _ seed input hacc rfl ?_
    intro hc
    have h1 := hc.1
    simp only [ComputeCommitment] at h1
    rw [heq.1] at h1
    simp only [ComputeCommitment] at h1
    have h0 : (w - rp.proof.z_delta) • pds.h = 0 := by
      rw [sub_smul, ← add_left_cancel h1, sub_self]
    rcases smul_eq_zero.mp h0 with h | h
    · exact hw (sub_eq_zero.mp h)
    · exact hh h
  · intro w hw
    apply hno
    refine RomVerify_reject_of_eq1 pds env dbg rp _ seed input hacc rfl ?_
    intro hc
    have h1 := hc.2
    simp only [ComputeCommitment1] at h1
    rw [heq.2] at h1
    simp only [ComputeCommitment1] at h1
    have h0 : (w - rp.proof.z_beta) • pds.h = 0 := by
      rw [sub_smul, ← add_left_cancel h1, sub_self]
    rcases smul_eq_zero.mp h0 with h | h
    · exact hw (sub_eq_zero.mp h)
    · exact hh h

end

end hyrax.a2

/-- Counterexample for C4 as stated, the concrete scenario in a build with
assertions: `x = [3,5]`, `a = [2,7]`, `y = 41`; the honest proof is accepted,
and with `z[0] := z[0] + 1` (everything else unchanged) `RomVerify` does not
return `false`: it stops at `assert(ret1 && ret2)`. -/
theorem RomVerify_tamper_debug :
    InnerProduct toyInput.x toyInput.a = 41 ∧
    hyrax.a2.RomVerify toyPds toyEnv true toyRomProof toySeed toyVerifierInput
      = Except.ok true ∧
    toyRomProofBadZ.com_ext_pub = toyRomProof.com_ext_pub ∧
    toyRomProofBadZ.proof.z = toyRomProof.proof.z.set 0 (toyRomProof.proof.z.getD 0 0 + 1) ∧
    toyRomProofBadZ.proof.z_delta = toyRomProof.proof.z_delta ∧
    toyRomProofBadZ.proof.z_beta = toyRomProof.proof.z_beta ∧
    hyrax.a2.RomVerify toyPds toyEnv true toyRomProofBadZ toySeed toyVerifierInput
      = Except.error Fault.assertFailed ∧
    hyrax.a2.RomVerify toyPds toyEnv true toyRomProofBadZ toySeed toyVerifierInput
      ≠ Except.ok false := by
  have h2 : hyrax.a2.RomVerify toyPds toyEnv true toyRomProofBadZ toySeed toyVerifierInput
      = Except.error Fault.assertFailed := rfl
  refine ⟨by decide, rfl, rfl, by decide, rfl, rfl, h2, ?_⟩
  intro h
  rw [h2] at h
  exact Except.noConfusion h

/-- Witness for C4 (amended), the concrete scenario: `x = [3,5]`, `a = [2,7]`,
`y = 41`; the honest proof is accepted in both builds, and with
`z[0] := z[0] + 1` the result is `false` in a build without assertions and an
assertion failure in a build with them. -/
theorem RomVerify_tamper_witness :
    InnerProduct toyInput.x toyInput.a = 41 ∧
    hyrax.a2.RomVerify toyPds toyEnv false toyRomProof toySeed toyVerifierInput
      = Except.ok true ∧
    hyrax.a2.RomVerify toyPds toyEnv true toyRomProof toySeed toyVerifierInput
      = Except.ok true ∧
    toyRomProofBadZ.proof.z = [30, 36] ∧
    hyrax.a2.RomVerify toyPds toyEnv false toyRomProofBadZ toySeed toyVerifierInput
      = Except.ok false ∧
    hyrax.a2.RomVerify toyPds toyEnv true toyRomProofBadZ toySeed toyVerifierInput
      = Except.error Fault.assertFailed :=
  ⟨by decide, rfl, rfl, rfl,
    ((hyrax.a2.RomVerify_tamper toyPds toyEnv false toyRomProof toySeed toyVerifierInput
      (by rfl) (by decide) (by decide)).1 0 (29 + 1) (by decide) (by decide)).1,
    ((hyrax.a2.RomVerify_tamper toyPds toyEnv true toyRomProof toySeed toyVerifierInput
      (by rfl) (by decide) (by decide)).1 0 (29 + 1) (by decide) (by decide)).1⟩

namespace hyrax.a2

section
variable {F G : Type} [Field F] [AddCommGroup G] [Module F G] [DecidableEq G]

/-- C5. Challenge determinism: `RomProve` and `RomVerify` both use
`H256ToFr(Keccak256(seed || xi || tau || beta || delta))`, fed in that order.
The prover builds its response from that value at
`(common_seed, com_pub, com_ext_pub)`, the verifier checks the equations under
that value at `(common_seed, input.com_pub, rom_proof.com_ext_pub)`; it is a
function of these five arguments only, so `a`, `z`, `z_delta`, `z_beta` do
not enter, and on the proof returned by `RomProve`, with the same seed and
`com_pub`, the verifier has the challenge the prover used. -/
theorem challenge_determinism (pds : PdsPub G) (env : HashEnv F G) (dbg : Bool)
    (re : ExtRand F) (seed : h256_t) (input : ProverInput F) (com_pub : CommitmentPub G)
    (com_sec : CommitmentSec F) (rom_proof : RomProof F G) (vin : VerifierInput F G) :
    (∀ cp : CommitmentPub G, ∀ cep : CommitmentExtPub G,
      env.H256ToFr (UpdateSeed env seed cp cep)
        = specChallenge env seed cp.xi cp.tau cep.beta cep.delta) ∧
    RomProve pds env dbg re seed input com_pub com_sec =
      (if dbg = true ∧ pds.kGSize < input.n then Except.error Fault.assertFailed
       else Except.ok
        { com_ext_pub := (ComputeCommitmentExt pds re input).1,
          proof := ComputeProof input com_sec (ComputeCommitmentExt pds re input).2
            (specChallenge env seed com_pub.xi com_pub.tau
              (ComputeCommitmentExt pds re input).1.beta
              (ComputeCommitmentExt pds re input).1.delta) }) ∧
    RomVerify pds env dbg rom_proof seed vin =
      (if dbg = true ∧ pds.kGSize < rom_proof.proof.z.length then
        Except.error Fault.assertFailed
       else if vin.a.length ≠ rom_proof.proof.z.length ∨ vin.a.isEmpty = true then
        Except.ok false
       else VerifyInternal pds dbg vin
        (specChallenge env seed vin.com_pub.xi vin.com_pub.tau
          rom_proof.com_ext_pub.beta rom_proof.com_ext_pub.delta)
        rom_proof.com_ext_pub rom_proof.proof) ∧
    (∀ rp : RomProof F G, RomProve pds env dbg re seed input com_pub com_sec = Except.ok rp →
      rp.proof = ComputeProof input com_sec (ComputeCommitmentExt pds re input).2
        (specChallenge env seed com_pub.xi com_pub.tau rp.com_ext_pub.beta
          rp.com_ext_pub.delta)) := by
  have hc : ∀ cp : CommitmentPub G, ∀ cep : CommitmentExtPub G,
      env.H256ToFr (UpdateSeed env seed cp cep)
        = specChallenge env seed cp.xi cp.tau cep.beta cep.delta := by
    intro cp cep
    rfl
  have hp : RomProve pds env dbg re seed input com_pub com_sec =
      (if dbg = true ∧ pds.kGSize < input.n then Except.error Fault.assertFailed
       else Except.ok
        { com_ext_pub := (ComputeCommitmentExt pds re input).1,
          proof := ComputeProof input com_sec (ComputeCommitmentExt pds re input).2
            (specChallenge env seed com_pub.xi com_pub.tau
              (ComputeCommitmentExt pds re input).1.beta
              (ComputeCommitmentExt pds re input).1.delta) }) := by
    rw [← hc]
    by_cases hk : pds.kGSize < input.n
    · cases dbg
      · rw [if_neg (by simp)]
        simp [RomProve, cassert]
      · rw [if_pos ⟨rfl, hk⟩]
        simp [RomProve, cassert, hk]
    · rw [if_neg (fun h => hk h.2)]
      exact RomProve_ok pds env dbg re seed input com_pub com_sec (Nat.le_of_not_lt hk)
  refine ⟨hc, hp, ?_, ?_⟩
  · rw [← hc]
    exact RomVerify_eq pds env dbg rom_proof seed vin
  · intro rp hrp
    rw [hp] at hrp
    by_cases hk : dbg = true ∧ pds.kGSize < input.n
    · rw [if_pos hk] at hrp
      exact Except.noConfusion hrp
    · rw [if_neg hk] at hrp
      have := Except.ok.inj hrp
      rw [← this]

end

end hyrax.a2

/-- Witness for C5: on the toy run the response is built from the challenge
hashed from `(seed, xi, tau, beta, delta)`, whose value is 3. -/
theorem challenge_determinism_witness :
    hyrax.a2.specChallenge toyEnv toySeed toyComPub.xi toyComPub.tau
      toyRomProof.com_ext_pub.beta toyRomProof.com_ext_pub.delta = 3 ∧
    toyRomProof.proof = hyrax.a2.ComputeProof toyInput
      (hyrax.a2.ComputeCom toyPds toyComRand toyInput).2
      (hyrax.a2.ComputeCommitmentExt toyPds toyExtRand toyInput).2
      (hyrax.a2.specChallenge toyEnv toySeed toyComPub.xi toyComPub.tau
        toyRomProof.com_ext_pub.beta toyRomProof.com_ext_pub.delta) :=
  ⟨by decide,
    (hyrax.a2.challenge_determinism toyPds toyEnv true toyExtRand toySeed toyInput toyComPub
      (hyrax.a2.ComputeCom toyPds toyComRand toyInput).2 toyRomProof toyVerifierInput).2.2.2
      toyRomProof (by rfl)⟩

/-! ## The large-scale verifier -/

namespace vrs

theorem foldl_add_eq_sum {α G : Type} [AddCommGroup G] (f : α → G) :
    ∀ (l : List α) (init : G), l.foldl (fun a b => a + f b) init = init + (l.map f).sum := by
  intro l
  induction l with
  | nil => intro init; simp
  | cons x xs ih =>
    intro init
    simp only [List.foldl_cons, List.map_cons, List.sum_cons, ih]
    abel

/-- The number of shards: `i` is a shard index exactly when `i * k < count`. -/
theorem lt_shards_iff (k count i : Nat) (hk : 0 < k) :
    i < (count + k - 1) / k ↔ i * k < count := by
  rw [Nat.lt_iff_add_one_le, Nat.le_div_iff_mul_le hk, Nat.add_mul]
  omega

theorem makeItems_length (k count : Nat) :
    (LargeVerifier.makeItems k count).length = (count + k - 1) / k := by
  simp [LargeVerifier.makeItems]

theorem makeItems_getElem? (k count i : Nat) (hi : i < (count + k - 1) / k) :
    (LargeVerifier.makeItems k count)[i]? = some (i * k, min ((i + 1) * k) count) := by
  simp only [LargeVerifier.makeItems, List.getElem?_map, List.getElem?_range hi, Option.map_some',
    Option.some.injEq, Prod.mk.injEq, true_and]
  rw [Nat.add_mul, Nat.one_mul]
  by_cases h : i * k + k > count
  · rw [if_pos h]
    omega
  · rw [if_neg h]
    omega

theorem makeItems_getElem?_none (k count i : Nat) (hi : (count + k - 1) / k ≤ i) :
    (LargeVerifier.makeItems k count)[i]? = none := by
  apply List.getElem?_eq_none
  rw [makeItems_length]
  exact hi

/-- C6. For every `LargeVerifier` (in any state) and every list of proofs
whose length differs from the number of shard verifiers, `Verify` returns
`false`, invokes no shard verifier, and leaves `output`, `com_vw` and the
whole object as they were; for a constructed verifier the number of shards is
`(count + kMaxUnitPerZkp - 1) / kMaxUnitPerZkp`. -/
theorem Verify_proof_count_mismatch {F G R : Type} [AddCommGroup G] (sv : ShardVerify F G R)
    (self : LargeVerifier G) (rom_seed : h256_t) (get_w : Nat → F)
    (proofs : List (Proof G R)) (output : VerifyOutput G)
    (hlen : proofs.length ≠ self.verifiers_.length) :
    LargeVerifier.Verify sv self rom_seed get_w proofs output
      = Except.ok { ret := false, self := self, output := output, calls := [] } ∧
    (∀ (k : Nat) (public_input : PublicInput G),
      (LargeVerifier.new k public_input).verifiers_.length
        = (public_input.count + k - 1) / k) := by
  constructor
  · unfold LargeVerifier.Verify
    rw [if_pos hlen]
  · intro k public_input
    simp [LargeVerifier.new, makeItems_length]

/-- C9. Shard ranges of the `LargeVerifier` constructor, for a positive
`kMaxUnitPerZkp = k`: there are `ceil(count / k)` ranges (the least `n` with
`count <= n * k`), range `i` is `[i*k, min((i+1)*k, count))`; the ranges are
non-empty, consecutive, start at 0 and end at `count`, every index below
`count` lies in exactly one range and no other index lies in any; every range
but the last has length `k` and every range has length at most `k`;
`count = 0` gives no range, `1 <= count <= k` gives the one range
`[0, count)`, and `count = k + 1` gives the two ranges `[0,k)`, `[k,k+1)`. -/
theorem LargeVerifier_ranges {G : Type} [AddCommGroup G] (k : Nat) (hk : 0 < k)
    (public_input : PublicInput G) :
    (LargeVerifier.new k public_input).items_ = LargeVerifier.makeItems k public_input.count ∧
    (∀ count : Nat,
      ((LargeVerifier.makeItems k count).length = (count + k - 1) / k ∧
        count ≤ (LargeVerifier.makeItems k count).length * k ∧
        ∀ n, count ≤ n * k → (LargeVerifier.makeItems k count).length ≤ n) ∧
      (∀ i, i < (LargeVerifier.makeItems k count).length →
        (LargeVerifier.makeItems k count)[i]? = some (i * k, min ((i + 1) * k) count)) ∧
      (∀ item : Nat × Nat, item ∈ LargeVerifier.makeItems k count → item.1 < item.2) ∧
      (∀ (i : Nat) (a b : Nat × Nat), (LargeVerifier.makeItems k count)[i]? = some a →
        (LargeVerifier.makeItems k count)[i + 1]? = some b → a.2 = b.1) ∧
      (∀ a : Nat × Nat, (LargeVerifier.makeItems k count)[0]? = some a → a.1 = 0) ∧
      (∀ a : Nat × Nat,
        (LargeVerifier.makeItems k count)[(LargeVerifier.makeItems k count).length - 1]?
        = some a → a.2 = count) ∧
      (∀ j, j < count ↔ ∃ (i : Nat) (a : Nat × Nat),
        (LargeVerifier.makeItems k count)[i]? = some a ∧
        a.1 ≤ j ∧ j < a.2) ∧
      (∀ (j i1 i2 : Nat) (a b : Nat × Nat), (LargeVerifier.makeItems k count)[i1]? = some a →
        (LargeVerifier.makeItems k count)[i2]? = some b →
        a.1 ≤ j → j < a.2 → b.1 ≤ j → j < b.2 → i1 = i2) ∧
      (∀ (i : Nat) (a : Nat × Nat), (LargeVerifier.makeItems k count)[i]? = some a →
        i + 1 < (LargeVerifier.makeItems k count).length → a.2 - a.1 = k) ∧
      (∀ item : Nat × Nat, item ∈ LargeVerifier.makeItems k count → item.2 - item.1 ≤ k)) ∧
    LargeVerifier.makeItems k 0 = [] ∧
    (∀ count, 0 < count → count ≤ k → LargeVerifier.makeItems k count = [(0, count)]) ∧
    LargeVerifier.makeItems k (k + 1) = [(0, k), (k, k + 1)] := by
  have hget : ∀ count i a, (LargeVerifier.makeItems k count)[i]? = some a →
      i * k < count ∧ a = (i * k, min (i * k + k) count) := by
    intro count i a h
    by_cases hi : i < (count + k - 1) / k
    · rw [makeItems_getElem? k count i hi, Nat.add_mul, Nat.one_mul] at h
      exact ⟨(lt_shards_iff k count i hk).mp hi, (Option.some.inj h).symm⟩
    · rw [makeItems_getElem?_none k count i (Nat.le_of_not_lt hi)] at h
      exact Option.noConfusion h
  have hone : ∀ count, 0 < count → count ≤ k → LargeVerifier.makeItems k count = [(0, count)] := by
    intro count h0 h1
    have hn : (count + k - 1) / k = 1 := by
      apply Nat.le_antisymm
      · apply Nat.le_of_lt_succ
        rw [Nat.div_lt_iff_lt_mul hk]
        omega
      · rw [Nat.le_div_iff_mul_le hk]
        omega
    have hr : List.range 1 = [0] := rfl
    simp only [LargeVerifier.makeItems, hn, hr, List.map_cons, List.map_nil,
      Nat.zero_mul, Nat.zero_add]
    by_cases h : k > count
    · rw [if_pos h]
    · rw [if_neg h]
      have : count = k := by omega
      rw [this]
  refine ⟨rfl, ?_, ?_, hone, ?_⟩
  · intro count
    refine ⟨⟨makeItems_length k count, ?_, ?_⟩, ?_, ?_, ?_, ?_, ?_, ?_, ?_, ?_, ?_⟩
    · rw [makeItems_length]
      by_contra hc
      have h1 := (lt_shards_iff k count ((count + k - 1) / k) hk).mpr (Nat.lt_of_not_le hc)
      exact Nat.lt_irrefl _ h1
    · intro n hn
      rw [makeItems_length]
      by_contra hc
      have h1 := (lt_shards_iff k count n hk).mp (Nat.lt_of_not_le hc)
      omega
    · intro i hi
      rw [makeItems_length] at hi
      exact makeItems_getElem? k count i hi
    · intro item hmem
      obtain ⟨i, hi⟩ := List.mem_iff_getElem?.mp hmem
      obtain ⟨h1, h2⟩ := hget count i item hi
      rw [h2]
      simp only
      omega
    · intro i a b ha hb
      obtain ⟨h1, h2⟩ := hget count i a ha
      obtain ⟨h3, h4⟩ := hget count (i + 1) b hb
      rw [h2, h4]
      rw [Nat.add_mul, Nat.one_mul] at h3
      simp only [Nat.add_mul, Nat.one_mul]
      omega
    · intro a ha
      obtain ⟨_, h2⟩ := hget count 0 a ha
      rw [h2]
      simp
    · intro a ha
      obtain ⟨h1, h2⟩ := hget count _ a ha
      rw [makeItems_length] at h1 h2
      rw [h2]
      simp only
      have h3 : ¬ ((count + k - 1) / k - 1 + 1) * k < count := by
        intro hc
        have := (lt_shards_iff k count _ hk).mpr hc
        omega
      rw [Nat.add_mul, Nat.one_mul] at h3
      omega
    · intro j
      constructor
      · intro hj
        have hi : j / k < (count + k - 1) / k := by
          rw [lt_shards_iff k count _ hk]
          exact Nat.lt_of_le_of_lt (Nat.div_mul_le_self j k) hj
        refine ⟨j / k, _, makeItems_getElem? k count _ hi, Nat.div_mul_le_self j k, ?_⟩
        simp only
        have h5 : j < (j / k + 1) * k := by
          rw [Nat.mul_comm]
          exact Nat.lt_mul_div_succ j hk
        omega
      · rintro ⟨i, a, ha, h1, h2⟩
        obtain ⟨_, h4⟩ := hget count i a ha
        rw [h4] at h2
        simp only at h2
        omega
    · intro j i1 i2 a b ha hb h1 h2 h3 h4
      obtain ⟨_, ha2⟩ := hget count i1 a ha
      obtain ⟨_, hb2⟩ := hget count i2 b hb
      rw [ha2] at h1 h2
      rw [hb2] at h3 h4
      simp only at h1 h2 h3 h4
      have e1 : j / k = i1 := by
        apply Nat.div_eq_of_lt_le
        · exact h1
        · rw [Nat.succ_mul]; omega
      have e2 : j / k = i2 := by
        apply Nat.div_eq_of_lt_le
        · exact h3
        · rw [Nat.succ_mul]; omega
      rw [← e1, ← e2]
    · intro i a ha hi
      obtain ⟨_, h2⟩ := hget count i a ha
      rw [makeItems_length] at hi
      have h3 := (lt_shards_iff k count (i + 1) hk).mp hi
      rw [Nat.add_mul, Nat.one_mul] at h3
      rw [h2]
      simp only
      omega
    · intro item hmem
      obtain ⟨i, hi⟩ := List.mem_iff_getElem?.mp hmem
      obtain ⟨h1, h2⟩ := hget count i item hi
      rw [h2]
      simp only
      omega
  · have hn : (k - 1) / k = 0 := by
      apply Nat.div_eq_of_lt
      omega
    simp [LargeVerifier.makeItems, hn]
  · have hn : (k + 1 + k - 1) / k = 2 := by
      apply Nat.le_antisymm
      · apply Nat.le_of_lt_succ
        rw [Nat.div_lt_iff_lt_mul hk]
        omega
      · rw [Nat.le_div_iff_mul_le hk]
        omega
    simp only [LargeVerifier.makeItems, hn]
    simp [List.range_succ]
    omega

end vrs

namespace vrs

theorem set_append_cons {α : Type} (l1 : List α) (a x : α) (l2 : List α) (m : Nat)
    (hm : l1.length = m) : (l1 ++ a :: l2).set m x = l1 ++ x :: l2 := by
  subst hm
  rw [List.set_append_right _ _ (Nat.le_refl _)]
  simp

theorem shardCall_congr {F G R : Type} (sv : ShardVerify F G R) (items_ : List (Nat × Nat))
    (v1 v2 : List (Option (Verifier G))) (rom_seed : h256_t) (get_w : Nat → F)
    (proofs : List (Proof G R)) (i : Nat) (h : v1[i]? = v2[i]?) :
    shardCall sv items_ v1 rom_seed get_w proofs i
      = shardCall sv items_ v2 rom_seed get_w proofs i := by
  unfold shardCall
  rw [h]

/-- The state of the shard loop of `Verify` after `m` iterations, when every
shard call is defined: the first `m` verifiers are released, the first `m`
results and outputs are written, and exactly the shards `0 .. m-1` were
invoked. -/
theorem forLoop_verify {F G R : Type} [AddCommGroup G] (sv : ShardVerify F G R)
    (items_ : List (Nat × Nat)) (vs : List (Verifier G)) (rom_seed : h256_t)
    (get_w : Nat → F) (proofs : List (Proof G R)) (f : Nat → Bool × VerifyOutput G)
    (hf : ∀ i, i < vs.length →
      shardCall sv items_ (vs.map some) rom_seed get_w proofs i = some (f i)) :
    ∀ m, m ≤ vs.length →
      forLoop (LargeVerifier.loopBody sv items_ rom_seed get_w proofs) m
        { verifiers_ := vs.map some
          rets := List.replicate vs.length 0
          outputs := List.replicate vs.length Output.init
          calls := [] }
      = Except.ok
        { verifiers_ := List.replicate m none ++ (vs.drop m).map some
          rets := (List.range m).map (fun i => if (f i).1 then 1 else 0)
            ++ List.replicate (vs.length - m) 0
          outputs := (List.range m).map (fun i => (f i).2)
            ++ List.replicate (vs.length - m) Output.init
          calls := List.range m } := by
  intro m
  induction m with
  | zero =>
    intro _
    simp [forLoop]
  | succ m ih =>
    intro hm
    have hlt : m < vs.length := hm
    rw [forLoop, ih (Nat.le_of_lt hlt)]
    have hcall : shardCall sv items_ (List.replicate m none ++ (vs.drop m).map some) rom_seed
        get_w proofs m = some (f m) := by
      rw [← hf m hlt]
      apply shardCall_congr
      rw [List.getElem?_append_right (by simp)]
      simp [List.getElem?_drop]
    have hd : vs.drop m = vs[m] :: vs.drop (m + 1) := List.drop_eq_getElem_cons hlt
    have hr : vs.length - m = (vs.length - (m + 1)) + 1 := by omega
    simp only [LargeVerifier.loopBody, hcall]
    congr 1
    simp only [hd, hr, List.map_cons, List.replicate_succ]
    rw [set_append_cons _ _ _ _ m (by simp), set_append_cons _ _ _ _ m (by simp),
      set_append_cons _ _ _ _ m (by simp)]
    simp only [List.range_succ, List.map_append, List.map_cons, List.map_nil,
      List.append_assoc, List.singleton_append]
    have hn : List.replicate m (none : Option (Verifier G)) ++ none :: List.map some (vs.drop (m + 1))
        = none :: List.replicate m none ++ List.map some (vs.drop (m + 1)) := by
      rw [← List.replicate_succ, List.replicate_succ', List.append_assoc]
      rfl
    rw [hn]

end vrs

namespace vrs

theorem any_rets_iff (f : Nat → Bool) (n : Nat) :
    ((List.range n).map (fun i => if f i then (1 : Int) else 0)).any (fun r => r == 0) = true ↔
      ∃ i, i < n ∧ f i = false := by
  simp only [List.any_eq_true, List.mem_map, List.mem_range, beq_iff_eq]
  constructor
  · rintro ⟨x, ⟨i, hi, hx⟩, h0⟩
    refine ⟨i, hi, ?_⟩
    cases hfi : f i
    · rfl
    · rw [hfi] at hx
      simp only [if_true] at hx
      omega
  · rintro ⟨i, hi, hfi⟩
    exact ⟨0, ⟨i, hi, by simp [hfi]⟩, rfl⟩

/-- `Verify` on a verifier whose slots are all non-null, with one proof per
shard and every shard call defined (result `f i`), in the three cases: some
shard fails, all shards pass with at least one shard, no shard at all. -/
theorem Verify_run {F G R : Type} [AddCommGroup G] (sv : ShardVerify F G R)
    (self : LargeVerifier G) (vs : List (Verifier G)) (hvs : self.verifiers_ = vs.map some)
    (rom_seed : h256_t) (get_w : Nat → F) (proofs : List (Proof G R))
    (output : VerifyOutput G) (hlen : proofs.length = vs.length)
    (f : Nat → Bool × VerifyOutput G)
    (hf : ∀ i, i < vs.length →
      shardCall sv self.items_ (vs.map some) rom_seed get_w proofs i = some (f i)) :
    ((∃ i, i < vs.length ∧ (f i).1 = false) →
      LargeVerifier.Verify sv self rom_seed get_w proofs output =
        Except.ok
          { ret := false
            self := { self with verifiers_ := List.replicate vs.length none }
            output := output
            calls := List.range vs.length }) ∧
    ((∀ i, i < vs.length → (f i).1 = true) → 0 < vs.length →
      LargeVerifier.Verify sv self rom_seed get_w proofs output =
        Except.ok
          { ret := true
            self := { self with
              verifiers_ := List.replicate vs.length none
              com_vw_ := (proofs.map (fun p => p.com_vw)).sum }
            output := { output with
              h := (f 0).2.h
              g := ((List.range vs.length).map (fun i => (f i).2.g)).sum
              key_com := ((List.range vs.length).map (fun i => (f i).2.key_com)).sum }
            calls := List.range vs.length }) ∧
    (vs.length = 0 →
      LargeVerifier.Verify sv self rom_seed get_w proofs output
        = Except.error Fault.invalidAccess) := by
  have hloop := forLoop_verify sv self.items_ vs rom_seed get_w proofs f hf vs.length
    (Nat.le_refl _)
  have hsz : self.verifiers_.length = vs.length := by rw [hvs]; simp
  have hlen2 : ¬ proofs.length ≠ self.verifiers_.length := by
    rw [hsz]
    exact fun h => h hlen
  simp only [Nat.sub_self, List.replicate_zero, List.append_nil, List.drop_length,
    List.map_nil] at hloop
  refine ⟨?_, ?_, ?_⟩
  · intro hfail
    unfold LargeVerifier.Verify
    rw [if_neg hlen2]
    simp only [hsz]
    rw [hvs, hloop]
    simp only
    rw [if_pos ((any_rets_iff (fun i => (f i).1) vs.length).mpr hfail)]
  · intro hall hpos
    have hany : ¬ ((List.range vs.length).map (fun i => if (f i).1 then (1 : Int) else 0)).any
        (fun r => r == 0) = true := by
      rw [any_rets_iff (fun i => (f i).1) vs.length]
      rintro ⟨i, hi, hfi⟩
      rw [hall i hi] at hfi
      exact Bool.noConfusion hfi
    unfold LargeVerifier.Verify
    rw [if_neg hlen2]
    simp only [hsz]
    rw [hvs, hloop]
    simp only
    rw [if_neg hany]
    have h0 : ((List.range vs.length).map (fun i => (f i).2))[0]? = some (f 0).2 := by
      rw [List.getElem?_map, List.getElem?_range hpos]
      rfl
    simp only [details.MergeOutputs, h0, foldl_add_eq_sum, zero_add, List.map_map]
    rfl
  · intro h0
    unfold LargeVerifier.Verify
    rw [if_neg hlen2]
    simp only [hsz]
    rw [hvs, hloop]
    simp [h0, details.MergeOutputs]

end vrs

namespace vrs

/-- The shard verifiers built by the constructor, before they are boxed. -/
theorem new_verifiers {G : Type} [AddCommGroup G] (k : Nat) (public_input : PublicInput G) :
    (LargeVerifier.new k public_input).verifiers_ =
      ((LargeVerifier.makeItems k public_input.count).map (fun item =>
        ({ public_input :=
            { count := item.2 - item.1,
              get_p := fun j => public_input.get_p (item.1 + j) } } : Verifier G))).map some := by
  simp [LargeVerifier.new, List.map_map, Function.comp_def]

/-- The shard call of iteration `i` on a freshly constructed verifier. -/
theorem shardCall_new {F G R : Type} [AddCommGroup G] (sv : ShardVerify F G R) (k : Nat)
    (public_input : PublicInput G) (rom_seed : h256_t) (get_w : Nat → F)
    (proofs : List (Proof G R)) (i : Nat) (p : Proof G R)
    (hi : i < (public_input.count + k - 1) / k) (hp : proofs[i]? = some p) :
    shardCall sv (LargeVerifier.new k public_input).items_
      (LargeVerifier.new k public_input).verifiers_ rom_seed get_w proofs i
      = some (sv { count := min ((i + 1) * k) public_input.count - i * k,
                   get_p := fun j => public_input.get_p (i * k + j) }
              rom_seed (fun j => get_w (j + i * k)) p) := by
  have hit := makeItems_getElem? k public_input.count i hi
  unfold shardCall
  simp only [LargeVerifier.new, List.getElem?_map, hit, hp, Option.map_some']

/-- C7. For a constructed `LargeVerifier` with `count >= 1` and one proof per
shard, `Verify` returns, and it returns `true` exactly when the shard
`Verifier::Verify` returns `true` for every shard `i` on
`(rom_seed, j => get_w(j + i*k), proofs[i])`, where the shard's public input
is the slice `[i*k, min((i+1)*k, count))`; one failing shard makes the result
`false`.  Whatever the shard results, every shard verifier is invoked exactly
once (the invocation list is `0, 1, .., shards-1`). -/
theorem Verify_iff_all_shards {F G R : Type} [AddCommGroup G] (sv : ShardVerify F G R)
    (k : Nat) (hk : 0 < k) (public_input : PublicInput G) (hcount : 1 ≤ public_input.count)
    (rom_seed : h256_t) (get_w : Nat → F) (proofs : List (Proof G R))
    (output : VerifyOutput G)
    (hlen : proofs.length = (LargeVerifier.new k public_input).verifiers_.length) :
    ∃ r, LargeVerifier.Verify sv (LargeVerifier.new k public_input) rom_seed get_w proofs output
        = Except.ok r ∧
      (r.ret = true ↔ ∀ (i : Nat) (p : Proof G R), proofs[i]? = some p →
        (sv { count := min ((i + 1) * k) public_input.count - i * k,
              get_p := fun j => public_input.get_p (i * k + j) }
          rom_seed (fun j => get_w (j + i * k)) p).1 = true) ∧
      (∀ (i : Nat) (p : Proof G R), proofs[i]? = some p →
        (sv { count := min ((i + 1) * k) public_input.count - i * k,
              get_p := fun j => public_input.get_p (i * k + j) }
          rom_seed (fun j => get_w (j + i * k)) p).1 = false → r.ret = false) ∧
      r.calls = List.range proofs.length ∧
      (∀ i, i < proofs.length → r.calls.count i = 1) := by
  have hvs := new_verifiers k public_input
  have hn : proofs.length = (public_input.count + k - 1) / k := by
    rw [hlen]
    simp [LargeVerifier.new, makeItems_length]
  generalize hvsdef : ((LargeVerifier.makeItems k public_input.count).map (fun item =>
        ({ public_input :=
            { count := item.2 - item.1,
              get_p := fun j => public_input.get_p (item.1 + j) } } : Verifier G))) = vs at hvs
  have hvl : vs.length = proofs.length := by
    rw [← hvsdef, hn]
    simp [makeItems_length]
  have hpos : 0 < vs.length := by
    rw [hvl, hn, lt_shards_iff k _ 0 hk]
    omega
  let f : Nat → Bool × VerifyOutput G := fun i =>
    (shardCall sv (LargeVerifier.new k public_input).items_
      (LargeVerifier.new k public_input).verifiers_ rom_seed get_w proofs i).getD
      (false, Output.init)
  have hfp : ∀ (i : Nat) (p : Proof G R), proofs[i]? = some p →
      f i = sv { count := min ((i + 1) * k) public_input.count - i * k,
                 get_p := fun j => public_input.get_p (i * k + j) }
              rom_seed (fun j => get_w (j + i * k)) p := by
    intro i p hp
    have hi : i < (public_input.count + k - 1) / k := by
      rw [← hn]
      exact (List.getElem?_eq_some.mp hp).1
    simp only [f, shardCall_new sv k public_input rom_seed get_w proofs i p hi hp,
      Option.getD_some]
  have hf : ∀ i, i < vs.length →
      shardCall sv (LargeVerifier.new k public_input).items_ (vs.map some) rom_seed get_w
        proofs i = some (f i) := by
    intro i hi
    rw [hvl] at hi
    have hp : proofs[i]? = some proofs[i] := List.getElem?_eq_getElem hi
    rw [← hvs, hfp i _ hp]
    exact shardCall_new sv k public_input rom_seed get_w proofs i _ (hn ▸ hi) hp
  have hrun := Verify_run sv (LargeVerifier.new k public_input) vs hvs rom_seed get_w proofs
    output hvl.symm f hf
  have hcnt : ∀ i, i < proofs.length → (List.range vs.length).count i = 1 := by
    intro i hi
    rw [hvl]
    exact List.count_eq_one_of_mem (List.nodup_range _) (List.mem_range.mpr hi)
  by_cases hall : ∀ i, i < vs.length → (f i).1 = true
  · refine ⟨_, hrun.2.1 hall hpos, ⟨fun _ => ?_, fun _ => rfl⟩, ?_, by rw [hvl], hcnt⟩
    · intro i p hp
      rw [← hfp i p hp]
      exact hall i (hvl ▸ (List.getElem?_eq_some.mp hp).1)
    · intro i p hp hfalse
      rw [← hfp i p hp, hall i (hvl ▸ (List.getElem?_eq_some.mp hp).1)] at hfalse
      exact Bool.noConfusion hfalse
  · have hex : ∃ i, i < vs.length ∧ (f i).1 = false := by
      by_contra hc
      apply hall
      intro i hi
      cases hfi : (f i).1
      · exact absurd ⟨i, hi, hfi⟩ hc
      · rfl
    refine ⟨_, hrun.1 hex, ⟨fun h => Bool.noConfusion h, fun h => ?_⟩, fun _ _ _ _ => rfl,
      by rw [hvl], hcnt⟩
    exfalso
    obtain ⟨i, hi, hfi⟩ := hex
    rw [hvl] at hi
    have hp : proofs[i]? = some proofs[i] := List.getElem?_eq_getElem hi
    rw [hfp i _ hp, h i _ hp] at hfi
    exact Bool.noConfusion hfi

end vrs

namespace vrs

/-- On success `Verify` has stored the sum of the proofs' `com_vw`. -/
theorem Verify_true_com_vw {F G R : Type} [AddCommGroup G] (sv : ShardVerify F G R)
    (self : LargeVerifier G) (rom_seed : h256_t) (get_w : Nat → F)
    (proofs : List (Proof G R)) (output : VerifyOutput G) (r : VerifyResult G)
    (hr : LargeVerifier.Verify sv self rom_seed get_w proofs output = Except.ok r)
    (ht : r.ret = true) :
    r.self.com_vw = (proofs.map (fun p => p.com_vw)).sum := by
  unfold LargeVerifier.Verify at hr
  split at hr
  · have := Except.ok.inj hr
    rw [← this] at ht
    exact Bool.noConfusion ht
  · simp only at hr
    split at hr
    · exact Except.noConfusion hr
    · split at hr
      · have := Except.ok.inj hr
        rw [← this] at ht
        exact Bool.noConfusion ht
      · split at hr
        · exact Except.noConfusion hr
        · have := Except.ok.inj hr
          rw [← this]
          simp [LargeVerifier.com_vw, foldl_add_eq_sum]

/-- C8. Homomorphic merge: on a non-empty list of shard outputs
`MergeOutputs` sets `g` to the sum of the shard `g`, `key_com` to the sum of
the shard `key_com`, and `h` to the first shard's `h`; and whenever
`LargeVerifier::Verify` returns `true`, `com_vw()` is the sum of
`proofs[i].com_vw` over all shards. -/
theorem MergeOutputs_sums {F G R : Type} [AddCommGroup G] :
    (∀ (output first : Output G) (rest : List (Output G)),
      details.MergeOutputs output (first :: rest) =
        Except.ok
          { h := first.h
            g := ((first :: rest).map (fun o => o.g)).sum
            key_com := ((first :: rest).map (fun o => o.key_com)).sum }) ∧
    (∀ (sv : ShardVerify F G R) (self : LargeVerifier G) (rom_seed : h256_t)
      (get_w : Nat → F) (proofs : List (Proof G R)) (output : VerifyOutput G)
      (r : VerifyResult G),
      LargeVerifier.Verify sv self rom_seed get_w proofs output = Except.ok r →
      r.ret = true →
      r.self.com_vw = (proofs.map (fun p => p.com_vw)).sum) := by
  constructor
  · intro output first rest
    simp only [details.MergeOutputs, List.getElem?_cons_zero, foldl_add_eq_sum, zero_add]
  · intro sv self rom_seed get_w proofs output r hr ht
    exact Verify_true_com_vw sv self rom_seed get_w proofs output r hr ht

/-- C10. Shard boundary equivalence on the verifier side: for
`count = kMaxUnitPerZkp` and a single proof, `LargeVerifier::Verify` returns
the boolean of one direct `Verifier::Verify` on the same public input,
`rom_seed`, `get_w` and proof; on success the merged output is that shard's
output and `com_vw()` is the proof's `com_vw`. -/
theorem Verify_single_shard {F G R : Type} [AddCommGroup G] (sv : ShardVerify F G R)
    (k : Nat) (hk : 0 < k) (public_input : PublicInput G) (hcount : public_input.count = k)
    (rom_seed : h256_t) (get_w : Nat → F) (proof : Proof G R) (output : VerifyOutput G) :
    ∃ r, LargeVerifier.Verify sv (LargeVerifier.new k public_input) rom_seed get_w [proof]
        output = Except.ok r ∧
      r.ret = (sv public_input rom_seed get_w proof).1 ∧
      (r.ret = true →
        r.output = (sv public_input rom_seed get_w proof).2 ∧
        r.self.com_vw = proof.com_vw) := by
  have hshards : (public_input.count + k - 1) / k = 1 := by
    rw [hcount]
    apply Nat.le_antisymm
    · apply Nat.le_of_lt_succ
      rw [Nat.div_lt_iff_lt_mul hk]
      omega
    · rw [Nat.le_div_iff_mul_le hk]
      omega
  have hpi : ({ count := min ((0 + 1) * k) public_input.count - 0 * k,
                get_p := fun j => public_input.get_p (0 * k + j) } : PublicInput G)
      = public_input := by
    cases public_input with
    | mk c gp =>
      simp only at hcount
      simp [hcount]
  have hw : (fun j => get_w (j + 0 * k)) = get_w := by
    funext j
    simp
  have hcall : shardCall sv (LargeVerifier.new k public_input).items_
      (LargeVerifier.new k public_input).verifiers_ rom_seed get_w [proof] 0
      = some (sv public_input rom_seed get_w proof) := by
    have := shardCall_new sv k public_input rom_seed get_w [proof] 0 proof
      (by rw [hshards]; exact Nat.one_pos) rfl
    rw [hpi, hw] at this
    exact this
  have hvs := new_verifiers k public_input
  generalize hvsdef : ((LargeVerifier.makeItems k public_input.count).map (fun item =>
        ({ public_input :=
            { count := item.2 - item.1,
              get_p := fun j => public_input.get_p (item.1 + j) } } : Verifier G))) = vs at hvs
  have hvl : vs.length = 1 := by
    rw [← hvsdef]
    simp [makeItems_length, hshards]
  have hf : ∀ i, i < vs.length →
      shardCall sv (LargeVerifier.new k public_input).items_ (vs.map some) rom_seed get_w
        [proof] i = some ((fun _ => sv public_input rom_seed get_w proof) i) := by
    intro i hi
    have hi0 : i = 0 := by omega
    rw [hi0, ← hvs]
    exact hcall
  have hrun := Verify_run sv (LargeVerifier.new k public_input) vs hvs rom_seed get_w [proof]
    output (by rw [hvl]; rfl) (fun _ => sv public_input rom_seed get_w proof) hf
  cases hres : (sv public_input rom_seed get_w proof).1
  · refine ⟨_, hrun.1 ⟨0, by omega, hres⟩, rfl, fun h => Bool.noConfusion h⟩
  · refine ⟨_, hrun.2.1 (fun _ _ => hres) (by omega), rfl, fun _ => ⟨?_, ?_⟩⟩
    · simp [hvl]
    · simp [LargeVerifier.com_vw]

end vrs

/-- Witness for C6: one proof against the two shards of `count = 3`,
`kMaxUnitPerZkp = 2`. -/
theorem Verify_proof_count_mismatch_witness :
    (vrs.LargeVerifier.new 2 toyPublicInput).verifiers_.length = 2 ∧
    vrs.LargeVerifier.Verify toyShardVerify (vrs.LargeVerifier.new 2 toyPublicInput) toySeed
      toyGetW [{ com_vw := 7, rest := true }] toyOutput
      = Except.ok { ret := false, self := vrs.LargeVerifier.new 2 toyPublicInput,
                    output := toyOutput, calls := [] } :=
  ⟨rfl, (vrs.Verify_proof_count_mismatch toyShardVerify (vrs.LargeVerifier.new 2 toyPublicInput)
    toySeed toyGetW [{ com_vw := 7, rest := true }] toyOutput (by decide)).1⟩

/-- Witness for C7: two shards (`count = 3`, `kMaxUnitPerZkp = 2`), both
invoked. -/
theorem Verify_iff_all_shards_witness :
    ∃ r, vrs.LargeVerifier.Verify toyShardVerify (vrs.LargeVerifier.new 2 toyPublicInput)
        toySeed toyGetW toyProofs toyOutput = Except.ok r ∧
      r.calls = [0, 1] := by
  obtain ⟨r, h1, _, _, h3, _⟩ := vrs.Verify_iff_all_shards toyShardVerify 2 (by decide)
    toyPublicInput (by decide) toySeed toyGetW toyProofs toyOutput rfl
  exact ⟨r, h1, h3⟩

/-- Witness for C8: the toy run returns `true` and stores `7 + 8`. -/
theorem MergeOutputs_sums_witness :
    ∃ r, vrs.LargeVerifier.Verify toyShardVerify (vrs.LargeVerifier.new 2 toyPublicInput)
        toySeed toyGetW toyProofs toyOutput = Except.ok r ∧ r.ret = true ∧
      r.self.com_vw = (toyProofs.map (fun p => p.com_vw)).sum ∧
      (toyProofs.map (fun p => p.com_vw)).sum = 7 + 8 := by
  have hex : ∃ r, vrs.LargeVerifier.Verify toyShardVerify
      (vrs.LargeVerifier.new 2 toyPublicInput) toySeed toyGetW toyProofs toyOutput
      = Except.ok r ∧ r.ret = true := ⟨_, rfl, rfl⟩
  obtain ⟨r, hr, ht⟩ := hex
  exact ⟨r, hr, ht,
    (vrs.MergeOutputs_sums (F := ZMod 101) (G := ZMod 101) (R := Bool)).2
      toyShardVerify (vrs.LargeVerifier.new 2 toyPublicInput) toySeed toyGetW toyProofs
      toyOutput r hr ht, by decide⟩

/-- Witness for C9: `kMaxUnitPerZkp = 2`, `count = 3`. -/
theorem LargeVerifier_ranges_witness :
    (0 < 2) ∧ vrs.LargeVerifier.makeItems 2 (2 + 1) = [(0, 2), (2, 2 + 1)] :=
  ⟨by decide, (vrs.LargeVerifier_ranges 2 (by decide) toyPublicInput).2.2.2.2⟩

/-- Witness for C10: `count = kMaxUnitPerZkp = 3` and one proof. -/
theorem Verify_single_shard_witness :
    ∃ r, vrs.LargeVerifier.Verify toyShardVerify (vrs.LargeVerifier.new 3 toyPublicInput)
        toySeed toyGetW [{ com_vw := 7, rest := true }] toyOutput = Except.ok r ∧
      r.ret = (toyShardVerify toyPublicInput toySeed toyGetW { com_vw := 7, rest := true }).1 :=
  by
  obtain ⟨r, h1, h2, _⟩ := vrs.Verify_single_shard toyShardVerify 3 (by decide) toyPublicInput
    rfl toySeed toyGetW { com_vw := 7, rest := true } toyOutput
  exact ⟨r, h1, h2⟩

/-! ## Oversize proofs, failed equations and the seed -/

namespace hyrax.a2

section
variable {F G : Type} [Field F] [AddCommGroup G] [Module F G] [DecidableEq G]

/-- C12 (amended). For a proof whose length `n` exceeds `kGSize`: a build
with assertions stops at `assert(PdsPub::kGSize >= rom_proof.n())`; a build
without assertions returns `false` when `a.size() != n` or `a` is empty, and
in that build `kGSize` plays no role in the result of `RomVerify` at all. -/
theorem RomVerify_oversize (pds : PdsPub G) (env : HashEnv F G)
    (rom_proof : RomProof F G) (seed : h256_t) (input : VerifierInput F G)
    (hbig : pds.kGSize < rom_proof.n) :
    RomVerify pds env true rom_proof seed input = Except.error Fault.assertFailed ∧
    (input.a.length ≠ rom_proof.proof.z.length ∨ input.a = [] →
      RomVerify pds env false rom_proof seed input = Except.ok false) ∧
    (∀ K : Nat, RomVerify { pds with kGSize := K } env false rom_proof seed input
      = RomVerify pds env false rom_proof seed input) := by
  have hbig2 : pds.kGSize < rom_proof.proof.z.length := hbig
  refine ⟨?_, ?_, ?_⟩
  · rw [RomVerify_eq, if_pos ⟨rfl, hbig2⟩]
  · intro hbad
    have hsz : input.a.length ≠ rom_proof.proof.z.length ∨ input.a.isEmpty = true := by
      rcases hbad with h | h
      · exact Or.inl h
      · exact Or.inr (List.isEmpty_iff.mpr h)
    rw [RomVerify_eq, if_neg (fun h => Bool.noConfusion h.1), if_pos hsz]
  · intro K
    simp only [RomVerify_eq, Bool.false_eq_true, false_and, if_false]
    rfl

/-- C13 (amended). On a well-sized input (`a` non-empty, `a.size() == z.size()`,
`n <= kGSize`) for which one of the two equations fails, a build without
assertions returns the boolean `false` from `VerifyInternal` and from
`RomVerify`; a build with assertions stops at `assert(ret1 && ret2)`. -/
theorem RomVerify_failed_equation (pds : PdsPub G) (env : HashEnv F G) (dbg : Bool)
    (rom_proof : RomProof F G) (seed : h256_t) (input : VerifierInput F G)
    (hne : input.a ≠ []) (hlen : input.a.length = rom_proof.proof.z.length)
    (hn : rom_proof.n ≤ pds.kGSize)
    (hfail : ¬ (env.H256ToFr (UpdateSeed env seed input.com_pub rom_proof.com_ext_pub)
          • input.com_pub.xi + rom_proof.com_ext_pub.delta
        = ComputeCommitment pds rom_proof.proof.z rom_proof.proof.z_delta ∧
       env.H256ToFr (UpdateSeed env seed input.com_pub rom_proof.com_ext_pub)
          • input.com_pub.tau + rom_proof.com_ext_pub.beta
        = ComputeCommitment1 pds (InnerProduct rom_proof.proof.z input.a)
            rom_proof.proof.z_beta)) :
    VerifyInternal pds dbg input
        (env.H256ToFr (UpdateSeed env seed input.com_pub rom_proof.com_ext_pub))
        rom_proof.com_ext_pub rom_proof.proof
      = (if dbg then Except.error Fault.assertFailed else Except.ok false) ∧
    RomVerify pds env dbg rom_proof seed input
      = (if dbg then Except.error Fault.assertFailed else Except.ok false) := by
  have hn2 : ¬ (dbg = true ∧ pds.kGSize < rom_proof.proof.z.length) := by
    intro h
    exact absurd h.2 (Nat.not_lt.mpr hn)
  have hsz : ¬ (input.a.length ≠ rom_proof.proof.z.length ∨ input.a.isEmpty = true) := by
    intro h
    rcases h with h | h
    · exact h hlen
    · exact hne (List.isEmpty_iff.mp h)
  have hvi : VerifyInternal pds dbg input
        (env.H256ToFr (UpdateSeed env seed input.com_pub rom_proof.com_ext_pub))
        rom_proof.com_ext_pub rom_proof.proof
      = (if dbg then Except.error Fault.assertFailed else Except.ok false) := by
    rw [VerifyInternal_eq, if_neg hfail]
  refine ⟨hvi, ?_⟩
  rw [RomVerify_eq, if_neg hn2, if_neg hsz, hvi]

/-- C14 (amended). Seed binding: when `RomVerify` accepts a proof under the
seed `s`, the challenge hashed from another seed `s2` differs from the one
hashed from `s`, and `xi`, `tau` are not both the group zero, `RomVerify`
under `s2` and the same input does not accept: a build without assertions
returns `false`, a build with assertions stops at `assert(ret1 && ret2)`. -/
theorem RomVerify_other_seed (pds : PdsPub G) (env : HashEnv F G) (dbg : Bool)
    (rom_proof : RomProof F G) (s s2 : h256_t) (input : VerifierInput F G)
    (hacc : RomVerify pds env dbg rom_proof s input = Except.ok true)
    (hchal : env.H256ToFr (UpdateSeed env s2 input.com_pub rom_proof.com_ext_pub)
      ≠ env.H256ToFr (UpdateSeed env s input.com_pub rom_proof.com_ext_pub))
    (hcom : input.com_pub.xi ≠ 0 ∨ input.com_pub.tau ≠ 0) :
    RomVerify pds env dbg rom_proof s2 input
      = (if dbg then Except.error Fault.assertFailed else Except.ok false) ∧
    RomVerify pds env dbg rom_proof s2 input ≠ Except.ok true := by
  have heq := equations_of_accept pds env dbg rom_proof s input hacc
  have hbad : ¬ (env.H256ToFr (UpdateSeed env s2 input.com_pub rom_proof.com_ext_pub)
          • input.com_pub.xi + rom_proof.com_ext_pub.delta
        = ComputeCommitment pds rom_proof.proof.z rom_proof.proof.z_delta ∧
       env.H256ToFr (UpdateSeed env s2 input.com_pub rom_proof.com_ext_pub)
          • input.com_pub.tau + rom_proof.com_ext_pub.beta
        = ComputeCommitment1 pds (InnerProduct rom_proof.proof.z input.a)
            rom_proof.proof.z_beta) := by
    rintro ⟨h1, h2⟩
    have hsub : env.H256ToFr (UpdateSeed env s2 input.com_pub rom_proof.com_ext_pub)
        - env.H256ToFr (UpdateSeed env s input.com_pub rom_proof.com_ext_pub) ≠ 0 :=
      sub_ne_zero.mpr hchal
    rcases hcom with hx | ht
    · have h3 := add_right_cancel (h1.trans heq.1.symm)
      have h0 : (env.H256ToFr (UpdateSeed env s2 input.com_pub rom_proof.com_ext_pub)
          - env.H256ToFr (UpdateSeed env s input.com_pub rom_proof.com_ext_pub))
          • input.com_pub.xi = 0 := by
        rw [sub_smul, h3, sub_self]
      rcases smul_eq_zero.mp h0 with h | h
      · exact hsub h
      · exact hx h
    · have h3 := add_right_cancel (h2.trans heq.2.symm)
      have h0 : (env.H256ToFr (UpdateSeed env s2 input.com_pub rom_proof.com_ext_pub)
          - env.H256ToFr (UpdateSeed env s input.com_pub rom_proof.com_ext_pub))
          • input.com_pub.tau = 0 := by
        rw [sub_smul, h3, sub_self]
      rcases smul_eq_zero.mp h0 with h | h
      · exact hsub h
      · exact ht h
  have hres : RomVerify pds env dbg rom_proof s2 input
      = (if dbg then Except.error Fault.assertFailed else Except.ok false) := by
    rw [RomVerify_eq] at hacc ⊢
    by_cases h1 : dbg = true ∧ pds.kGSize < rom_proof.proof.z.length
    · rw [if_pos h1] at hacc
      exact Except.noConfusion hacc
    · rw [if_neg h1] at hacc
      by_cases h2 : input.a.length ≠ rom_proof.proof.z.length ∨ input.a.isEmpty = true
      · rw [if_pos h2] at hacc
        simp at hacc
      · rw [if_neg h1, if_neg h2, VerifyInternal_eq, if_neg hbad]
  refine ⟨hres, ?_⟩
  rw [hres]
  cases dbg <;> simp

end

end hyrax.a2

/-- Counterexample for C12 as stated: a proof of length 5 over `kGSize = 4`,
with an `a` of the same length, in a build with assertions: `RomVerify` does
not return `false`, it stops at `assert(PdsPub::kGSize >= rom_proof.n())`. -/
theorem RomVerify_oversize_debug :
    toyPds.kGSize < toyRomProofLong.n ∧
    hyrax.a2.RomVerify toyPds toyEnv true toyRomProofLong toySeed toyVerifierInputLong
      = Except.error Fault.assertFailed ∧
    hyrax.a2.RomVerify toyPds toyEnv true toyRomProofLong toySeed toyVerifierInputLong
      ≠ Except.ok false := by
  have h2 : hyrax.a2.RomVerify toyPds toyEnv true toyRomProofLong toySeed toyVerifierInputLong
      = Except.error Fault.assertFailed := rfl
  refine ⟨by decide, h2, ?_⟩
  intro h
  rw [h2] at h
  exact Except.noConfusion h

/-- Witness for C12 (amended): the oversize proof against an empty `a`,
without assertions. -/
theorem RomVerify_oversize_witness :
    toyPds.kGSize < toyRomProofLong.n ∧
    hyrax.a2.RomVerify toyPds toyEnv false toyRomProofLong toySeed toyVerifierInputEmpty
      = Except.ok false :=
  ⟨by decide,
    (hyrax.a2.RomVerify_oversize toyPds toyEnv toyRomProofLong toySeed toyVerifierInputEmpty
      (by decide)).2.1 (Or.inr rfl)⟩

/-- Counterexample for C13 as stated: the toy proof with `z[0]` changed, a
well-sized input whose first equation fails, in a build with assertions:
`VerifyInternal` and `RomVerify` trigger `assert(ret1 && ret2)` and return
nothing. -/
theorem VerifyInternal_failed_equation_debug :
    toyVerifierInput.a ≠ [] ∧
    toyVerifierInput.a.length = toyRomProofBadZ.proof.z.length ∧
    toyRomProofBadZ.n ≤ toyPds.kGSize ∧
    toyEnv.H256ToFr (hyrax.a2.UpdateSeed toyEnv toySeed toyVerifierInput.com_pub
      toyRomProofBadZ.com_ext_pub) = 3 ∧
    (3 : ZMod 101) • toyVerifierInput.com_pub.xi + toyRomProofBadZ.com_ext_pub.delta
      ≠ hyrax.a2.ComputeCommitment toyPds toyRomProofBadZ.proof.z
          toyRomProofBadZ.proof.z_delta ∧
    hyrax.a2.VerifyInternal toyPds true toyVerifierInput 3 toyRomProofBadZ.com_ext_pub
      toyRomProofBadZ.proof = Except.error Fault.assertFailed ∧
    hyrax.a2.RomVerify toyPds toyEnv true toyRomProofBadZ toySeed toyVerifierInput
      = Except.error Fault.assertFailed ∧
    hyrax.a2.RomVerify toyPds toyEnv true toyRomProofBadZ toySeed toyVerifierInput
      ≠ Except.ok false := by
  have h2 : hyrax.a2.RomVerify toyPds toyEnv true toyRomProofBadZ toySeed toyVerifierInput
      = Except.error Fault.assertFailed := rfl
  refine ⟨by decide, rfl, by decide, by decide, by decide, rfl, h2, ?_⟩
  intro h
  rw [h2] at h
  exact Except.noConfusion h

/-- Witness for C13 (amended): the same proof without assertions gives
`false`. -/
theorem RomVerify_failed_equation_witness :
    hyrax.a2.RomVerify toyPds toyEnv false toyRomProofBadZ toySeed toyVerifierInput
      = Except.ok false :=
  (hyrax.a2.RomVerify_failed_equation toyPds toyEnv false toyRomProofBadZ toySeed
    toyVerifierInput (by decide) (by rfl) (by decide) (by decide)).2

/-- Counterexample for C14 as stated: for `x = [0,0]` and the draw
`r_xi = r_tau = 0` both commitments are the group zero; the proof `RomProve`
returns under `toySeed` is accepted under `toySeed` and also under the
different seed `toySeed2`, although the two challenges differ (0 and 1). -/
theorem RomVerify_other_seed_accepts :
    (hyrax.a2.ComputeCom toyPds toyComRandZero toyInputZero).1 = toyComPubZero ∧
    hyrax.a2.RomProve toyPds toyEnv true toyExtRand toySeed toyInputZero toyComPubZero
      (hyrax.a2.ComputeCom toyPds toyComRandZero toyInputZero).2 = Except.ok toyRomProofZero ∧
    hyrax.a2.RomVerify toyPds toyEnv true toyRomProofZero toySeed toyVerifierInputZero
      = Except.ok true ∧
    toySeed2 ≠ toySeed ∧
    toyEnv.H256ToFr (hyrax.a2.UpdateSeed toyEnv toySeed2 toyComPubZero
        toyRomProofZero.com_ext_pub)
      ≠ toyEnv.H256ToFr (hyrax.a2.UpdateSeed toyEnv toySeed toyComPubZero
        toyRomProofZero.com_ext_pub) ∧
    hyrax.a2.RomVerify toyPds toyEnv true toyRomProofZero toySeed2 toyVerifierInputZero
      = Except.ok true ∧
    hyrax.a2.RomVerify toyPds toyEnv false toyRomProofZero toySeed2 toyVerifierInputZero
      = Except.ok true :=
  ⟨rfl, rfl, rfl, by decide, by decide, rfl, rfl⟩

/-- Witness for C14 (amended): the toy proof for `x = [3,5]` is accepted
under `toySeed` and, without assertions, gets `false` under `toySeed2`. -/
theorem RomVerify_other_seed_witness :
    hyrax.a2.RomVerify toyPds toyEnv false toyRomProof toySeed toyVerifierInput
      = Except.ok true ∧
    hyrax.a2.RomVerify toyPds toyEnv false toyRomProof toySeed2 toyVerifierInput
      = Except.ok false :=
  ⟨rfl,
    (hyrax.a2.RomVerify_other_seed toyPds toyEnv false toyRomProof toySeed toySeed2
      toyVerifierInput (by rfl) (by decide) (Or.inl (by decide))).1⟩

/-! ## The large-scale prover: secret inputs and the cache -/

namespace vrs

theorem traverse_ok {α β : Type} (f : α → Except Fault β) (g : α → β) :
    ∀ l : List α, (∀ a, a ∈ l → f a = Except.ok (g a)) →
      traverse f l = Except.ok (l.map g) := by
  intro l
  induction l with
  | nil => intro _; rfl
  | cons a rest ih =>
    intro h
    have h1 := h a (List.mem_cons_self a rest)
    have h2 := ih (fun b hb => h b (List.mem_cons_of_mem a hb))
    simp only [traverse, h1, h2, List.map_cons]

theorem traverse_map_eq {α β γ : Type} (f : α → Except Fault β) (p : β → γ) (g : α → γ) :
    ∀ (l : List α) (bs : List β), (∀ a b, a ∈ l → f a = Except.ok b → p b = g a) →
      traverse f l = Except.ok bs → bs.map p = l.map g := by
  intro l
  induction l with
  | nil =>
    intro bs _ h
    simp only [traverse, Except.ok.injEq] at h
    rw [← h]
    rfl
  | cons a rest ih =>
    intro bs hfg h
    simp only [traverse] at h
    cases hfa : f a with
    | error e =>
      rw [hfa] at h
      exact Except.noConfusion h
    | ok b =>
      rw [hfa] at h
      cases hrest : traverse f rest with
      | error e =>
        rw [hrest] at h
        exact Except.noConfusion h
      | ok bs2 =>
        rw [hrest] at h
        simp only [Except.ok.injEq] at h
        rw [← h]
        simp only [List.map_cons]
        rw [hfg a b (List.mem_cons_self a rest) hfa,
          ih bs2 (fun a2 b2 ha2 => hfg a2 b2 (List.mem_cons_of_mem a ha2)) hrest]

theorem map_range_getD {α : Type} (l : List α) (d : α) (n : Nat) (hn : l.length = n) :
    (List.range n).map (fun i => l.getD i d) = l := by
  subst hn
  apply List.ext_getElem
  · simp
  · intro i h1 h2
    simp [List.getD_eq_getElem?_getD, List.getElem?_eq_getElem h2]

/-- The first loop of `BuildSecretInputs`, when `SplitFr` returns `size`
shares. -/
theorem BuildSecretInputs_stage1 {F : Type} [Field F] (key : F) (shares : List F) (n : Nat)
    (hn : shares.length = n) :
    traverse (fun i =>
      match shares[i]? with
      | some r => Except.ok ({ key := key, vw_com_r := r, key_com_r := 0 } : SecretInput F)
      | none => Except.error Fault.invalidAccess) (List.range n)
    = Except.ok ((List.range n).map (fun i =>
        ({ key := key, vw_com_r := shares.getD i 0, key_com_r := 0 } : SecretInput F))) := by
  apply traverse_ok
  intro i hi
  have hi2 : i < shares.length := by rw [hn]; exact List.mem_range.mp hi
  simp [List.getElem?_eq_getElem hi2, List.getD_eq_getElem?_getD]

/-- Whatever the cache, a result of `BuildSecretInputs` has one entry per
shard, all with the original `key`, and the `vw_com_r` shares of `SplitFr`. -/
theorem BuildSecretInputs_props {F : Type} [Field F] (dbg : Bool) (SplitFr : SplitFrFn F)
    (rv rk : Nat → F) (secret_input : SecretInput F) (items_ : List (Nat × Nat))
    (cached_var_coms_r : List (List F)) (ret : List (SecretInput F))
    (hv : (SplitFr rv secret_input.vw_com_r items_.length).length = items_.length)
    (hret : LargeProver.BuildSecretInputs dbg SplitFr rv rk secret_input items_
      cached_var_coms_r = Except.ok ret) :
    ret.map (fun s => s.key) = List.replicate items_.length secret_input.key ∧
    ret.map (fun s => s.vw_com_r) = SplitFr rv secret_input.vw_com_r items_.length := by
  unfold LargeProver.BuildSecretInputs at hret
  simp only [BuildSecretInputs_stage1 secret_input.key _ _ hv] at hret
  have hget : ∀ i, i < items_.length →
      ((List.range items_.length).map (fun i =>
        ({ key := secret_input.key,
           vw_com_r := (SplitFr rv secret_input.vw_com_r items_.length).getD i 0,
           key_com_r := 0 } : SecretInput F)))[i]?
      = some { key := secret_input.key,
               vw_com_r := (SplitFr rv secret_input.vw_com_r items_.length).getD i 0,
               key_com_r := 0 } := by
    intro i hi
    rw [List.getElem?_map, List.getElem?_range hi]
    rfl
  have hrep : List.replicate items_.length secret_input.key
      = (List.range items_.length).map (fun _ => secret_input.key) := by
    apply List.ext_getElem
    · simp
    · intro i h1 h2
      simp
  have hshares := map_range_getD (SplitFr rv secret_input.vw_com_r items_.length) 0
    items_.length hv
  rw [hrep, ← hshares]
  split at hret
  · constructor
    · refine traverse_map_eq _ (fun s => s.key) _ _ ret ?_ hret
      intro i b hi hb
      rw [hget i (List.mem_range.mp hi)] at hb
      split at hb
      · next s r hs _ =>
        cases hs; cases hb; rfl
      · exact Except.noConfusion hb
    · refine traverse_map_eq _ (fun s => s.vw_com_r) _ _ ret ?_ hret
      intro i b hi hb
      rw [hget i (List.mem_range.mp hi)] at hb
      split at hb
      · next s r hs _ =>
        cases hs; cases hb; rfl
      · exact Except.noConfusion hb
  · split at hret
    · exact Except.noConfusion hret
    · constructor
      · refine traverse_map_eq _ (fun s => s.key) _ _ ret ?_ hret
        intro i b hi hb
        rw [hget i (List.mem_range.mp hi)] at hb
        split at hb
        · next s row hs _ =>
          split at hb
          · cases hs; cases hb; rfl
          · exact Except.noConfusion hb
        · exact Except.noConfusion hb
      · refine traverse_map_eq _ (fun s => s.vw_com_r) _ _ ret ?_ hret
        intro i b hi hb
        rw [hget i (List.mem_range.mp hi)] at hb
        split at hb
        · next s row hs _ =>
          split at hb
          · cases hs; cases hb; rfl
          · exact Except.noConfusion hb
        · exact Except.noConfusion hb

end vrs

namespace vrs

theorem SplitLargeTask_length (k count : Nat) :
    (SplitLargeTask k count).length = (count + k - 1) / k := by
  simp [SplitLargeTask]

theorem SplitLargeTask_getElem? (k count i : Nat) (hi : i < (SplitLargeTask k count).length) :
    (SplitLargeTask k count)[i]? = some (i * k, min ((i + 1) * k) count) := by
  rw [SplitLargeTask_length] at hi
  simp only [SplitLargeTask, List.getElem?_map, List.getElem?_range hi, Option.map_some']

theorem getElem?_eq_some_getD {α : Type} (l : List α) (d : α) (i : Nat) (hi : i < l.length) :
    l[i]? = some (l.getD i d) := by
  simp [List.getD_eq_getElem?_getD, List.getElem?_eq_getElem hi]

/-- `BuildSecretInputs` without a cache, when both `SplitFr` calls return one
share per shard. -/
theorem BuildSecretInputs_nocache {F : Type} [Field F] (dbg : Bool) (SplitFr : SplitFrFn F)
    (rv rk : Nat → F) (secret_input : SecretInput F) (items_ : List (Nat × Nat))
    (hv : (SplitFr rv secret_input.vw_com_r items_.length).length = items_.length)
    (hk : (SplitFr rk secret_input.key_com_r items_.length).length = items_.length) :
    LargeProver.BuildSecretInputs dbg SplitFr rv rk secret_input items_ []
      = Except.ok ((List.range items_.length).map (fun i =>
          ({ key := secret_input.key,
             vw_com_r := (SplitFr rv secret_input.vw_com_r items_.length).getD i 0,
             key_com_r := (SplitFr rk secret_input.key_com_r items_.length).getD i 0 }
            : SecretInput F))) := by
  unfold LargeProver.BuildSecretInputs
  simp only [BuildSecretInputs_stage1 secret_input.key _ _ hv, List.isEmpty_nil, if_true]
  apply traverse_ok
  intro i hi
  have hi2 := List.mem_range.mp hi
  rw [List.getElem?_map, List.getElem?_range hi2,
    getElem?_eq_some_getD _ 0 i (by rw [hk]; exact hi2)]
  rfl

/-- `BuildSecretInputs` with a cache that has one row per shard, every row of
length at least 2. -/
theorem BuildSecretInputs_cache {F : Type} [Field F] (dbg : Bool) (SplitFr : SplitFrFn F)
    (rv rk : Nat → F) (secret_input : SecretInput F) (items_ : List (Nat × Nat))
    (cached_var_coms_r : List (List F))
    (hv : (SplitFr rv secret_input.vw_com_r items_.length).length = items_.length)
    (hne : cached_var_coms_r ≠ []) (hlen : cached_var_coms_r.length = items_.length)
    (hrows : ∀ row, row ∈ cached_var_coms_r → 2 ≤ row.length) :
    LargeProver.BuildSecretInputs dbg SplitFr rv rk secret_input items_ cached_var_coms_r
      = Except.ok ((List.range items_.length).map (fun i =>
          ({ key := secret_input.key,
             vw_com_r := (SplitFr rv secret_input.vw_com_r items_.length).getD i 0,
             key_com_r := (cached_var_coms_r.getD i []).getD 1 0 } : SecretInput F))) := by
  unfold LargeProver.BuildSecretInputs
  have hemp : cached_var_coms_r.isEmpty = false := by
    cases cached_var_coms_r with
    | nil => exact absurd rfl hne
    | cons _ _ => rfl
  simp only [BuildSecretInputs_stage1 secret_input.key _ _ hv, hemp, Bool.false_eq_true,
    if_false, cassert, hlen, beq_self_eq_true, Bool.not_true, Bool.and_false]
  apply traverse_ok
  intro i hi
  have hi2 := List.mem_range.mp hi
  have hrow : cached_var_coms_r[i]? = some (cached_var_coms_r.getD i []) :=
    getElem?_eq_some_getD _ [] i (by rw [hlen]; exact hi2)
  have hmem : cached_var_coms_r.getD i [] ∈ cached_var_coms_r :=
    List.mem_iff_getElem?.mpr ⟨i, hrow⟩
  have h1 : (cached_var_coms_r.getD i [])[LargeProver.primary_input_size_]?
      = some ((cached_var_coms_r.getD i []).getD 1 0) :=
    getElem?_eq_some_getD _ 0 1 (hrows _ hmem)
  rw [List.getElem?_map, List.getElem?_range hi2, hrow]
  simp only [Option.map_some', h1]

/-- The constructor, once `BuildSecretInputs` has returned one secret input
per shard, for a cache that is empty or has one entry per shard. -/
theorem new_of_secret_inputs {F G : Type} [Field F] (dbg : Bool) (k : Nat)
    (SplitFr : SplitFrFn F) (rv rk : Nat → F) (public_input : PublicInput G)
    (secret_input : SecretInput F) (coms : List (List G)) (coms_r : List (List F))
    (sis : List (SecretInput F))
    (hbsi : LargeProver.BuildSecretInputs dbg SplitFr rv rk secret_input
      (SplitLargeTask k public_input.count) coms_r = Except.ok sis)
    (hsis : sis.length = (SplitLargeTask k public_input.count).length)
    (hcase : (coms = [] ∧ coms_r = []) ∨
      (coms.length = (SplitLargeTask k public_input.count).length ∧
       coms_r.length = (SplitLargeTask k public_input.count).length)) :
    LargeProver.new dbg k SplitFr rv rk public_input secret_input coms coms_r
      = Except.ok
        { public_input_ := public_input
          secret_input_ := secret_input
          provers_ := (List.range (SplitLargeTask k public_input.count).length).map (fun i =>
            some
              ({ public_input :=
                  { count := min ((i + 1) * k) public_input.count - i * k
                    get_p := fun j => public_input.get_p (i * k + j) }
                 secret_input := sis.getD i { key := 0, vw_com_r := 0, key_com_r := 0 }
                 cached_var_com := coms.getD i []
                 cached_var_com_r := coms_r.getD i [] } : Prover F G))
          items_ := SplitLargeTask k public_input.count
          vw_ := 0
          v_ := [] } := by
  unfold LargeProver.new
  have hl : coms.length = coms_r.length := by
    rcases hcase with ⟨h1, h2⟩ | ⟨h1, h2⟩
    · rw [h1, h2]
      rfl
    · rw [h1, h2]
  simp only [cassert, hl, beq_self_eq_true, Bool.not_true, Bool.and_false, Bool.false_eq_true,
    if_false, hbsi]
  have hassert : (if coms_r.length ≠ (SplitLargeTask k public_input.count).length then
      (if (dbg && !coms.isEmpty) = true then Except.error Fault.assertFailed
        else Except.ok ()) else Except.ok ()) = (Except.ok () : Except Fault Unit) := by
    rcases hcase with ⟨h1, _⟩ | ⟨_, h2⟩
    · rw [h1]
      simp
    · rw [if_neg (by rw [h2]; exact fun h => h rfl)]
  rw [hassert]
  simp only
  have htr : traverse (fun i =>
        match (SplitLargeTask k public_input.count)[i]?, sis[i]?,
          (if coms_r.length ≠ (SplitLargeTask k public_input.count).length then
            resize [] (SplitLargeTask k public_input.count).length [] else coms)[i]?,
          (if coms_r.length ≠ (SplitLargeTask k public_input.count).length then
            resize coms_r (SplitLargeTask k public_input.count).length [] else coms_r)[i]? with
        | some item, some si, some cached_var_com, some cached_var_com_r =>
          Except.ok (some
            ({ public_input :=
                { count := item.2 - item.1
                  get_p := fun j => public_input.get_p (item.1 + j) }
               secret_input := si
               cached_var_com := cached_var_com
               cached_var_com_r := cached_var_com_r } : Prover F G))
        | _, _, _, _ => Except.error Fault.invalidAccess)
      (List.range (SplitLargeTask k public_input.count).length)
      = Except.ok ((List.range (SplitLargeTask k public_input.count).length).map (fun i =>
            some
              ({ public_input :=
                  { count := min ((i + 1) * k) public_input.count - i * k
                    get_p := fun j => public_input.get_p (i * k + j) }
                 secret_input := sis.getD i { key := 0, vw_com_r := 0, key_com_r := 0 }
                 cached_var_com := coms.getD i []
                 cached_var_com_r := coms_r.getD i [] } : Prover F G))) := by
    apply traverse_ok
    intro i hi
    have hi2 := List.mem_range.mp hi
    have hsi : sis[i]? = some (sis.getD i { key := 0, vw_com_r := 0, key_com_r := 0 }) :=
      getElem?_eq_some_getD _ _ i (by rw [hsis]; exact hi2)
    rw [SplitLargeTask_getElem? k _ i hi2, hsi]
    rcases hcase with ⟨h1, h2⟩ | ⟨h1, h2⟩
    · subst h1
      subst h2
      by_cases hm : ([] : List (List F)).length ≠ (SplitLargeTask k public_input.count).length
      · rw [if_pos hm, if_pos hm]
        simp [resize, List.getElem?_replicate, hi2]
      · exfalso
        apply hm
        intro h0
        rw [← h0] at hi2
        exact Nat.not_lt_zero _ hi2
    · rw [if_neg (by rw [h2]; exact fun h => h rfl), if_neg (by rw [h2]; exact fun h => h rfl),
        getElem?_eq_some_getD coms [] i (by rw [h1]; exact hi2),
        getElem?_eq_some_getD coms_r [] i (by rw [h2]; exact hi2)]
  rw [htr]

end vrs

namespace vrs

theorem getElem?_map_range {α : Type} (f : Nat → α) (n i : Nat) (hi : i < n) :
    ((List.range n).map f)[i]? = some (f i) := by
  rw [List.getElem?_map, List.getElem?_range hi]
  rfl

/-- C11. Secret distribution invariant of `BuildSecretInputs`, assuming
`SplitFr(s, k)` returns `k` scalars that sum to `s`: for every `SecretInput`
and every shard count `k >= 1`, without a cache the function returns exactly
`k` per-shard secret inputs, each with the original `key`, whose `vw_com_r`
sum to the original `vw_com_r` and whose `key_com_r` sum to the original
`key_com_r`; and with any cache, a returned result again has exactly `k`
entries, each with the original `key`, whose `vw_com_r` sum to the original
`vw_com_r`. -/
theorem BuildSecretInputs_invariant {F : Type} [Field F] (dbg : Bool) (SplitFr : SplitFrFn F)
    (rv rk : Nat → F) (secret_input : SecretInput F) (items_ : List (Nat × Nat))
    (hsplit : ∀ (src : Nat → F) (s : F) (k : Nat), 1 ≤ k →
      (SplitFr src s k).length = k ∧ (SplitFr src s k).sum = s)
    (hk : 1 ≤ items_.length) :
    (∃ ret, LargeProver.BuildSecretInputs dbg SplitFr rv rk secret_input items_ []
        = Except.ok ret ∧
      ret.length = items_.length ∧
      (∀ s, s ∈ ret → s.key = secret_input.key) ∧
      (ret.map (fun s => s.vw_com_r)).sum = secret_input.vw_com_r ∧
      (ret.map (fun s => s.key_com_r)).sum = secret_input.key_com_r) ∧
    (∀ (cached_var_coms_r : List (List F)) (ret : List (SecretInput F)),
      LargeProver.BuildSecretInputs dbg SplitFr rv rk secret_input items_ cached_var_coms_r
        = Except.ok ret →
      ret.length = items_.length ∧
      (∀ s, s ∈ ret → s.key = secret_input.key) ∧
      (ret.map (fun s => s.vw_com_r)).sum = secret_input.vw_com_r) := by
  have hv := hsplit rv secret_input.vw_com_r items_.length hk
  have hkc := hsplit rk secret_input.key_com_r items_.length hk
  have hany : ∀ (cached_var_coms_r : List (List F)) (ret : List (SecretInput F)),
      LargeProver.BuildSecretInputs dbg SplitFr rv rk secret_input items_ cached_var_coms_r
        = Except.ok ret →
      ret.length = items_.length ∧
      (∀ s, s ∈ ret → s.key = secret_input.key) ∧
      (ret.map (fun s => s.vw_com_r)).sum = secret_input.vw_com_r := by
    intro cache ret hret
    obtain ⟨h1, h2⟩ := BuildSecretInputs_props dbg SplitFr rv rk secret_input items_ cache ret
      hv.1 hret
    refine ⟨?_, ?_, ?_⟩
    · have := congrArg List.length h1
      simpa using this
    · intro s hs
      have hmem : s.key ∈ ret.map (fun s => s.key) := List.mem_map_of_mem _ hs
      rw [h1] at hmem
      exact List.eq_of_mem_replicate hmem
    · rw [h2]
      exact hv.2
  refine ⟨?_, hany⟩
  have hret := BuildSecretInputs_nocache dbg SplitFr rv rk secret_input items_ hv.1 hkc.1
  obtain ⟨h1, h2, h3⟩ := hany [] _ hret
  refine ⟨_, hret, h1, h2, h3, ?_⟩
  rw [List.map_map]
  have : ((fun s : SecretInput F => s.key_com_r) ∘ fun i =>
      ({ key := secret_input.key,
         vw_com_r := (SplitFr rv secret_input.vw_com_r items_.length).getD i 0,
         key_com_r := (SplitFr rk secret_input.key_com_r items_.length).getD i 0 }
        : SecretInput F))
      = fun i => (SplitFr rk secret_input.key_com_r items_.length).getD i 0 := rfl
  rw [this, map_range_getD _ 0 _ hkc.1]
  exact hkc.2

/-- C15 (amended). When no cache is supplied and `SplitFr` returns one share
per shard, the constructor builds every shard `Prover` with an empty
`cached_var_com` and an empty `cached_var_com_r`, and its `SecretInput` holds
the shares of the two `SplitFr` calls.  With assertions compiled in, a
non-empty cache whose size differs from the shard count stops the constructor
at an assertion. -/
theorem LargeProver_new_without_cache {F G : Type} [Field F] (dbg : Bool) (k : Nat)
    (SplitFr : SplitFrFn F) (rv rk : Nat → F) (public_input : PublicInput G)
    (secret_input : SecretInput F)
    (hsplit : ∀ (src : Nat → F) (s : F) (n : Nat), 1 ≤ n → (SplitFr src s n).length = n)
    (hk : 1 ≤ (SplitLargeTask k public_input.count).length) :
    (∃ lp, LargeProver.new dbg k SplitFr rv rk public_input secret_input [] [] = Except.ok lp ∧
      lp.provers_.length = (SplitLargeTask k public_input.count).length ∧
      ∀ i, i < (SplitLargeTask k public_input.count).length →
        ∃ p, lp.provers_[i]? = some (some p) ∧
          p.cached_var_com = [] ∧ p.cached_var_com_r = [] ∧
          p.secret_input.key = secret_input.key ∧
          some p.secret_input.vw_com_r
            = (SplitFr rv secret_input.vw_com_r (SplitLargeTask k public_input.count).length)[i]? ∧
          some p.secret_input.key_com_r
            = (SplitFr rk secret_input.key_com_r
                (SplitLargeTask k public_input.count).length)[i]?) ∧
    (∀ (coms : List (List G)) (coms_r : List (List F)), coms_r ≠ [] →
      coms_r.length ≠ (SplitLargeTask k public_input.count).length →
      LargeProver.new true k SplitFr rv rk public_input secret_input coms coms_r
        = Except.error Fault.assertFailed) := by
  have hv := hsplit rv secret_input.vw_com_r _ hk
  have hkc := hsplit rk secret_input.key_com_r _ hk
  constructor
  · have hbsi := BuildSecretInputs_nocache dbg SplitFr rv rk secret_input
      (SplitLargeTask k public_input.count) hv hkc
    have hnew := new_of_secret_inputs dbg k SplitFr rv rk public_input secret_input
      ([] : List (List G)) [] _ hbsi (by simp) (Or.inl ⟨rfl, rfl⟩)
    refine ⟨_, hnew, by simp, ?_⟩
    intro i hi
    refine ⟨_, getElem?_map_range _ _ i hi, rfl, rfl, ?_, ?_, ?_⟩
    · simp [List.getD_eq_getElem?_getD, List.getElem?_range hi]
    · simp only [List.getD_eq_getElem?_getD, List.getElem?_map, List.getElem?_range hi,
        Option.map_some', Option.getD_some]
      rw [List.getElem?_eq_getElem (by rw [hv]; exact hi)]
      rfl
    · simp only [List.getD_eq_getElem?_getD, List.getElem?_map, List.getElem?_range hi,
        Option.map_some', Option.getD_some]
      rw [List.getElem?_eq_getElem (by rw [hkc]; exact hi)]
      rfl
  · intro coms coms_r hne hlen
    unfold LargeProver.new
    by_cases h1 : coms.length = coms_r.length
    · have hemp : coms_r.isEmpty = false := by
        cases coms_r with
        | nil => exact absurd rfl hne
        | cons _ _ => rfl
      have hbsi : LargeProver.BuildSecretInputs true SplitFr rv rk secret_input
          (SplitLargeTask k public_input.count) coms_r = Except.error Fault.assertFailed := by
        unfold LargeProver.BuildSecretInputs
        simp only [BuildSecretInputs_stage1 secret_input.key _ _ hv, hemp, Bool.false_eq_true,
          if_false, cassert]
        simp [hlen]
      simp only [cassert, h1, beq_self_eq_true, Bool.not_true, Bool.and_false,
        Bool.false_eq_true, if_false, hbsi]
    · simp [cassert, h1]

/-- C16. Cached key blinding: for a non-empty cache with one entry per shard,
every randomness row of length at least 2, and a `SplitFr` that returns `n`
scalars summing to the secret, the constructor returns, shard `i`'s
`SecretInput.key_com_r` is `cached_var_coms_r[i][1]` (whatever
`secret_input.key_com_r` is), and the shards' `vw_com_r` are the fresh
`SplitFr` shares of `secret_input.vw_com_r`, which sum to it. -/
theorem LargeProver_new_with_cache {F G : Type} [Field F] (dbg : Bool) (k : Nat)
    (SplitFr : SplitFrFn F) (rv rk : Nat → F) (public_input : PublicInput G)
    (secret_input : SecretInput F) (coms : List (List G)) (coms_r : List (List F))
    (hsplit : ∀ (src : Nat → F) (s : F) (n : Nat), 1 ≤ n →
      (SplitFr src s n).length = n ∧ (SplitFr src s n).sum = s)
    (hne : coms_r ≠ [])
    (hc : coms.length = (SplitLargeTask k public_input.count).length)
    (hcr : coms_r.length = (SplitLargeTask k public_input.count).length)
    (hrows : ∀ row, row ∈ coms_r → 2 ≤ row.length) :
    ∃ lp, LargeProver.new dbg k SplitFr rv rk public_input secret_input coms coms_r
        = Except.ok lp ∧
      lp.provers_.length = (SplitLargeTask k public_input.count).length ∧
      (∀ (i : Nat) (row : List F), coms_r[i]? = some row →
        ∃ p r, lp.provers_[i]? = some (some p) ∧ row[1]? = some r ∧
          p.secret_input.key_com_r = r ∧
          p.secret_input.key = secret_input.key ∧
          some p.secret_input.vw_com_r
            = (SplitFr rv secret_input.vw_com_r
                (SplitLargeTask k public_input.count).length)[i]?) ∧
      (SplitFr rv secret_input.vw_com_r (SplitLargeTask k public_input.count).length).length
        = (SplitLargeTask k public_input.count).length ∧
      (SplitFr rv secret_input.vw_com_r (SplitLargeTask k public_input.count).length).sum
        = secret_input.vw_com_r := by
  have hk : 1 ≤ (SplitLargeTask k public_input.count).length := by
    rw [← hcr]
    cases coms_r with
    | nil => exact absurd rfl hne
    | cons _ _ => simp
  have hv := hsplit rv secret_input.vw_com_r _ hk
  have hbsi := BuildSecretInputs_cache dbg SplitFr rv rk secret_input
    (SplitLargeTask k public_input.count) coms_r hv.1 hne hcr hrows
  have hnew := new_of_secret_inputs dbg k SplitFr rv rk public_input secret_input
    coms coms_r _ hbsi (by simp) (Or.inr ⟨hc, hcr⟩)
  refine ⟨_, hnew, by simp, ?_, hv.1, hv.2⟩
  intro i row hrow
  have hi : i < (SplitLargeTask k public_input.count).length := by
    rw [← hcr]
    exact (List.getElem?_eq_some.mp hrow).1
  have hmem : row ∈ coms_r := List.mem_iff_getElem?.mpr ⟨i, hrow⟩
  have hrowD : coms_r.getD i [] = row := by
    simp [List.getD_eq_getElem?_getD, hrow]
  refine ⟨_, row.getD 1 0, getElem?_map_range _ _ i hi,
    getElem?_eq_some_getD row 0 1 (hrows row hmem), ?_, ?_, ?_⟩
  · simp [List.getD_eq_getElem?_getD, List.getElem?_range hi, hrow]
  · simp [List.getD_eq_getElem?_getD, List.getElem?_range hi]
  · simp only [List.getD_eq_getElem?_getD, List.getElem?_map, List.getElem?_range hi,
      Option.map_some', Option.getD_some]
    rw [List.getElem?_eq_getElem (by rw [hv.1]; exact hi)]
    rfl

end vrs

/-- The toy `SplitFr` returns `k` shares that sum to the secret. -/
theorem toySplitFr_spec (src : Nat → ZMod 101) (s : ZMod 101) (k : Nat) (hk : 1 ≤ k) :
    (toySplitFr src s k).length = k ∧ (toySplitFr src s k).sum = s := by
  have h0 : k ≠ 0 := by omega
  constructor
  · simp only [toySplitFr, if_neg h0, FrRandVec, List.length_append, List.length_map,
      List.length_range, List.length_singleton]
    omega
  · simp only [toySplitFr, if_neg h0, List.sum_append, List.sum_singleton]
    ring

/-- Witness for C11: two shards, no cache. -/
theorem BuildSecretInputs_invariant_witness :
    ∃ ret, vrs.LargeProver.BuildSecretInputs true toySplitFr toyRandV toyRandK toySecretInput
        (vrs.SplitLargeTask 2 3) [] = Except.ok ret ∧
      ret.length = (vrs.SplitLargeTask 2 3).length ∧
      (∀ s, s ∈ ret → s.key = toySecretInput.key) ∧
      (ret.map (fun s => s.vw_com_r)).sum = toySecretInput.vw_com_r ∧
      (ret.map (fun s => s.key_com_r)).sum = toySecretInput.key_com_r :=
  (vrs.BuildSecretInputs_invariant true toySplitFr toyRandV toyRandK toySecretInput
    (vrs.SplitLargeTask 2 3) toySplitFr_spec (by decide)).1

/-- Counterexample for C15 as stated: a cache with three entries for a task
with two shards.  With assertions the constructor stops at an assertion;
without assertions it returns shard provers whose `cached_var_com` is empty
but whose `cached_var_com_r` is the stale cache row and whose `key_com_r` is
read from the cache. -/
theorem LargeProver_new_mismatched_cache :
    toyCacheComs3.length ≠ (vrs.SplitLargeTask 2 toyPublicInput.count).length ∧
    vrs.LargeProver.new true 2 toySplitFr toyRandV toyRandK toyPublicInput toySecretInput
      toyCacheComs3 toyCacheComsR3 = Except.error Fault.assertFailed ∧
    ∃ lp, vrs.LargeProver.new false 2 toySplitFr toyRandV toyRandK toyPublicInput toySecretInput
        toyCacheComs3 toyCacheComsR3 = Except.ok lp ∧
      lp.provers_.map (fun o => o.map (fun p =>
          (p.cached_var_com, p.cached_var_com_r, p.secret_input.key_com_r)))
        = [some ([], [5, 6], 6), some ([], [7, 8], 8)] :=
  ⟨by decide, rfl, _, rfl, rfl⟩

/-- Witness for C15 (amended): two shards, no cache. -/
theorem LargeProver_new_without_cache_witness :
    ∃ lp, vrs.LargeProver.new true 2 toySplitFr toyRandV toyRandK toyPublicInput toySecretInput
        ([] : List (List (ZMod 101))) [] = Except.ok lp ∧
      lp.provers_.length = (vrs.SplitLargeTask 2 toyPublicInput.count).length ∧
      ∀ i, i < (vrs.SplitLargeTask 2 toyPublicInput.count).length →
        ∃ p, lp.provers_[i]? = some (some p) ∧
          p.cached_var_com = [] ∧ p.cached_var_com_r = [] ∧
          p.secret_input.key = toySecretInput.key ∧
          some p.secret_input.vw_com_r
            = (toySplitFr toyRandV toySecretInput.vw_com_r
                (vrs.SplitLargeTask 2 toyPublicInput.count).length)[i]? ∧
          some p.secret_input.key_com_r
            = (toySplitFr toyRandK toySecretInput.key_com_r
                (vrs.SplitLargeTask 2 toyPublicInput.count).length)[i]? :=
  (vrs.LargeProver_new_without_cache true 2 toySplitFr toyRandV toyRandK toyPublicInput
    toySecretInput (fun src s n h => (toySplitFr_spec src s n h).1) (by decide)).1

/-- Witness for C16: two shards with the cache rows `[5,6]` and `[7,34]`. -/
theorem LargeProver_new_with_cache_witness :
    ∃ lp, vrs.LargeProver.new true 2 toySplitFr toyRandV toyRandK toyPublicInput toySecretInput
        toyCacheComs toyCacheComsR = Except.ok lp ∧
      ∃ p r, lp.provers_[1]? = some (some p) ∧ ([7, 34] : List (ZMod 101))[1]? = some r ∧
        p.secret_input.key_com_r = r := by
  obtain ⟨lp, h1, _, h3, _⟩ := vrs.LargeProver_new_with_cache true 2 toySplitFr toyRandV
    toyRandK toyPublicInput toySecretInput toyCacheComs toyCacheComsR toySplitFr_spec
    (by decide) (by decide) (by decide) (by decide)
  obtain ⟨p, r, h4, h5, h6, _⟩ := h3 1 [7, 34] rfl
  exact ⟨lp, h1, p, r, h4, h5, h6⟩

/-! ## The large-scale prover: `Prove` -/

namespace vrs

theorem set_prefix_drop {α : Type} (pre init : List α) (m : Nat) (x : α)
    (hpre : pre.length = m) (hm : m < init.length) :
    (pre ++ init.drop m).set m x = (pre ++ [x]) ++ init.drop (m + 1) := by
  rw [List.drop_eq_getElem_cons hm, set_append_cons _ _ _ _ m hpre]
  simp

theorem getElem?_prefix_drop {α : Type} (pre init : List α) (m : Nat)
    (hpre : pre.length = m) : (pre ++ init.drop m)[m]? = init[m]? := by
  rw [List.getElem?_append_right (by rw [hpre]), hpre, Nat.sub_self, List.getElem?_drop]
  rfl

theorem proveCall_congr {F G R : Type} (sp : ShardProver F G R) (items_ : List (Nat × Nat))
    (p1 p2 : List (Option (Prover F G))) (rom_seed : h256_t) (get_w : Nat → F) (i : Nat)
    (h : p1[i]? = p2[i]?) :
    (proveCall sp items_ p1 rom_seed get_w i : Option (Proof G R × ProveOutput G × F))
      = proveCall sp items_ p2 rom_seed get_w i := by
  unfold proveCall
  rw [h]

/-- The state of the shard loop of `Prove` after `m` iterations, when every
shard call is defined. -/
theorem forLoop_prove {F G R : Type} (sp : ShardProver F G R) (items_ : List (Nat × Nat))
    (rom_seed : h256_t) (get_w : Nat → F) (init : ProveLoop F G R) (n : Nat)
    (hp : init.provers_.length = n) (hpr : init.proofs.length = n)
    (ho : init.outputs.length = n) (hvw : init.vws.length = n)
    (f : Nat → Proof G R × ProveOutput G × F)
    (hf : ∀ i, i < n → proveCall sp items_ init.provers_ rom_seed get_w i = some (f i)) :
    ∀ m, m ≤ n →
      forLoop (LargeProver.loopBody sp items_ rom_seed get_w) m init
      = Except.ok
        { provers_ := List.replicate m none ++ init.provers_.drop m
          proofs := (List.range m).map (fun i => (f i).1) ++ init.proofs.drop m
          outputs := (List.range m).map (fun i => (f i).2.1) ++ init.outputs.drop m
          vws := (List.range m).map (fun i => (f i).2.2) ++ init.vws.drop m } := by
  intro m
  induction m with
  | zero =>
    intro _
    simp [forLoop]
  | succ m ih =>
    intro hm
    have hlt : m < n := hm
    rw [forLoop, ih (Nat.le_of_lt hlt)]
    have hcall : proveCall sp items_ (List.replicate m none ++ init.provers_.drop m) rom_seed
        get_w m = some (f m) := by
      rw [← hf m hlt]
      apply proveCall_congr
      exact getElem?_prefix_drop _ _ m (by simp)
    simp only [LargeProver.loopBody, hcall]
    rw [set_prefix_drop _ _ m _ (by simp) (by rw [hp]; exact hlt),
      set_prefix_drop _ _ m _ (by simp) (by rw [hpr]; exact hlt),
      set_prefix_drop _ _ m _ (by simp) (by rw [ho]; exact hlt),
      set_prefix_drop _ _ m _ (by simp) (by rw [hvw]; exact hlt)]
    simp only [List.range_succ, List.map_append, List.map_cons, List.map_nil,
      List.replicate_succ']

theorem resize_length {α : Type} (l : List α) (n : Nat) (d : α) : (resize l n d).length = n := by
  simp only [resize, List.length_append, List.length_take, List.length_replicate]
  omega

theorem foldl_add_eq_sum_id {G : Type} [AddCommMonoid G] :
    ∀ (l : List G) (init : G), l.foldl (fun a b => a + b) init = init + l.sum := by
  intro l
  induction l with
  | nil => intro init; simp
  | cons x xs ih =>
    intro init
    simp only [List.foldl_cons, List.sum_cons, ih]
    rw [add_assoc]

/-- `Prove` on a prover with at least one shard whose shard calls are all
defined (result `f i`): the outcome without assertions, and with them. -/
theorem Prove_run {F G R : Type} [Field F] [AddCommGroup G] [Module F G] [DecidableEq G]
    (pds : PdsPub G) (sp : ShardProver F G R) (dbg : Bool) (self : LargeProver F G)
    (rom_seed : h256_t) (get_w : Nat → F) (dproof : Proof G R) (proofs : List (Proof G R))
    (output : ProveOutput G) (hpos : 0 < self.provers_.length)
    (f : Nat → Proof G R × ProveOutput G × F)
    (hf : ∀ i, i < self.provers_.length →
      proveCall sp self.items_ self.provers_ rom_seed get_w i = some (f i)) :
    LargeProver.Prove pds sp dbg self rom_seed get_w dproof proofs output =
      if dbg = true ∧
          ¬ (groth09.details.ComputeCommitment pds
              ((List.range self.provers_.length).map (fun i => (f i).2.2)).sum
              self.secret_input_.vw_com_r
            = ((List.range self.provers_.length).map (fun i => (f i).1.com_vw)).sum ∧
           self.secret_input_.key_com_r • (f 0).2.1.h
              + self.secret_input_.key •
                ((List.range self.provers_.length).map (fun i => (f i).2.1.g)).sum
            = ((List.range self.provers_.length).map (fun i => (f i).2.1.key_com)).sum)
      then Except.error Fault.assertFailed
      else Except.ok
        { self := { self with
            provers_ := List.replicate self.provers_.length none
            vw_ := ((List.range self.provers_.length).map (fun i => (f i).2.2)).sum }
          proofs := (List.range self.provers_.length).map (fun i => (f i).1)
          output := { output with
            h := (f 0).2.1.h
            g := ((List.range self.provers_.length).map (fun i => (f i).2.1.g)).sum
            key_com :=
              ((List.range self.provers_.length).map (fun i => (f i).2.1.key_com)).sum } } := by
  have hloop := forLoop_prove sp self.items_ rom_seed get_w
    { provers_ := self.provers_
      proofs := resize proofs self.provers_.length dproof
      outputs := List.replicate self.provers_.length Output.init
      vws := List.replicate self.provers_.length 0 }
    self.provers_.length rfl (resize_length _ _ _) (by simp) (by simp) f hf
    self.provers_.length (Nat.le_refl _)
  have hd1 : (resize proofs self.provers_.length dproof).drop self.provers_.length = [] := by
    apply List.drop_eq_nil_of_le
    rw [resize_length]
  simp only [List.drop_length, List.append_nil, hd1, List.drop_replicate, Nat.sub_self,
    List.replicate_zero] at hloop
  unfold LargeProver.Prove
  simp only [hloop]
  have h0 : ((List.range self.provers_.length).map (fun i => (f i).2.1))[0]?
      = some (f 0).2.1 := getElem?_map_range _ _ 0 hpos
  simp only [details.MergeOutputs, h0, foldl_add_eq_sum, foldl_add_eq_sum_id, zero_add,
    List.map_map, Function.comp_def, cassert]
  by_cases h1 : groth09.details.ComputeCommitment pds
      ((List.range self.provers_.length).map (fun i => (f i).2.2)).sum
      self.secret_input_.vw_com_r
      = ((List.range self.provers_.length).map (fun i => (f i).1.com_vw)).sum
  · by_cases h2 : self.secret_input_.key_com_r • (f 0).2.1.h
        + self.secret_input_.key •
          ((List.range self.provers_.length).map (fun i => (f i).2.1.g)).sum
        = ((List.range self.provers_.length).map (fun i => (f i).2.1.key_com)).sum
    · cases dbg <;> simp [h1, h2]
    · cases dbg <;> simp [h1, h2]
  · cases dbg <;> simp [h1]

end vrs

namespace vrs

theorem traverse_inv {α β : Type} (f : α → Except Fault β) :
    ∀ (l : List α) (bs : List β), traverse f l = Except.ok bs →
      bs.length = l.length ∧
      ∀ (i : Nat) (a : α), l[i]? = some a → ∃ b, bs[i]? = some b ∧ f a = Except.ok b := by
  intro l
  induction l with
  | nil =>
    intro bs h
    simp only [traverse, Except.ok.injEq] at h
    rw [← h]
    exact ⟨rfl, fun i a hi => by simp at hi⟩
  | cons x rest ih =>
    intro bs h
    simp only [traverse] at h
    cases hfx : f x with
    | error e =>
      rw [hfx] at h
      exact Except.noConfusion h
    | ok b =>
      rw [hfx] at h
      cases hrest : traverse f rest with
      | error e =>
        rw [hrest] at h
        exact Except.noConfusion h
      | ok bs2 =>
        rw [hrest] at h
        simp only [Except.ok.injEq] at h
        rw [← h]
        obtain ⟨h1, h2⟩ := ih bs2 hrest
        refine ⟨by simp [h1], ?_⟩
        intro i a hi
        cases i with
        | zero =>
          simp only [List.getElem?_cons_zero, Option.some.injEq] at hi
          rw [← hi]
          exact ⟨b, by simp, hfx⟩
        | succ j =>
          simp only [List.getElem?_cons_succ] at hi ⊢
          exact h2 j a hi

/-- What a returned constructor call has built. -/
theorem new_inv {F G : Type} [Field F] (dbg : Bool) (k : Nat) (SplitFr : SplitFrFn F)
    (rv rk : Nat → F) (public_input : PublicInput G) (secret_input : SecretInput F)
    (coms : List (List G)) (coms_r : List (List F)) (lp : LargeProver F G)
    (h : LargeProver.new dbg k SplitFr rv rk public_input secret_input coms coms_r
      = Except.ok lp) :
    lp.public_input_ = public_input ∧ lp.secret_input_ = secret_input ∧
    lp.items_ = SplitLargeTask k public_input.count ∧ lp.v_ = [] ∧
    ∃ sis, LargeProver.BuildSecretInputs dbg SplitFr rv rk secret_input
        (SplitLargeTask k public_input.count) coms_r = Except.ok sis ∧
      lp.provers_.length = (SplitLargeTask k public_input.count).length ∧
      ∀ i, i < (SplitLargeTask k public_input.count).length →
        ∃ p s, lp.provers_[i]? = some (some p) ∧ sis[i]? = some s ∧ p.secret_input = s ∧
          p.public_input =
            { count := min ((i + 1) * k) public_input.count - i * k
              get_p := fun j => public_input.get_p (i * k + j) } := by
  unfold LargeProver.new at h
  split at h
  · exact Except.noConfusion h
  · simp only at h
    split at h
    · exact Except.noConfusion h
    · next sis hbsi =>
      split at h
      · exact Except.noConfusion h
      · split at h
        · exact Except.noConfusion h
        · next provers htr =>
          have hlp := Except.ok.inj h
          subst hlp
          refine ⟨rfl, rfl, rfl, rfl, sis, hbsi, ?_, ?_⟩
          · have := (traverse_inv _ _ _ htr).1
            simpa using this
          · intro i hi
            obtain ⟨b, hb1, hb2⟩ := (traverse_inv _ _ _ htr).2 i i (List.getElem?_range hi)
            rw [SplitLargeTask_getElem? k _ i hi] at hb2
            split at hb2
            · next item si c cr hitem hsi _ _ =>
              have hb3 := Except.ok.inj hb2
              cases hitem
              rw [← hb3] at hb1
              exact ⟨_, si, hb1, hsi, rfl, rfl⟩
            · exact Except.noConfusion hb2

theorem sum_map_smul_add {ι F G : Type} [Field F] [AddCommGroup G] [Module F G]
    (a b : ι → F) (u h : G) :
    ∀ l : List ι, (l.map (fun i => a i • u + b i • h)).sum
      = (l.map a).sum • u + (l.map b).sum • h := by
  intro l
  induction l with
  | nil => simp
  | cons x xs ih =>
    simp only [List.map_cons, List.sum_cons, ih, add_smul]
    abel

theorem sum_map_smul_add_right {ι F G : Type} [Field F] [AddCommGroup G] [Module F G]
    (a : ι → F) (key : F) (g : ι → G) (h : G) :
    ∀ l : List ι, (l.map (fun i => a i • h + key • g i)).sum
      = (l.map a).sum • h + key • (l.map g).sum := by
  intro l
  induction l with
  | nil => simp
  | cons x xs ih =>
    simp only [List.map_cons, List.sum_cons, ih, add_smul, smul_add]
    abel

theorem map_range_congr {α : Type} (f g : Nat → α) (n : Nat) (h : ∀ i, i < n → f i = g i) :
    (List.range n).map f = (List.range n).map g := by
  apply List.map_congr_left
  intro i hi
  exact h i (List.mem_range.mp hi)

/-- The shard calls of `Prove` on a constructed prover, and the secret input
each of them runs with. -/
theorem proveCall_new {F G R : Type} [Field F] (sp : ShardProver F G R) (dbg : Bool) (k : Nat)
    (SplitFr : SplitFrFn F) (rv rk : Nat → F) (public_input : PublicInput G)
    (secret_input : SecretInput F) (coms : List (List G)) (coms_r : List (List F))
    (lp : LargeProver F G)
    (hnew : LargeProver.new dbg k SplitFr rv rk public_input secret_input coms coms_r
      = Except.ok lp)
    (rom_seed : h256_t) (get_w : Nat → F) :
    ∃ sis, LargeProver.BuildSecretInputs dbg SplitFr rv rk secret_input
        (SplitLargeTask k public_input.count) coms_r = Except.ok sis ∧
      lp.provers_.length = (SplitLargeTask k public_input.count).length ∧
      ∀ i, i < lp.provers_.length →
        ∃ p s, sis[i]? = some s ∧ p.secret_input = s ∧
          proveCall sp lp.items_ lp.provers_ rom_seed get_w i
            = some (sp.Prove p rom_seed (fun j => get_w (j + i * k))) := by
  obtain ⟨_, _, hitems, _, sis, hbsi, hlen, hall⟩ := new_inv dbg k SplitFr rv rk public_input
    secret_input coms coms_r lp hnew
  refine ⟨sis, hbsi, hlen, ?_⟩
  intro i hi
  rw [hlen] at hi
  obtain ⟨p, s, hp, hs, hps, _⟩ := hall i hi
  refine ⟨p, s, hs, hps, ?_⟩
  unfold proveCall
  rw [hitems, SplitLargeTask_getElem? k _ i hi, hp]

end vrs

namespace vrs

theorem getD_map_of_getElem? {α β : Type} (l : List α) (g : α → β) (d : β) (i : Nat) (a : α)
    (h : l[i]? = some a) : (l.map g).getD i d = g a := by
  simp [List.getD_eq_getElem?_getD, h]

/-- The merged result of `Prove` on a constructed prover with at least one
shard, in a build without assertions, in terms of the shard results `f i`. -/
theorem Prove_new_run {F G R : Type} [Field F] [AddCommGroup G] [Module F G] [DecidableEq G]
    (pds : PdsPub G) (sp : ShardProver F G R) (dbg : Bool) (k : Nat)
    (SplitFr : SplitFrFn F) (rv rk : Nat → F) (public_input : PublicInput G)
    (secret_input : SecretInput F) (coms : List (List G)) (coms_r : List (List F))
    (lp : LargeProver F G) (rom_seed : h256_t) (get_w : Nat → F) (dproof : Proof G R)
    (proofs : List (Proof G R)) (output : ProveOutput G)
    (hnew : LargeProver.new dbg k SplitFr rv rk public_input secret_input coms coms_r
      = Except.ok lp)
    (hn : 1 ≤ (SplitLargeTask k public_input.count).length) :
    ∃ (sis : List (SecretInput F)) (f : Nat → Proof G R × ProveOutput G × F),
      LargeProver.BuildSecretInputs dbg SplitFr rv rk secret_input
        (SplitLargeTask k public_input.count) coms_r = Except.ok sis ∧
      (∀ i, i < (SplitLargeTask k public_input.count).length →
        ∃ p s, sis[i]? = some s ∧ p.secret_input = s ∧
          f i = sp.Prove p rom_seed (fun j => get_w (j + i * k))) ∧
      LargeProver.Prove pds sp false lp rom_seed get_w dproof proofs output =
        Except.ok
          { self := { lp with
              provers_ := List.replicate (SplitLargeTask k public_input.count).length none
              vw_ := ((List.range (SplitLargeTask k public_input.count).length).map
                (fun i => (f i).2.2)).sum }
            proofs := (List.range (SplitLargeTask k public_input.count).length).map
              (fun i => (f i).1)
            output := { output with
              h := (f 0).2.1.h
              g := ((List.range (SplitLargeTask k public_input.count).length).map
                (fun i => (f i).2.1.g)).sum
              key_com := ((List.range (SplitLargeTask k public_input.count).length).map
                (fun i => (f i).2.1.key_com)).sum } } := by
  obtain ⟨sis, hbsi, hlen, hall⟩ := proveCall_new sp dbg k SplitFr rv rk public_input
    secret_input coms coms_r lp hnew rom_seed get_w
  refine ⟨sis, fun i => (proveCall sp lp.items_ lp.provers_ rom_seed get_w i).getD
    (dproof, Output.init, 0), hbsi, ?_, ?_⟩
  · intro i hi
    obtain ⟨p, s, hs, hps, hcall⟩ := hall i (by rw [hlen]; exact hi)
    refine ⟨p, s, hs, hps, ?_⟩
    simp only [hcall, Option.getD_some]
  · have hrun := Prove_run pds sp false lp rom_seed get_w dproof proofs output
      (by rw [hlen]; exact hn)
      (fun i => (proveCall sp lp.items_ lp.provers_ rom_seed get_w i).getD
        (dproof, Output.init, 0))
      (by
        intro i hi
        obtain ⟨p, s, _, _, hcall⟩ := hall i hi
        simp only [hcall, Option.getD_some])
    rw [if_neg (fun h => Bool.noConfusion h.1)] at hrun
    rw [hlen] at hrun
    exact hrun

/-- C17. Aggregate `vw` commitment consistency in `Prove`: when `SplitFr`
returns `n` shares that sum to the secret and every shard proof satisfies
`com_vw = Commit(vw, vw_com_r)` for the shard's `vw()` and its share
`vw_com_r`, then for every constructed prover with at least one shard `Prove`
returns, and the direct commitment `Commit(vw(), secret_input.vw_com_r)`
equals the sum of `proofs[i].com_vw`. -/
theorem Prove_vw_commitment {F G R : Type} [Field F] [AddCommGroup G] [Module F G]
    [DecidableEq G] (pds : PdsPub G) (sp : ShardProver F G R) (dbg : Bool) (k : Nat)
    (SplitFr : SplitFrFn F) (rv rk : Nat → F) (public_input : PublicInput G)
    (secret_input : SecretInput F) (coms : List (List G)) (coms_r : List (List F))
    (lp : LargeProver F G) (rom_seed : h256_t) (get_w : Nat → F) (dproof : Proof G R)
    (proofs : List (Proof G R)) (output : ProveOutput G)
    (hsplit : ∀ (src : Nat → F) (s : F) (n : Nat), 1 ≤ n →
      (SplitFr src s n).length = n ∧ (SplitFr src s n).sum = s)
    (hnew : LargeProver.new dbg k SplitFr rv rk public_input secret_input coms coms_r
      = Except.ok lp)
    (hn : 1 ≤ (SplitLargeTask k public_input.count).length)
    (hsp : ∀ (p : Prover F G) (seed : h256_t) (w : Nat → F),
      (sp.Prove p seed w).1.com_vw
        = groth09.details.ComputeCommitment pds (sp.Prove p seed w).2.2
            p.secret_input.vw_com_r) :
    ∃ r, LargeProver.Prove pds sp false lp rom_seed get_w dproof proofs output = Except.ok r ∧
      r.proofs.length = (SplitLargeTask k public_input.count).length ∧
      groth09.details.ComputeCommitment pds r.self.vw secret_input.vw_com_r
        = (r.proofs.map (fun p => p.com_vw)).sum := by
  obtain ⟨sis, f, hbsi, hf, hrun⟩ := Prove_new_run pds sp dbg k SplitFr rv rk public_input
    secret_input coms coms_r lp rom_seed get_w dproof proofs output hnew hn
  have hv := hsplit rv secret_input.vw_com_r _ hn
  have hprops := BuildSecretInputs_props dbg SplitFr rv rk secret_input
    (SplitLargeTask k public_input.count) coms_r sis hv.1 hbsi
  refine ⟨_, hrun, by simp, ?_⟩
  simp only [LargeProver.vw, List.map_map, Function.comp_def]
  have hcongr := map_range_congr (fun i => (f i).1.com_vw)
    (fun i => (f i).2.2 • pds.u
      + (SplitFr rv secret_input.vw_com_r (SplitLargeTask k public_input.count).length).getD i 0
        • pds.h)
    (SplitLargeTask k public_input.count).length
    (by
      intro i hi
      obtain ⟨p, s, hs, hps, hfi⟩ := hf i hi
      have hshare := getD_map_of_getElem? sis (fun s => s.vw_com_r) 0 i s hs
      rw [hprops.2] at hshare
      simp only [hfi, hsp, groth09.details.ComputeCommitment, hps, hshare])
  rw [hcongr, sum_map_smul_add, map_range_getD _ 0 _ hv.1, hv.2]
  rfl

/-- C18 (amended). Aggregate key commitment consistency in `Prove`: when all
shard outputs share the same `h` and each satisfies
`key_com = h * key_com_r + g * key` for its shard's `SecretInput`, and either
no cache is supplied or the cache has one row per shard, each of length at
least 2, whose slot-1 values sum to `secret_input.key_com_r`, then `Prove`
returns and the merged output satisfies
`output.key_com == output.h * secret_input.key_com_r + output.g * secret_input.key`. -/
theorem Prove_key_commitment {F G R : Type} [Field F] [AddCommGroup G] [Module F G]
    [DecidableEq G] (pds : PdsPub G) (sp : ShardProver F G R) (dbg : Bool) (k : Nat)
    (SplitFr : SplitFrFn F) (rv rk : Nat → F) (public_input : PublicInput G)
    (secret_input : SecretInput F) (coms : List (List G)) (coms_r : List (List F))
    (lp : LargeProver F G) (rom_seed : h256_t) (get_w : Nat → F) (dproof : Proof G R)
    (proofs : List (Proof G R)) (output : ProveOutput G) (h0 : G)
    (hsplit : ∀ (src : Nat → F) (s : F) (n : Nat), 1 ≤ n →
      (SplitFr src s n).length = n ∧ (SplitFr src s n).sum = s)
    (hnew : LargeProver.new dbg k SplitFr rv rk public_input secret_input coms coms_r
      = Except.ok lp)
    (hn : 1 ≤ (SplitLargeTask k public_input.count).length)
    (hcache : coms_r = [] ∨
      (coms_r.length = (SplitLargeTask k public_input.count).length ∧
       (∀ row, row ∈ coms_r → 2 ≤ row.length) ∧
       (coms_r.map (fun row => row.getD 1 0)).sum = secret_input.key_com_r))
    (hsp : ∀ (p : Prover F G) (seed : h256_t) (w : Nat → F),
      (sp.Prove p seed w).2.1.h = h0 ∧
      (sp.Prove p seed w).2.1.key_com
        = p.secret_input.key_com_r • h0 + p.secret_input.key • (sp.Prove p seed w).2.1.g) :
    ∃ r, LargeProver.Prove pds sp false lp rom_seed get_w dproof proofs output = Except.ok r ∧
      r.output.key_com
        = secret_input.key_com_r • r.output.h + secret_input.key • r.output.g := by
  obtain ⟨sis, f, hbsi, hf, hrun⟩ := Prove_new_run pds sp dbg k SplitFr rv rk public_input
    secret_input coms coms_r lp rom_seed get_w dproof proofs output hnew hn
  have hv := hsplit rv secret_input.vw_com_r _ hn
  have hkc := hsplit rk secret_input.key_com_r _ hn
  have hprops := BuildSecretInputs_props dbg SplitFr rv rk secret_input
    (SplitLargeTask k public_input.count) coms_r sis hv.1 hbsi
  have hsislen : sis.length = (SplitLargeTask k public_input.count).length := by
    have := congrArg List.length hprops.1
    simpa using this
  have hsum : (sis.map (fun s => s.key_com_r)).sum = secret_input.key_com_r := by
    rcases hcache with hc | ⟨hc1, hc2, hc3⟩
    · subst hc
      have hex := BuildSecretInputs_nocache dbg SplitFr rv rk secret_input
        (SplitLargeTask k public_input.count) hv.1 hkc.1
      rw [hbsi] at hex
      rw [Except.ok.inj hex, List.map_map]
      have : ((fun s : SecretInput F => s.key_com_r) ∘ fun i =>
          ({ key := secret_input.key,
             vw_com_r := (SplitFr rv secret_input.vw_com_r
               (SplitLargeTask k public_input.count).length).getD i 0,
             key_com_r := (SplitFr rk secret_input.key_com_r
               (SplitLargeTask k public_input.count).length).getD i 0 } : SecretInput F))
          = fun i => (SplitFr rk secret_input.key_com_r
              (SplitLargeTask k public_input.count).length).getD i 0 := rfl
      rw [this, map_range_getD _ 0 _ hkc.1]
      exact hkc.2
    · have hne : coms_r ≠ [] := by
        intro h
        rw [h] at hc1
        rw [← hc1] at hn
        exact absurd hn (by simp)
      have hex := BuildSecretInputs_cache dbg SplitFr rv rk secret_input
        (SplitLargeTask k public_input.count) coms_r hv.1 hne hc1 hc2
      rw [hbsi] at hex
      rw [Except.ok.inj hex, List.map_map, ← hc3]
      have : ((fun s : SecretInput F => s.key_com_r) ∘ fun i =>
          ({ key := secret_input.key,
             vw_com_r := (SplitFr rv secret_input.vw_com_r
               (SplitLargeTask k public_input.count).length).getD i 0,
             key_com_r := (coms_r.getD i []).getD 1 0 } : SecretInput F))
          = (fun row : List F => row.getD 1 0) ∘ (fun i => coms_r.getD i []) := rfl
      rw [this, ← List.map_map, map_range_getD _ [] _ hc1]
  refine ⟨_, hrun, ?_⟩
  simp only
  have hh0 : (f 0).2.1.h = h0 := by
    obtain ⟨p, s, _, _, hfi⟩ := hf 0 hn
    rw [hfi]
    exact (hsp _ _ _).1
  have hcongr := map_range_congr (fun i => (f i).2.1.key_com)
    (fun i => (sis.map (fun s => s.key_com_r)).getD i 0 • h0
      + secret_input.key • (f i).2.1.g)
    (SplitLargeTask k public_input.count).length
    (by
      intro i hi
      obtain ⟨p, s, hs, hps, hfi⟩ := hf i hi
      have hkr := getD_map_of_getElem? sis (fun s => s.key_com_r) 0 i s hs
      have hkey : s.key = secret_input.key := by
        have hmem : s.key ∈ sis.map (fun s => s.key) :=
          List.mem_map_of_mem _ (List.mem_iff_getElem?.mpr ⟨i, hs⟩)
        rw [hprops.1] at hmem
        exact List.eq_of_mem_replicate hmem
      simp only [hfi, (hsp _ _ _).2, hps, hkr, hkey])
  rw [hcongr, sum_map_smul_add_right, map_range_getD _ 0 _ (by simp [hsislen]), hsum, hh0]

end vrs

/-- Every proof of the toy shard prover commits to its `vw()` under its share
`vw_com_r`. -/
theorem toyShardProver_com_vw (p : vrs.Prover (ZMod 101) (ZMod 101)) (seed : h256_t)
    (w : Nat → ZMod 101) :
    (toyShardProver.Prove p seed w).1.com_vw
      = groth09.details.ComputeCommitment toyPds (toyShardProver.Prove p seed w).2.2
          p.secret_input.vw_com_r := rfl

/-- Every output of the toy shard prover has `h = toyPds.h` and satisfies
`key_com = h * key_com_r + g * key`. -/
theorem toyShardProver_key_com (p : vrs.Prover (ZMod 101) (ZMod 101)) (seed : h256_t)
    (w : Nat → ZMod 101) :
    (toyShardProver.Prove p seed w).2.1.h = toyPds.h ∧
    (toyShardProver.Prove p seed w).2.1.key_com
      = p.secret_input.key_com_r • toyPds.h
        + p.secret_input.key • (toyShardProver.Prove p seed w).2.1.g := ⟨rfl, rfl⟩

/-- Witness for C17: two shards, no cache. -/
theorem Prove_vw_commitment_witness :
    ∃ lp r, vrs.LargeProver.new true 2 toySplitFr toyRandV toyRandK toyPublicInput
        toySecretInput ([] : List (List (ZMod 101))) [] = Except.ok lp ∧
      vrs.LargeProver.Prove toyPds toyShardProver false lp toySeed toyGetW toyDefaultProof []
        toyOutput = Except.ok r ∧
      groth09.details.ComputeCommitment toyPds r.self.vw toySecretInput.vw_com_r
        = (r.proofs.map (fun p => p.com_vw)).sum := by
  have hex : ∃ lp, vrs.LargeProver.new true 2 toySplitFr toyRandV toyRandK toyPublicInput
      toySecretInput ([] : List (List (ZMod 101))) [] = Except.ok lp := ⟨_, rfl⟩
  obtain ⟨lp, hlp⟩ := hex
  obtain ⟨r, h1, _, h3⟩ := vrs.Prove_vw_commitment toyPds toyShardProver true 2 toySplitFr
    toyRandV toyRandK toyPublicInput toySecretInput [] [] lp toySeed toyGetW toyDefaultProof []
    toyOutput toySplitFr_spec hlp (by decide) toyShardProver_com_vw
  exact ⟨lp, r, hlp, h1, h3⟩

/-- Counterexample for C18 as stated: a cache with one row per shard whose
slot-1 values `6` and `8` do not sum to `secret_input.key_com_r = 40`.  Every
shard output has the same `h` and satisfies `key_com = h * key_com_r + g * key`
for its shard, yet the merged output does not satisfy the relation with
`secret_input.key_com_r`; with assertions `Prove` stops at
`assert(com_key == output.key_com)`. -/
theorem Prove_key_commitment_bad_cache :
    ∃ lp r, vrs.LargeProver.new false 2 toySplitFr toyRandV toyRandK toyPublicInput
        toySecretInput toyCacheComs toyCacheComsRBad = Except.ok lp ∧
      vrs.LargeProver.Prove toyPds toyShardProver false lp toySeed toyGetW toyDefaultProof []
        toyOutput = Except.ok r ∧
      r.output.key_com
        ≠ toySecretInput.key_com_r • r.output.h + toySecretInput.key • r.output.g ∧
      vrs.LargeProver.Prove toyPds toyShardProver true lp toySeed toyGetW toyDefaultProof []
        toyOutput = Except.error Fault.assertFailed ∧
      (∀ (p : vrs.Prover (ZMod 101) (ZMod 101)) (seed : h256_t) (w : Nat → ZMod 101),
        (toyShardProver.Prove p seed w).2.1.h = toyPds.h ∧
        (toyShardProver.Prove p seed w).2.1.key_com
          = p.secret_input.key_com_r • toyPds.h
            + p.secret_input.key • (toyShardProver.Prove p seed w).2.1.g) :=
  ⟨_, _, rfl, rfl, by decide, rfl, toyShardProver_key_com⟩

/-- Witness for C18 (amended): two shards with a cache whose slot-1 values
`6 + 34` sum to `key_com_r = 40`. -/
theorem Prove_key_commitment_witness :
    ∃ lp r, vrs.LargeProver.new true 2 toySplitFr toyRandV toyRandK toyPublicInput
        toySecretInput toyCacheComs toyCacheComsR = Except.ok lp ∧
      vrs.LargeProver.Prove toyPds toyShardProver false lp toySeed toyGetW toyDefaultProof []
        toyOutput = Except.ok r ∧
      r.output.key_com
        = toySecretInput.key_com_r • r.output.h + toySecretInput.key • r.output.g := by
  have hex : ∃ lp, vrs.LargeProver.new true 2 toySplitFr toyRandV toyRandK toyPublicInput
      toySecretInput toyCacheComs toyCacheComsR = Except.ok lp := ⟨_, rfl⟩
  obtain ⟨lp, hlp⟩ := hex
  obtain ⟨r, h1, h2⟩ := vrs.Prove_key_commitment toyPds toyShardProver true 2 toySplitFr
    toyRandV toyRandK toyPublicInput toySecretInput toyCacheComs toyCacheComsR lp toySeed
    toyGetW toyDefaultProof [] toyOutput toyPds.h toySplitFr_spec hlp (by decide)
    (Or.inr ⟨by decide, by decide, by decide⟩) toyShardProver_key_com
  exact ⟨lp, r, hlp, h1, h2⟩

/-! ## The large-scale prover: `Evaluate` -/

namespace vrs

/-- The length of the first `m` shard blocks, when block `i` has the length
of the range `[i*k, min((i+1)*k, count))`. -/
theorem blocks_length {α : Type} (B : Nat → List α) (k count : Nat) (hk : 0 < k)
    (hlen : ∀ i, i < (count + k - 1) / k → (B i).length = min ((i + 1) * k) count - i * k) :
    ∀ m, m ≤ (count + k - 1) / k →
      ((List.range m).map B).flatten.length = min (m * k) count := by
  intro m
  induction m with
  | zero => intro _; simp
  | succ m ih =>
    intro hm
    have hlt : m < (count + k - 1) / k := hm
    have h1 := (lt_shards_iff k count m hk).mp hlt
    rw [List.range_succ, List.map_append, List.flatten_append, List.length_append,
      ih (Nat.le_of_lt hlt)]
    simp only [List.map_cons, List.map_nil, List.flatten_cons, List.flatten_nil,
      List.append_nil, hlen m hlt, Nat.add_mul, Nat.one_mul]
    omega

/-- The shard loop of `Evaluate`: after `m` iterations the first `m` blocks
are in place and the rest of `v_` is untouched. -/
theorem forLoop_evaluate {α : Type} (body : List α → Nat → Except Fault (List α))
    (B : Nat → List α) (v0 : List α) (k count : Nat) (hk : 0 < k)
    (hv0 : v0.length = count)
    (hbody : ∀ v i, i < (count + k - 1) / k → body v i = copyAt v (i * k) (B i))
    (hlen : ∀ i, i < (count + k - 1) / k → (B i).length = min ((i + 1) * k) count - i * k) :
    ∀ m, m ≤ (count + k - 1) / k →
      forLoop body m v0
        = Except.ok (((List.range m).map B).flatten ++ v0.drop (min (m * k) count)) := by
  intro m
  induction m with
  | zero => intro _; simp [forLoop]
  | succ m ih =>
    intro hm
    have hlt : m < (count + k - 1) / k := hm
    have h1 := (lt_shards_iff k count m hk).mp hlt
    have hpre := blocks_length B k count hk hlen m (Nat.le_of_lt hlt)
    have hmin : min (m * k) count = m * k := by omega
    rw [hmin] at hpre
    have hb := hlen m hlt
    rw [Nat.add_mul, Nat.one_mul] at hb
    rw [forLoop, ih (Nat.le_of_lt hlt), hmin]
    simp only [hbody _ m hlt, copyAt]
    have hfit : m * k + (B m).length
        ≤ (((List.range m).map B).flatten ++ v0.drop (m * k)).length := by
      rw [List.length_append, hpre, List.length_drop, hv0]
      omega
    rw [if_pos hfit, List.take_left' hpre, ← List.drop_drop, List.drop_left' hpre,
      List.drop_drop, List.range_succ, List.map_append, List.flatten_append]
    simp only [List.map_cons, List.map_nil, List.flatten_cons, List.flatten_nil,
      List.append_nil]
    have hidx : m * k + (B m).length = min ((m + 1) * k) count := by
      rw [Nat.add_mul, Nat.one_mul]
      omega
    rw [hidx]

/-- Reading block `i` inside the concatenation, when all earlier blocks have
length `k`. -/
theorem flatten_getElem? {α : Type} (k : Nat) :
    ∀ (L : List (List α)) (i : Nat) (b : List α) (j : Nat),
      (∀ (t : Nat) (c : List α), t < i → L[t]? = some c → c.length = k) →
      L[i]? = some b → j < b.length → L.flatten[i * k + j]? = b[j]? := by
  intro L
  induction L with
  | nil =>
    intro i b j _ hb _
    simp at hb
  | cons c0 rest ih =>
    intro i b j hfull hb hj
    cases i with
    | zero =>
      simp only [List.getElem?_cons_zero, Option.some.injEq] at hb
      subst hb
      simp only [Nat.zero_mul, Nat.zero_add, List.flatten_cons]
      exact List.getElem?_append_left hj
    | succ i2 =>
      have h0 : c0.length = k := hfull 0 c0 (Nat.succ_pos _) (by simp)
      simp only [List.getElem?_cons_succ] at hb
      have hrest := ih i2 b j
        (fun t c ht hc => hfull (t + 1) c (Nat.succ_lt_succ ht) (by simpa using hc)) hb hj
      rw [List.flatten_cons, List.getElem?_append_right (by rw [h0, Nat.add_mul]; omega)]
      have hidx : (i2 + 1) * k + j - c0.length = i2 * k + j := by
        rw [h0, Nat.add_mul]
        omega
      rw [hidx]
      exact hrest

end vrs

namespace vrs

/-- C19. `LargeProver::Evaluate` concatenation: on a constructed prover whose
shard `i` covers `[i*k, min((i+1)*k, count))` and whose shard `Evaluate`
produces a vector of exactly its range's length, `Evaluate` returns, `v()`
has length `count`, `v()[i*k + j]` is shard `i`'s `v[j]` for every shard `i`
and in-range `j`, `v()` is the concatenation of the shard vectors in shard
order, and the index sets written by different shards are disjoint. -/
theorem Evaluate_concat {F G R : Type} [Field F] (sp : ShardProver F G R) (dbg : Bool)
    (k : Nat) (hk : 0 < k) (SplitFr : SplitFrFn F) (rv rk : Nat → F)
    (public_input : PublicInput G) (secret_input : SecretInput F) (coms : List (List G))
    (coms_r : List (List F)) (lp : LargeProver F G)
    (hnew : LargeProver.new dbg k SplitFr rv rk public_input secret_input coms coms_r
      = Except.ok lp)
    (hsp : ∀ p : Prover F G, (sp.Evaluate p).length = p.public_input.count) :
    ∃ (lp2 : LargeProver F G) (vs : List (List F)),
      LargeProver.Evaluate sp k lp = Except.ok lp2 ∧
      vs.length = (public_input.count + k - 1) / k ∧
      (∀ i, i < (public_input.count + k - 1) / k →
        ∃ p, lp.provers_[i]? = some (some p) ∧ vs[i]? = some (sp.Evaluate p) ∧
          (sp.Evaluate p).length = min ((i + 1) * k) public_input.count - i * k) ∧
      lp2.v.length = public_input.count ∧
      lp2.v = vs.flatten ∧
      (∀ (i : Nat) (b : List F) (j : Nat), vs[i]? = some b → j < b.length →
        lp2.v[i * k + j]? = b[j]?) ∧
      (∀ (i1 i2 : Nat) (b1 b2 : List F) (j1 j2 : Nat), vs[i1]? = some b1 →
        vs[i2]? = some b2 → j1 < b1.length → j2 < b2.length → i1 ≠ i2 →
        i1 * k + j1 ≠ i2 * k + j2) := by
  obtain ⟨hpi, _, _, hv, sis, _, hplen, hall⟩ := new_inv dbg k SplitFr rv rk public_input
    secret_input coms coms_r lp hnew
  rw [SplitLargeTask_length] at hplen hall
  have hB : ∀ i, i < (public_input.count + k - 1) / k →
      ∃ p, lp.provers_[i]? = some (some p) ∧
        (match lp.provers_[i]? with
          | some (some prover) => sp.Evaluate prover
          | _ => []) = sp.Evaluate p ∧
        (sp.Evaluate p).length = min ((i + 1) * k) public_input.count - i * k := by
    intro i hi
    obtain ⟨p, s, hp, _, _, hpub⟩ := hall i hi
    refine ⟨p, hp, ?_, ?_⟩
    · rw [hp]
    · rw [hsp p, hpub]
  have hlenB : ∀ i, i < (public_input.count + k - 1) / k →
      (match lp.provers_[i]? with
        | some (some prover) => sp.Evaluate prover
        | _ => []).length = min ((i + 1) * k) public_input.count - i * k := by
    intro i hi
    obtain ⟨p, _, h2, h3⟩ := hB i hi
    rw [h2, h3]
  have hloop := forLoop_evaluate
    (fun (v_ : List F) i =>
      match lp.provers_[i]? with
      | some (some prover) => copyAt v_ (i * k) (sp.Evaluate prover)
      | _ => Except.error Fault.invalidAccess)
    (fun i =>
      match lp.provers_[i]? with
      | some (some prover) => sp.Evaluate prover
      | _ => [])
    (resize lp.v_ lp.public_input_.count 0) k public_input.count hk
    (by rw [resize_length, hpi])
    (by
      intro v i hi
      obtain ⟨p, hp, _, _⟩ := hB i hi
      simp only [hp])
    hlenB ((public_input.count + k - 1) / k) (Nat.le_refl _)
  have hcover : public_input.count ≤ (public_input.count + k - 1) / k * k := by
    by_contra hc
    have h1 := (lt_shards_iff k public_input.count _ hk).mpr (Nat.lt_of_not_le hc)
    exact Nat.lt_irrefl _ h1
  have hmin : min ((public_input.count + k - 1) / k * k) public_input.count
      = public_input.count := by omega
  have hdrop : (resize lp.v_ lp.public_input_.count 0).drop public_input.count = [] := by
    apply List.drop_eq_nil_of_le
    rw [resize_length, hpi]
  rw [hmin, hdrop, List.append_nil] at hloop
  have hflen := blocks_length
    (fun i =>
      match lp.provers_[i]? with
      | some (some prover) => sp.Evaluate prover
      | _ => [])
    k public_input.count hk hlenB _ (Nat.le_refl _)
  rw [hmin] at hflen
  have hvs : ∀ (i : Nat) (b : List F),
      ((List.range ((public_input.count + k - 1) / k)).map (fun i =>
        match lp.provers_[i]? with
        | some (some prover) => sp.Evaluate prover
        | _ => []))[i]? = some b →
      i < (public_input.count + k - 1) / k ∧
        b.length = min ((i + 1) * k) public_input.count - i * k := by
    intro i b hb
    have hi : i < (public_input.count + k - 1) / k := by
      have := (List.getElem?_eq_some.mp hb).1
      simpa using this
    rw [getElem?_map_range _ _ i hi] at hb
    rw [← Option.some.inj hb]
    exact ⟨hi, hlenB i hi⟩
  refine ⟨{ lp with v_ := _ }, _, ?_, ?_, ?_, hflen, rfl, ?_, ?_⟩
  · unfold LargeProver.Evaluate
    rw [hplen]
    simp only [hloop]
  · simp
  · intro i hi
    obtain ⟨p, h1, h2, h3⟩ := hB i hi
    refine ⟨p, h1, ?_, h3⟩
    rw [getElem?_map_range _ _ i hi, h2]
  · intro i b j hb hj
    refine flatten_getElem? k _ i b j ?_ hb hj
    intro t c ht hc
    obtain ⟨hi, _⟩ := hvs i b hb
    obtain ⟨_, hclen⟩ := hvs t c hc
    have h1 := (lt_shards_iff k public_input.count (t + 1) hk).mp (by omega)
    rw [Nat.add_mul, Nat.one_mul] at h1 hclen
    omega
  · intro i1 i2 b1 b2 j1 j2 hb1 hb2 hj1 hj2 hne heq
    obtain ⟨_, hl1⟩ := hvs i1 b1 hb1
    obtain ⟨_, hl2⟩ := hvs i2 b2 hb2
    rw [Nat.add_mul, Nat.one_mul] at hl1 hl2
    rcases Nat.lt_or_gt_of_ne hne with h | h
    · have := Nat.mul_le_mul_right k (Nat.succ_le_of_lt h)
      rw [Nat.succ_mul] at this
      omega
    · have := Nat.mul_le_mul_right k (Nat.succ_le_of_lt h)
      rw [Nat.succ_mul] at this
      omega

end vrs

/-- The toy shard prover evaluates to a vector of its range's length. -/
theorem toyShardProver_Evaluate_length (p : vrs.Prover (ZMod 101) (ZMod 101)) :
    (toyShardProver.Evaluate p).length = p.public_input.count := by
  simp [toyShardProver]

/-- Witness for C19: `count = 3`, `kMaxUnitPerZkp = 2`; the shards give
`[4, 8]` and `[12]`, and `v()` is `[4, 8, 12]`. -/
theorem Evaluate_concat_witness :
    ∃ lp lp2, vrs.LargeProver.new true 2 toySplitFr toyRandV toyRandK toyPublicInput
        toySecretInput ([] : List (List (ZMod 101))) [] = Except.ok lp ∧
      vrs.LargeProver.Evaluate toyShardProver 2 lp = Except.ok lp2 ∧
      lp2.v.length = toyPublicInput.count ∧ lp2.v = [4, 8, 12] := by
  have hex : ∃ lp lp2, vrs.LargeProver.new true 2 toySplitFr toyRandV toyRandK toyPublicInput
      toySecretInput ([] : List (List (ZMod 101))) [] = Except.ok lp ∧
      vrs.LargeProver.Evaluate toyShardProver 2 lp = Except.ok lp2 ∧ lp2.v = [4, 8, 12] :=
    ⟨_, _, rfl, rfl, by decide⟩
  obtain ⟨lp, lp2, h1, h2, h3⟩ := hex
  obtain ⟨lp3, vs, h4, _, _, h5, _⟩ := vrs.Evaluate_concat toyShardProver true 2 (by decide)
    toySplitFr toyRandV toyRandK toyPublicInput toySecretInput [] [] lp h1
    toyShardProver_Evaluate_length
  rw [h2] at h4
  have h6 := Except.ok.inj h4
  rw [← h6] at h5
  exact ⟨lp, lp2, h1, h2, h5, h3⟩

/-! ## Shard-local accessors -/

namespace vrs

/-- C20. Shard-local accessors stay in range: for `count >= 1` and every
shard `i` of a constructed `LargeVerifier`, with range
`[first_i, second_i) = [i*k, min((i+1)*k, count))`, the shard verifier's
`get_p(j)` is the caller's `get_p(first_i + j)`, the `get_w` handed to the
shard's `Verify` maps `j` to the caller's `get_w(first_i + j)`, and for every
local index `j < second_i - first_i` (the shard's own `count`) the global
index `first_i + j` is below `count`. -/
theorem shard_accessors_in_range {F G R : Type} [AddCommGroup G] (sv : ShardVerify F G R)
    (k : Nat) (hk : 0 < k) (public_input : PublicInput G) (hcount : 1 ≤ public_input.count)
    (rom_seed : h256_t) (get_w : Nat → F) (proofs : List (Proof G R)) :
    0 < (LargeVerifier.new k public_input).items_.length ∧
    ∀ i, i < (LargeVerifier.new k public_input).items_.length →
      ∃ (item : Nat × Nat) (v : Verifier G),
        (LargeVerifier.new k public_input).items_[i]? = some item ∧
        (LargeVerifier.new k public_input).verifiers_[i]? = some (some v) ∧
        item.1 = i * k ∧ item.2 = min ((i + 1) * k) public_input.count ∧
        v.public_input.count = item.2 - item.1 ∧
        (∀ j, v.public_input.get_p j = public_input.get_p (item.1 + j)) ∧
        (∀ p, proofs[i]? = some p →
          ∃ this_get_w : Nat → F,
            shardCall sv (LargeVerifier.new k public_input).items_
              (LargeVerifier.new k public_input).verifiers_ rom_seed get_w proofs i
              = some (sv v.public_input rom_seed this_get_w p) ∧
            ∀ j, this_get_w j = get_w (item.1 + j)) ∧
        (∀ j, j < v.public_input.count → item.1 + j < public_input.count) := by
  have hitems : (LargeVerifier.new k public_input).items_
      = LargeVerifier.makeItems k public_input.count := rfl
  constructor
  · rw [hitems, makeItems_length, lt_shards_iff k _ 0 hk]
    omega
  · intro i hi
    rw [hitems, makeItems_length] at hi
    have hit := makeItems_getElem? k public_input.count i hi
    have h1 := (lt_shards_iff k public_input.count i hk).mp hi
    refine ⟨(i * k, min ((i + 1) * k) public_input.count),
      { public_input :=
          { count := min ((i + 1) * k) public_input.count - i * k
            get_p := fun j => public_input.get_p (i * k + j) } },
      hit, ?_, rfl, rfl, rfl, fun _ => rfl, ?_, ?_⟩
    · simp only [LargeVerifier.new, List.getElem?_map, hit, Option.map_some']
    · intro p hp
      refine ⟨fun j => get_w (j + i * k), ?_, fun j => by rw [Nat.add_comm]⟩
      exact shardCall_new sv k public_input rom_seed get_w proofs i p hi hp
    · intro j hj
      simp only at hj
      rw [Nat.add_mul, Nat.one_mul] at hj
      simp only
      omega

end vrs

/-- Witness for C20: `count = 3`, `kMaxUnitPerZkp = 2`: the verifier has
shards and the second one reads the caller's `get_p(2 + j)`. -/
theorem shard_accessors_in_range_witness :
    0 < (vrs.LargeVerifier.new 2 toyPublicInput).items_.length ∧
    ∃ (item : Nat × Nat) (v : vrs.Verifier (ZMod 101)),
      (vrs.LargeVerifier.new 2 toyPublicInput).items_[1]? = some item ∧
      (vrs.LargeVerifier.new 2 toyPublicInput).verifiers_[1]? = some (some v) ∧
      item.1 = 1 * 2 ∧
      (∀ j, v.public_input.get_p j = toyPublicInput.get_p (item.1 + j)) ∧
      (∀ j, j < v.public_input.count → item.1 + j < toyPublicInput.count) := by
  obtain ⟨h0, hall⟩ := vrs.shard_accessors_in_range toyShardVerify 2 (by decide) toyPublicInput
    (by decide) toySeed toyGetW toyProofs
  obtain ⟨item, v, h1, h2, h3, _, _, h6, _, h8⟩ := hall 1 (by decide)
  exact ⟨h0, item, v, h1, h2, h3, h6, h8⟩

/-! ## Special soundness of a2 -/

section
variable {F G : Type} [Field F] [AddCommGroup G] [Module F G]

theorem MultiExp_extract (s : F) : ∀ (z z2 : List F) (g : Nat → G), z.length = z2.length →
    MultiExp g (extractWitness z z2 s) = s⁻¹ • (MultiExp g z - MultiExp g z2) := by
  intro z
  induction z with
  | nil =>
    intro z2 g h
    cases z2 with
    | nil => simp [extractWitness, MultiExp]
    | cons b ds => simp at h
  | cons p xs ih =>
    intro z2 g h
    cases z2 with
    | nil => simp at h
    | cons q ds =>
      have hl : xs.length = ds.length := by simpa using h
      have := ih ds (fun i => g (i + 1)) hl
      simp only [extractWitness, List.zipWith_cons_cons, MultiExp] at this ⊢
      rw [this, div_eq_mul_inv, mul_comm, mul_smul, sub_smul, ← smul_add]
      congr 1
      abel

theorem InnerProduct_extract (s : F) : ∀ (z z2 a : List F), z.length = z2.length →
    InnerProduct (extractWitness z z2 s) a = (InnerProduct z a - InnerProduct z2 a) / s := by
  intro z
  induction z with
  | nil =>
    intro z2 a h
    cases z2 with
    | nil => simp [extractWitness, InnerProduct]
    | cons b ds => simp at h
  | cons p xs ih =>
    intro z2 a h
    cases z2 with
    | nil => simp at h
    | cons q ds =>
      have hl : xs.length = ds.length := by simpa using h
      cases a with
      | nil => simp [extractWitness, InnerProduct]
      | cons r as =>
        have := ih ds as hl
        simp only [extractWitness, InnerProduct, List.zipWith_cons_cons, List.sum_cons]
          at this ⊢
        rw [this]
        ring

end

namespace hyrax.a2

section
variable {F G : Type} [Field F] [AddCommGroup G] [Module F G] [DecidableEq G]

/-- The two equations read off an accepting run of `VerifyInternal`. -/
theorem equations_of_VerifyInternal (pds : PdsPub G) (dbg : Bool) (input : VerifierInput F G)
    (c : F) (cep : CommitmentExtPub G) (proof : Proof F)
    (h : VerifyInternal pds dbg input c cep proof = Except.ok true) :
    c • input.com_pub.xi + cep.delta = ComputeCommitment pds proof.z proof.z_delta ∧
    c • input.com_pub.tau + cep.beta
      = ComputeCommitment1 pds (InnerProduct proof.z input.a) proof.z_beta := by
  rw [VerifyInternal_eq] at h
  by_contra hc
  rw [if_neg hc] at h
  cases dbg <;> simp at h

/-- C22. Special soundness of the a2 verification equations: for every
verifier input `(a, xi, tau)`, every `(delta, beta)` and two challenges
`c != c2`, when `VerifyInternal` accepts `(z, z_delta, z_beta)` under `c` and
`(z2, z_delta2, z_beta2)` under `c2` (two response vectors of the same length
`n`), then `x* = (z - z2)/(c - c2)` with `r = (z_delta - z_delta2)/(c - c2)`
opens `xi`, and `y* = <x*, a>` with `r2 = (z_beta - z_beta2)/(c - c2)` opens
`tau`. -/
theorem a2_special_soundness (pds : PdsPub G) (dbg : Bool) (input : VerifierInput F G)
    (cep : CommitmentExtPub G) (c c2 : F) (p p2 : Proof F)
    (hne : c ≠ c2) (hlen : p.z.length = p2.z.length)
    (h1 : VerifyInternal pds dbg input c cep p = Except.ok true)
    (h2 : VerifyInternal pds dbg input c2 cep p2 = Except.ok true) :
    input.com_pub.xi
      = ComputeCommitment pds (extractWitness p.z p2.z (c - c2))
          ((p.z_delta - p2.z_delta) / (c - c2)) ∧
    input.com_pub.tau
      = ComputeCommitment1 pds (InnerProduct (extractWitness p.z p2.z (c - c2)) input.a)
          ((p.z_beta - p2.z_beta) / (c - c2)) := by
  obtain ⟨e1, e2⟩ := equations_of_VerifyInternal pds dbg input c cep p h1
  obtain ⟨f1, f2⟩ := equations_of_VerifyInternal pds dbg input c2 cep p2 h2
  have hs : c - c2 ≠ 0 := sub_ne_zero.mpr hne
  have hinv : ∀ v : G, v = (c - c2)⁻¹ • ((c - c2) • v) := by
    intro v
    rw [← mul_smul, inv_mul_cancel₀ hs, one_smul]
  constructor
  · have hsub : (c - c2) • input.com_pub.xi
        = (MultiExp pds.g p.z - MultiExp pds.g p2.z)
          + (p.z_delta - p2.z_delta) • pds.h := by
      have h3 : (c - c2) • input.com_pub.xi
          = (c • input.com_pub.xi + cep.delta) - (c2 • input.com_pub.xi + cep.delta) := by
        rw [sub_smul]
        abel
      rw [h3, e1, f1]
      simp only [ComputeCommitment, sub_smul]
      abel
    rw [hinv input.com_pub.xi, hsub]
    simp only [ComputeCommitment, MultiExp_extract (c - c2) p.z p2.z pds.g hlen, smul_add,
      ← mul_smul, div_eq_mul_inv, mul_comm]
  · have hsub : (c - c2) • input.com_pub.tau
        = (InnerProduct p.z input.a - InnerProduct p2.z input.a) • pds.u
          + (p.z_beta - p2.z_beta) • pds.h := by
      have h3 : (c - c2) • input.com_pub.tau
          = (c • input.com_pub.tau + cep.beta) - (c2 • input.com_pub.tau + cep.beta) := by
        rw [sub_smul]
        abel
      rw [h3, e2, f2]
      simp only [ComputeCommitment1, sub_smul]
      abel
    rw [hinv input.com_pub.tau, hsub]
    simp only [ComputeCommitment1, InnerProduct_extract (c - c2) p.z p2.z input.a hlen,
      smul_add, ← mul_smul, div_eq_mul_inv, mul_comm]

end

end hyrax.a2

/-- Witness for C22: the toy commitments with the accepting responses under
the challenges 3 and 5; the extracted vector is `x = [3, 5]`. -/
theorem a2_special_soundness_witness :
    hyrax.a2.VerifyInternal toyPds true toyVerifierInput 3 toyRomProof.com_ext_pub
      toyRomProof.proof = Except.ok true ∧
    hyrax.a2.VerifyInternal toyPds true toyVerifierInput 5 toyRomProof.com_ext_pub toyProof5
      = Except.ok true ∧
    extractWitness toyRomProof.proof.z toyProof5.z (3 - 5) = [3, 5] ∧
    toyVerifierInput.com_pub.xi
      = hyrax.a2.ComputeCommitment toyPds (extractWitness toyRomProof.proof.z toyProof5.z (3 - 5))
          ((toyRomProof.proof.z_delta - toyProof5.z_delta) / (3 - 5)) := by
  have hx : extractWitness toyRomProof.proof.z toyProof5.z (3 - 5) = [3, 5] := by
    have h1 : ((29 : ZMod 101) - 35) / (3 - 5) = 3 := by
      rw [div_eq_iff (by decide)]
      decide
    have h2 : ((36 : ZMod 101) - 46) / (3 - 5) = 5 := by
      rw [div_eq_iff (by decide)]
      decide
    simp only [extractWitness, toyRomProof, toyProof5, List.zipWith_cons_cons,
      List.zipWith_nil_right, h1, h2]
  exact ⟨rfl, rfl, hx,
    (hyrax.a2.a2_special_soundness toyPds true toyVerifierInput toyRomProof.com_ext_pub 3 5
      toyRomProof.proof toyProof5 (by decide) (by rfl) (by rfl) (by rfl)).1⟩

/-! ## The merge: order of the shards and the empty case -/

namespace vrs

/-- `MergeOutputs` on a list with a first element. -/
theorem MergeOutputs_cons {G : Type} [AddCommGroup G] (output first : Output G)
    (rest : List (Output G)) :
    details.MergeOutputs output (first :: rest) =
      Except.ok
        { h := first.h
          g := ((first :: rest).map (fun o => o.g)).sum
          key_com := ((first :: rest).map (fun o => o.key_com)).sum } := by
  simp only [details.MergeOutputs, List.getElem?_cons_zero, foldl_add_eq_sum, zero_add]

/-- The sums `MergeOutputs` forms do not depend on the order of the list: a
non-empty list and a permutation of it both have a first element, and the
sums of their `g` and of their `key_com` agree. -/
theorem MergeOutputs_perm_sums {G : Type} [AddCommGroup G]
    (l1 l2 : List (Output G)) (hperm : l1.Perm l2) (hne : l1 ≠ []) :
    ∃ a r1 b r2, l1 = a :: r1 ∧ l2 = b :: r2 ∧ b ∈ l1 ∧
      ((a :: r1).map (fun o => o.g)).sum = ((b :: r2).map (fun o => o.g)).sum ∧
      ((a :: r1).map (fun o => o.key_com)).sum
        = ((b :: r2).map (fun o => o.key_com)).sum := by
  cases l1 with
  | nil => exact absurd rfl hne
  | cons a r1 =>
    cases l2 with
    | nil => exact absurd hperm.eq_nil (List.cons_ne_nil _ _)
    | cons b r2 =>
      exact ⟨a, r1, b, r2, rfl, rfl, hperm.symm.subset (List.mem_cons_self b r2),
        (hperm.map _).sum_eq, (hperm.map _).sum_eq⟩

/-- C21. Order independence of the merge: for every non-empty list of shard
outputs (the shard outputs of one task carry one common `h`) and every
permutation of that list, `MergeOutputs` returns on both lists and produces
the same merged output: `h`, `g` and `key_com` are all equal, `h` being the
common `h`, `g` the sum of the `g` and `key_com` the sum of the `key_com`. -/
theorem MergeOutputs_perm {G : Type} [AddCommGroup G] (output : Output G)
    (l1 l2 : List (Output G)) (hperm : l1.Perm l2) (hne : l1 ≠ [])
    (hsame : ∀ o1 o2, o1 ∈ l1 → o2 ∈ l1 → o1.h = o2.h) :
    ∃ m1 m2, details.MergeOutputs output l1 = Except.ok m1 ∧
      details.MergeOutputs output l2 = Except.ok m2 ∧
      m1.h = m2.h ∧ m1.g = m2.g ∧ m1.key_com = m2.key_com ∧ m1 = m2 ∧
      (∀ o, o ∈ l1 → m1.h = o.h) ∧
      m1.g = (l1.map (fun o => o.g)).sum ∧
      m1.key_com = (l1.map (fun o => o.key_com)).sum := by
  obtain ⟨a, r1, b, r2, h1, h2, hb, hg, hk⟩ := MergeOutputs_perm_sums l1 l2 hperm hne
  subst h1
  subst h2
  have hh : a.h = b.h := hsame a b (List.mem_cons_self a r1) hb
  refine ⟨_, _, MergeOutputs_cons output a r1, MergeOutputs_cons output b r2, hh, hg, hk, ?_,
    ?_, rfl, rfl⟩
  · rw [hg, hk, hh]
  · intro o ho
    exact hsame a o (List.mem_cons_self a r1) ho

/-- A constructed verifier with `count >= 1` never faults in `Verify`. -/
theorem Verify_new_returns {F G R : Type} [AddCommGroup G] (sv : ShardVerify F G R)
    (k : Nat) (hk : 0 < k) (public_input : PublicInput G) (hcount : 1 ≤ public_input.count)
    (rom_seed : h256_t) (get_w : Nat → F) (proofs : List (Proof G R))
    (output : VerifyOutput G) :
    ∃ r, LargeVerifier.Verify sv (LargeVerifier.new k public_input) rom_seed get_w proofs output
      = Except.ok r := by
  by_cases hlen : proofs.length = (LargeVerifier.new k public_input).verifiers_.length
  · have hvs := new_verifiers k public_input
    have hn : proofs.length = (public_input.count + k - 1) / k := by
      rw [hlen]
      simp [LargeVerifier.new, makeItems_length]
    generalize hvsdef : ((LargeVerifier.makeItems k public_input.count).map (fun item =>
          ({ public_input :=
              { count := item.2 - item.1,
                get_p := fun j => public_input.get_p (item.1 + j) } } : Verifier G))) = vs
      at hvs
    have hvl : vs.length = proofs.length := by
      rw [← hvsdef, hn]
      simp [makeItems_length]
    have hpos : 0 < vs.length := by
      rw [hvl, hn, lt_shards_iff k _ 0 hk]
      omega
    have hf : ∀ i, i < vs.length →
        shardCall sv (LargeVerifier.new k public_input).items_ (vs.map some) rom_seed get_w
          proofs i
        = some ((fun i => (shardCall sv (LargeVerifier.new k public_input).items_
            (LargeVerifier.new k public_input).verifiers_ rom_seed get_w proofs i).getD
            (false, Output.init)) i) := by
      intro i hi
      rw [hvl] at hi
      have hp : proofs[i]? = some proofs[i] := List.getElem?_eq_getElem hi
      rw [← hvs]
      simp only [shardCall_new sv k public_input rom_seed get_w proofs i _ (hn ▸ hi) hp,
        Option.getD_some]
    have hrun := Verify_run sv (LargeVerifier.new k public_input) vs hvs rom_seed get_w proofs
      output hvl.symm _ hf
    by_cases hall : ∀ i, i < vs.length →
        ((shardCall sv (LargeVerifier.new k public_input).items_
          (LargeVerifier.new k public_input).verifiers_ rom_seed get_w proofs i).getD
          (false, Output.init)).1 = true
    · exact ⟨_, hrun.2.1 hall hpos⟩
    · have hex : ∃ i, i < vs.length ∧
          ((shardCall sv (LargeVerifier.new k public_input).items_
            (LargeVerifier.new k public_input).verifiers_ rom_seed get_w proofs i).getD
            (false, Output.init)).1 = false := by
        by_contra hc
        apply hall
        intro i hi
        cases hfi : ((shardCall sv (LargeVerifier.new k public_input).items_
            (LargeVerifier.new k public_input).verifiers_ rom_seed get_w proofs i).getD
            (false, Output.init)).1
        · exact absurd ⟨i, hi, hfi⟩ hc
        · rfl
      exact ⟨_, hrun.1 hex⟩
  · refine ⟨{ ret := false, self := LargeVerifier.new k public_input, output := output,
              calls := [] }, ?_⟩
    unfold LargeVerifier.Verify
    rw [if_pos hlen]

/-- A constructed verifier with `count = 0`, given no proof, reaches
`MergeOutputs` with no output. -/
theorem Verify_new_empty {F G R : Type} [AddCommGroup G] (sv : ShardVerify F G R)
    (k : Nat) (hk : 0 < k) (public_input : PublicInput G) (hcount : public_input.count = 0)
    (rom_seed : h256_t) (get_w : Nat → F) (output : VerifyOutput G) :
    LargeVerifier.Verify sv (LargeVerifier.new k public_input) rom_seed get_w
      ([] : List (Proof G R)) output = Except.error Fault.invalidAccess := by
  have hvs := new_verifiers k public_input
  have hitems : LargeVerifier.makeItems k public_input.count = [] := by
    have hn : (k - 1) / k = 0 := Nat.div_eq_of_lt (by omega)
    simp [LargeVerifier.makeItems, hcount, hn]
  rw [hitems] at hvs
  exact (Verify_run sv (LargeVerifier.new k public_input) [] hvs rom_seed get_w [] output rfl
    (fun _ => (false, Output.init)) (fun i hi => absurd hi (Nat.not_lt_zero _))).2.2 rfl

end vrs

namespace vrs

/-- `MergeOutputs` faults exactly on the empty list. -/
theorem MergeOutputs_fault_iff {G : Type} [AddCommGroup G] (output : Output G)
    (outputs : List (Output G)) :
    details.MergeOutputs output outputs = Except.error Fault.invalidAccess ↔ outputs = [] := by
  cases outputs with
  | nil => simp [details.MergeOutputs]
  | cons a rest =>
    rw [MergeOutputs_cons]
    simp

/-- The number of shards is positive exactly when `count >= 1`. -/
theorem shards_pos_iff (k count : Nat) (hk : 0 < k) : 0 < (count + k - 1) / k ↔ 1 ≤ count := by
  rw [lt_shards_iff k count 0 hk]
  omega

/-- `Prove` on an object without shards reaches `MergeOutputs` with no
output. -/
theorem Prove_no_shards {F G R : Type} [Field F] [AddCommGroup G] [Module F G] [DecidableEq G]
    (pds : PdsPub G) (sp : ShardProver F G R) (dbg : Bool) (self : LargeProver F G)
    (rom_seed : h256_t) (get_w : Nat → F) (dproof : Proof G R) (proofs : List (Proof G R))
    (output : ProveOutput G) (h0 : self.provers_.length = 0) :
    LargeProver.Prove pds sp dbg self rom_seed get_w dproof proofs output
      = Except.error Fault.invalidAccess := by
  unfold LargeProver.Prove
  simp [h0, forLoop, details.MergeOutputs]

/-- `Prove` on a constructed prover with at least one shard does not read out
of bounds. -/
theorem Prove_new_no_fault {F G R : Type} [Field F] [AddCommGroup G] [Module F G]
    [DecidableEq G] (pds : PdsPub G) (sp : ShardProver F G R) (dbg : Bool) (k : Nat)
    (SplitFr : SplitFrFn F) (rv rk : Nat → F) (public_input : PublicInput G)
    (secret_input : SecretInput F) (coms : List (List G)) (coms_r : List (List F))
    (lp : LargeProver F G) (rom_seed : h256_t) (get_w : Nat → F) (dproof : Proof G R)
    (proofs : List (Proof G R)) (output : ProveOutput G)
    (hnew : LargeProver.new dbg k SplitFr rv rk public_input secret_input coms coms_r
      = Except.ok lp)
    (hpos : 0 < lp.provers_.length) :
    LargeProver.Prove pds sp dbg lp rom_seed get_w dproof proofs output
      ≠ Except.error Fault.invalidAccess := by
  obtain ⟨sis, _, _, hall⟩ := proveCall_new sp dbg k SplitFr rv rk public_input
    secret_input coms coms_r lp hnew rom_seed get_w
  have hrun := Prove_run pds sp dbg lp rom_seed get_w dproof proofs output hpos
    (fun i => (proveCall sp lp.items_ lp.provers_ rom_seed get_w i).getD
      (dproof, Output.init, 0))
    (by
      intro i hi
      obtain ⟨p, s, _, _, hcall⟩ := hall i hi
      simp only [hcall, Option.getD_some])
  rw [hrun]
  split
  · intro h
    exact Fault.noConfusion (Except.error.inj h)
  · intro h
    exact Except.noConfusion h

/-- With `count = 0` and no cache the constructor returns an object without
shards. -/
theorem new_count_zero {F G : Type} [Field F] (dbg : Bool) (k : Nat) (hk : 0 < k)
    (SplitFr : SplitFrFn F) (rv rk : Nat → F) (public_input : PublicInput G)
    (secret_input : SecretInput F) (hcount : public_input.count = 0) :
    LargeProver.new dbg k SplitFr rv rk public_input secret_input [] []
      = Except.ok
          { public_input_ := public_input
            secret_input_ := secret_input
            provers_ := []
            items_ := []
            vw_ := 0
            v_ := [] } := by
  have hn : (k - 1) / k = 0 := Nat.div_eq_of_lt (by omega)
  have hitems : SplitLargeTask k public_input.count = [] := by
    simp [SplitLargeTask, hcount, hn]
  unfold LargeProver.new
  simp only [hitems]
  cases dbg <;> simp [cassert, LargeProver.BuildSecretInputs, traverse]

end vrs

namespace vrs

/-- C23. Merge index safety: `MergeOutputs` reads `outputs[0]` out of bounds
exactly on the empty list; `Verify` on a constructed verifier makes that read
out of bounds exactly when `count = 0` and the proof list is empty (with
`count >= 1` it always returns), and in that case it has passed the
proof-count check and the all-shards-succeeded check; `Prove` on a
constructed prover makes it exactly when `count = 0`, and at `count = 0` the
constructor does return a prover. So neither operation is total at
`count = 0`. -/
theorem merge_index_safety {F G R : Type} [Field F] [AddCommGroup G] [Module F G]
    [DecidableEq G] (pds : PdsPub G) (sv : ShardVerify F G R) (sp : ShardProver F G R)
    (dbg : Bool) (k : Nat) (hk : 0 < k) (SplitFr : SplitFrFn F) (rv rk : Nat → F)
    (public_input : PublicInput G) (secret_input : SecretInput F) (rom_seed : h256_t)
    (get_w : Nat → F) (dproof : Proof G R) :
    (∀ (out : Output G) (outputs : List (Output G)),
      details.MergeOutputs out outputs = Except.error Fault.invalidAccess ↔ outputs = []) ∧
    (0 < (LargeVerifier.new k public_input).verifiers_.length ↔ 1 ≤ public_input.count) ∧
    (∀ (proofs : List (Proof G R)) (output : VerifyOutput G),
      LargeVerifier.Verify sv (LargeVerifier.new k public_input) rom_seed get_w proofs output
        = Except.error Fault.invalidAccess ↔ public_input.count = 0 ∧ proofs = []) ∧
    (1 ≤ public_input.count → ∀ (proofs : List (Proof G R)) (output : VerifyOutput G),
      ∃ r, LargeVerifier.Verify sv (LargeVerifier.new k public_input) rom_seed get_w proofs
        output = Except.ok r) ∧
    (∀ (coms : List (List G)) (coms_r : List (List F)) (lp : LargeProver F G)
        (proofs : List (Proof G R)) (output : ProveOutput G),
      LargeProver.new dbg k SplitFr rv rk public_input secret_input coms coms_r
        = Except.ok lp →
      (0 < lp.provers_.length ↔ 1 ≤ public_input.count) ∧
      (LargeProver.Prove pds sp dbg lp rom_seed get_w dproof proofs output
        = Except.error Fault.invalidAccess ↔ public_input.count = 0)) ∧
    (public_input.count = 0 →
      ∃ lp, LargeProver.new dbg k SplitFr rv rk public_input secret_input [] []
        = Except.ok lp) := by
  have hvlen : (LargeVerifier.new k public_input).verifiers_.length
      = (public_input.count + k - 1) / k := by
    simp [LargeVerifier.new, makeItems_length]
  refine ⟨MergeOutputs_fault_iff, ?_, ?_, ?_, ?_, ?_⟩
  · rw [hvlen]
    exact shards_pos_iff k _ hk
  · intro proofs output
    constructor
    · intro h
      by_cases hc : 1 ≤ public_input.count
      · obtain ⟨r, hr⟩ := Verify_new_returns sv k hk public_input hc rom_seed get_w proofs
          output
        rw [hr] at h
        exact Except.noConfusion h
      · have hc0 : public_input.count = 0 := by omega
        refine ⟨hc0, ?_⟩
        by_contra hne
        have hlen : proofs.length ≠ (LargeVerifier.new k public_input).verifiers_.length := by
          have h0 : ¬ 0 < (public_input.count + k - 1) / k := by
            rw [shards_pos_iff k _ hk]
            exact hc
          have hp : 0 < proofs.length := List.length_pos.mpr hne
          rw [hvlen]
          omega
        unfold LargeVerifier.Verify at h
        rw [if_pos hlen] at h
        exact Except.noConfusion h
    · rintro ⟨hc0, hp⟩
      rw [hp]
      exact Verify_new_empty sv k hk public_input hc0 rom_seed get_w output
  · intro hc proofs output
    exact Verify_new_returns sv k hk public_input hc rom_seed get_w proofs output
  · intro coms coms_r lp proofs output hnew
    obtain ⟨_, _, _, _, sis, _, hlen, _⟩ := new_inv dbg k SplitFr rv rk public_input
      secret_input coms coms_r lp hnew
    have hpos : 0 < lp.provers_.length ↔ 1 ≤ public_input.count := by
      rw [hlen, SplitLargeTask_length]
      exact shards_pos_iff k _ hk
    refine ⟨hpos, ?_⟩
    constructor
    · intro h
      by_contra hc
      exact Prove_new_no_fault pds sp dbg k SplitFr rv rk public_input secret_input coms coms_r
        lp rom_seed get_w dproof proofs output hnew (hpos.mpr (by omega)) h
    · intro hc0
      apply Prove_no_shards
      by_contra hne
      have := hpos.mp (Nat.pos_of_ne_zero hne)
      omega
  · intro hc0
    exact ⟨_, new_count_zero dbg k hk SplitFr rv rk public_input secret_input hc0⟩

end vrs

/-- Witness for C21: two shard outputs with the common `h = 1` and their
swap merge to the same output, `h = 1`, `g = 2 + 5`, `key_com = 3 + 6`. -/
theorem MergeOutputs_perm_witness :
    toyOutputsA.Perm toyOutputsB ∧ toyOutputsA ≠ [] ∧
    (∀ o1 o2, o1 ∈ toyOutputsA → o2 ∈ toyOutputsA → o1.h = o2.h) ∧
    vrs.details.MergeOutputs toyOutput toyOutputsA
      = Except.ok { h := 1, g := 7, key_com := 9 } ∧
    vrs.details.MergeOutputs toyOutput toyOutputsB
      = Except.ok { h := 1, g := 7, key_com := 9 } ∧
    ∃ m1 m2, vrs.details.MergeOutputs toyOutput toyOutputsA = Except.ok m1 ∧
      vrs.details.MergeOutputs toyOutput toyOutputsB = Except.ok m2 ∧
      m1.h = m2.h ∧ m1.g = m2.g ∧ m1.key_com = m2.key_com ∧ m1 = m2 ∧
      (∀ o, o ∈ toyOutputsA → m1.h = o.h) ∧
      m1.g = (toyOutputsA.map (fun o => o.g)).sum ∧
      m1.key_com = (toyOutputsA.map (fun o => o.key_com)).sum := by
  have hsame : ∀ o1 o2, o1 ∈ toyOutputsA → o2 ∈ toyOutputsA → o1.h = o2.h := by
    intro o1 o2 h1 h2
    simp only [toyOutputsA, List.mem_cons, List.mem_singleton, List.not_mem_nil, or_false]
      at h1 h2
    rcases h1 with h1 | h1 <;> rcases h2 with h2 | h2 <;> rw [h1, h2]
  have ha : vrs.details.MergeOutputs toyOutput toyOutputsA
      = Except.ok { h := 1, g := 7, key_com := 9 } := by
    simp only [toyOutputsA, vrs.MergeOutputs_cons, List.map_cons, List.map_nil, List.sum_cons,
      List.sum_nil, add_zero]
    rfl
  have hb : vrs.details.MergeOutputs toyOutput toyOutputsB
      = Except.ok { h := 1, g := 7, key_com := 9 } := by
    simp only [toyOutputsB, vrs.MergeOutputs_cons, List.map_cons, List.map_nil, List.sum_cons,
      List.sum_nil, add_zero]
    rfl
  exact ⟨List.Perm.swap _ _ _, List.cons_ne_nil _ _, hsame, ha, hb,
    vrs.MergeOutputs_perm toyOutput toyOutputsA toyOutputsB (List.Perm.swap _ _ _)
      (List.cons_ne_nil _ _) hsame⟩

/-- With `count = 0` and `k = 2` the toy verifier, given no proof, reads
`outputs[0]` of an empty list, and so does the toy prover. -/
theorem merge_index_safety_witness :
    0 < 2 ∧
    vrs.LargeVerifier.Verify toyShardVerify (vrs.LargeVerifier.new 2 toyPublicInputZero)
      toySeed toyGetW [] toyOutput = Except.error Fault.invalidAccess ∧
    ∃ lp, vrs.LargeProver.new true 2 toySplitFr toyRandV toyRandK toyPublicInputZero
        toySecretInput [] [] = Except.ok lp :=
  ⟨by decide,
    ((vrs.merge_index_safety toyPds toyShardVerify toyShardProver true 2 (by decide)
      toySplitFr toyRandV toyRandK toyPublicInputZero toySecretInput toySeed toyGetW
      toyDefaultProof).2.2.1 [] toyOutput).mpr ⟨rfl, rfl⟩,
    (vrs.merge_index_safety toyPds toyShardVerify toyShardProver true 2 (by decide)
      toySplitFr toyRandV toyRandK toyPublicInputZero toySecretInput toySeed toyGetW
      toyDefaultProof).2.2.2.2.2 rfl⟩
